import Mathlib

/-!
# Singly linked list with loop detection (`linked_list.h`)

A shallow embedding of the `LinkedList<T>` class template and of the printing
routine of the demo application.

Memory model. Every `LinkedList` object carries the memory cells of its own
items: `heap` is the list of cells, the address of a cell is its index, and a
pointer is an `Option Nat` (`none` is `nullptr`).  `new` appends a cell and
returns its index, `delete` turns the cell into `none`; a released address is
never handed out again, and the numeric value of an address
(`reinterpret_cast<uintptr_t>`) is the index.  Reading or writing through a pointer whose cell is
`none` (or lies outside `heap`) is undefined behaviour in the C++ program; every
operation therefore returns an `Option`, and `none` stands for "the program
dereferenced an invalid pointer" (or, for the loops that carry a fuel argument,
"the fuel did not suffice").  The destructor returns its memory as an `Option`
in the same sense, next to the addresses that its loop went through.  The theorems
below establish `some _` results, with one exception: the loop of `~LinkedList` on
a looped list, which comes back to an item that it has released (see
`destructorLoop`).

Counters. `items_num` and `transitions_num` are `unsigned long` in the source.
`items_num` always equals the number of cells that were allocated and not yet
released, a quantity that the address space keeps far below `2 ^ 64`, so the
counters are modelled by `Nat` without wrap-around.
-/

namespace LinkedListCpp

/-- One item of the list (`class LinkedListItem`): the data and the pointer to the next item. -/
structure LinkedListItem (T : Type) where
  data : T
  p_next : Option Nat
deriving DecidableEq, Repr

/-- The list object (`class LinkedList`): its private attributes together with the
memory cells of its items. -/
structure LinkedList (T : Type) where
  heap : List (Option (LinkedListItem T))
  p_head : Option Nat
  p_tail : Option Nat
  p_listing : Option Nat
  items_num : Nat
deriving DecidableEq, Repr

/-- Read of the cell at address `a`; `none` when the address is not a live item. -/
def deref {T : Type} (heap : List (Option (LinkedListItem T))) (a : Nat) :
    Option (LinkedListItem T) :=
  heap.getD a none

/-- Default array size of the hash table (`DEFAULT_HASH_TABLE_SIZE`). -/
def DEFAULT_HASH_TABLE_SIZE : Nat := 10

namespace LinkedList

variable {T : Type}

/-- Constructor `LinkedList<T>::LinkedList()`: the empty list. -/
def mkEmpty : LinkedList T :=
  { heap := [], p_head := none, p_tail := none, p_listing := none, items_num := 0 }

/-- Method `AddItemAtEnd`. -/
def AddItemAtEnd (data : T) (s : LinkedList T) : Option (LinkedList T) :=
  -- LinkedListItem<T> *p_new = new LinkedListItem<T>(data);
  let p_new := s.heap.length
  let heap1 := s.heap ++ [some { data := data, p_next := none }]
  match s.p_head with
  | none =>
    some { heap := heap1, p_head := some p_new, p_tail := some p_new,
           p_listing := some p_new, items_num := s.items_num + 1 }
  | some _ =>
    -- this->p_tail->p_next = p_new; this->p_tail = p_new;
    match s.p_tail with
    | none => none
    | some t =>
      match deref s.heap t with
      | none => none
      | some tail_item =>
        some { heap := heap1.set t (some { tail_item with p_next := some p_new }),
               p_head := s.p_head, p_tail := some p_new, p_listing := s.p_listing,
               items_num := s.items_num + 1 }

/-- The `while` loop of `GetCurrentPreviousItemPointer`. The arguments after the fuel are
`*pp_current_item`, `*pp_previous_item` and `transitions_num`; the result holds their values
when the loop is left. -/
def searchLoop [DecidableEq T] (heap : List (Option (LinkedListItem T))) (items_num : Nat)
    (data : T) : Nat → Option Nat → Option Nat → Nat → Option (Option Nat × Option Nat × Nat)
  | _, none, prev, tn => some (none, prev, tn)
  | 0, some a, prev, tn =>
    match deref heap a with
    | none => none
    | some item =>
      if item.data ≠ data ∧ tn ≤ items_num then none else some (some a, prev, tn)
  | fuel + 1, some a, prev, tn =>
    match deref heap a with
    | none => none
    | some item =>
      if item.data ≠ data ∧ tn ≤ items_num then
        searchLoop heap items_num data fuel item.p_next (some a) (tn + 1)
      else some (some a, prev, tn)

/-- Method `GetCurrentPreviousItemPointer`: the pair `(*pp_current_item, *pp_previous_item)`
it leaves behind. Every caller passes a `pp_current_item`; a caller that passes no
`pp_previous_item` ignores the second component. -/
def GetCurrentPreviousItemPointer [DecidableEq T] (data : T) (s : LinkedList T) :
    Option (Option Nat × Option Nat) :=
  match searchLoop s.heap s.items_num data s.items_num s.p_head none 1 with
  | none => none
  | some (cur, prev, tn) =>
    if tn > s.items_num then some (none, none) else some (cur, prev)

/-- Method `DeleteItem`. -/
def DeleteItem [DecidableEq T] (data_to_delete : T) (s : LinkedList T) :
    Option (LinkedList T) :=
  match GetCurrentPreviousItemPointer data_to_delete s with
  | none => none
  | some (none, _) => some s
  | some (some c, p_previous) =>
    match deref s.heap c with
    | none => none
    | some cur =>
      let relinked : Option (LinkedList T) :=
        match p_previous with
        | some p =>
          match deref s.heap p with
          | none => none
          | some prv =>
            some { s with heap := s.heap.set p (some { prv with p_next := cur.p_next }),
                          p_tail := if some c = s.p_tail then some p else s.p_tail }
        | none => some { s with p_head := cur.p_next }
      match relinked with
      | none => none
      | some s1 =>
        -- delete p_current;
        match deref s1.heap c with
        | none => none
        | some _ =>
          some { s1 with heap := s1.heap.set c none,
                         items_num := if s1.items_num > 0 then s1.items_num - 1
                                      else s1.items_num }

/-- Method `GetNextItem`. The argument `data` is the caller's variable behind the reference;
the result is the returned flag, the variable after the call and the list after the call. -/
def GetNextItem (s : LinkedList T) (data : T) : Option (Bool × T × LinkedList T) :=
  match s.p_listing with
  | none => some (false, data, s)
  | some a =>
    match deref s.heap a with
    | none => none
    | some item =>
      match item.p_next with
      | some n => some (true, item.data, { s with p_listing := some n })
      | none => some (false, item.data, s)

/-- Method `ResetReading`. -/
def ResetReading (s : LinkedList T) : LinkedList T :=
  { s with p_listing := s.p_head }

/-- Method `IsItemPresent`. -/
def IsItemPresent [DecidableEq T] (data : T) (s : LinkedList T) : Option Bool :=
  match GetCurrentPreviousItemPointer data s with
  | none => none
  | some (p_current, _) => some p_current.isSome

/-- Method `GetItemsNum`. -/
def GetItemsNum (s : LinkedList T) : Nat :=
  s.items_num

/-- Method `SetNextReference`. -/
def SetNextReference [DecidableEq T] (data next_data : T) (s : LinkedList T) :
    Option (LinkedList T) :=
  match GetCurrentPreviousItemPointer data s, GetCurrentPreviousItemPointer next_data s with
  | some (some c, _), some (some n, _) =>
    match deref s.heap c with
    | none => none
    | some cur => some { s with heap := s.heap.set c (some { cur with p_next := some n }) }
  | some _, some _ => some s
  | _, _ => none

/-- The `while` loop of `IsLooping_TransitionCount`; the result is `p_current` when the loop
is left. -/
def transitionLoop (heap : List (Option (LinkedListItem T))) (items_num : Nat) :
    Nat → Option Nat → Nat → Option (Option Nat)
  | _, none, _ => some none
  | 0, some a, tn => if tn ≤ items_num then none else some (some a)
  | fuel + 1, some a, tn =>
    if tn ≤ items_num then
      match deref heap a with
      | none => none
      | some item => transitionLoop heap items_num fuel item.p_next (tn + 1)
    else some (some a)

/-- Method `IsLooping_TransitionCount`. -/
def IsLooping_TransitionCount (s : LinkedList T) : Option Bool :=
  match s.p_head with
  | none => some false
  | some h =>
    match deref s.heap h with
    | none => none
    | some head_item =>
      match head_item.p_next with
      | none => some false
      | some n =>
        match transitionLoop s.heap s.items_num s.items_num (some n) 1 with
        | none => none
        | some p_current => some p_current.isSome

/-- The `while` loop of `IsLooping_FloydsCycleFind`. The arguments after the fuel are
`loop_found`, `p_slow`, `p_fast` and the number of iterations executed so far; the result is
`loop_found` and the number of iterations when the loop is left. -/
def floydLoop (heap : List (Option (LinkedListItem T))) :
    Nat → Bool → Option Nat → Option Nat → Nat → Option (Bool × Nat)
  | _, true, _, _, n => some (true, n)
  | _, false, none, _, n => some (false, n)
  | _, false, some _, none, n => some (false, n)
  | fuel, false, some sl, some fa, n =>
    match deref heap fa with
    | none => none
    | some fast_item =>
      match fast_item.p_next with
      | none => some (false, n)
      | some fn =>
        match fuel with
        | 0 => none
        | fuel + 1 =>
          match deref heap sl, deref heap fn with
          | some slow_item, some fast_next_item =>
            let p_slow := slow_item.p_next
            let p_fast := fast_next_item.p_next
            floydLoop heap fuel (decide (p_slow = p_fast)) p_slow p_fast (n + 1)
          | _, _ => none

/-- Method `IsLooping_FloydsCycleFind`, with the fuel given to its loop. -/
def floydWithFuel (fuel : Nat) (s : LinkedList T) : Option (Bool × Nat) :=
  floydLoop s.heap fuel false s.p_head s.p_head 0

/-- Method `IsLooping_FloydsCycleFind`. The loop gets one unit of fuel per memory cell,
which the theorems below show to be enough. -/
def IsLooping_FloydsCycleFind (s : LinkedList T) : Option Bool :=
  (floydWithFuel s.heap.length s).map Prod.fst

/-- The `while` loop of `IsLooping_OpenHash`. The arguments after the fuel are the hash table
`pa_hash_table` and `p_current` (`item_address` is the numeric value of `p_current`); the
result is `p_current` when the loop is left. -/
def openHashLoop (heap : List (Option (LinkedListItem T))) (hash_table_size : Nat) :
    Nat → List (LinkedList Nat) → Option Nat → Option (Option Nat)
  | _, _, none => some none
  | fuel, table, some a =>
    match table.get? (a % hash_table_size) with
    | none => none
    | some bucket =>
      match IsItemPresent a bucket with
      | none => none
      | some true => some (some a)
      | some false =>
        match fuel with
        | 0 => none
        | fuel + 1 =>
          match AddItemAtEnd a bucket, deref heap a with
          | some bucket1, some item =>
            openHashLoop heap hash_table_size fuel
              (table.set (a % hash_table_size) bucket1) item.p_next
          | _, _ => none

/-- Method `IsLooping_OpenHash`, with the fuel given to its loop. -/
def openHashWithFuel (fuel : Nat) (hash_table_size : Nat) (s : LinkedList T) : Option Bool :=
  let size := if hash_table_size < 1 then DEFAULT_HASH_TABLE_SIZE else hash_table_size
  match s.p_head with
  | none => some false
  | some h =>
    match deref s.heap h with
    | none => none
    | some head_item =>
      match head_item.p_next with
      | none => some false
      | some n =>
        match openHashLoop s.heap size fuel (List.replicate size mkEmpty) (some n) with
        | none => none
        | some p_current => some p_current.isSome

/-- Method `IsLooping_OpenHash`. The loop gets one unit of fuel per memory cell, which the
theorems below show to be enough. -/
def IsLooping_OpenHash (hash_table_size : Nat) (s : LinkedList T) : Option Bool :=
  openHashWithFuel s.heap.length hash_table_size s

/-- The `while` loop of the destructor `~LinkedList`. The arguments after the fuel are the
memory and `p_current`. The first component of the result lists the values of `p_current`
with which the body of the loop was entered, in order: the condition of the loop only compares
`p_current` with `nullptr`, and the body passes `p_current` to `delete` after it has read
`p_current->p_next`. The second component is the memory when the loop is left. It is `none`
when the body was entered with a pointer to a released cell or to a place outside the memory:
the read of `p_current->p_next` is then a read through an invalid pointer, and the `delete`
that follows it releases the cell a second time. It is `none` as well when the fuel runs out.
`delete` runs `~LinkedListItem`, which stores `nullptr` in `p_next`, and releases the cell. -/
def destructorLoop (T : Type) :
    Nat → List (Option (LinkedListItem T)) → Option Nat →
      List Nat × Option (List (Option (LinkedListItem T)))
  | _, heap, none => ([], some heap)
  | 0, _, some _ => ([], none)
  | fuel + 1, heap, some a =>
    -- p_next = p_current->p_next;
    match deref heap a with
    | none => ([a], none)
    | some item =>
      -- delete p_current; p_current = p_next;
      let rest := destructorLoop T fuel (heap.set a none) item.p_next
      (a :: rest.1, rest.2)

/-- Destructor `~LinkedList`, with the fuel given to its loop. -/
def destructorWithFuel (fuel : Nat) (s : LinkedList T) :
    List Nat × Option (List (Option (LinkedListItem T))) :=
  destructorLoop T fuel s.heap s.p_head

/-- Destructor `~LinkedList`: the values of `p_current` with which the body of its loop was
entered, in order, and the memory afterwards. The loop gets one unit of fuel per memory cell
and one more, which the theorems below show to be enough for the loop to be left or to reach
a released cell. -/
def Destructor (s : LinkedList T) : List Nat × Option (List (Option (LinkedListItem T))) :=
  destructorWithFuel (s.heap.length + 1) s

end LinkedList

open LinkedList

/-- The `while` loop of `PrintLinkedListData` of the demo application. The first argument is
`max_printed_data_num - printed_data_counter`; the result is the list of printed values. -/
def printLoop {T : Type} : Nat → Bool → T → LinkedList T → Option (List T × LinkedList T)
  | 0, _, _, s => some ([], s)
  | _ + 1, false, _, s => some ([], s)
  | remaining + 1, true, data, s =>
    match GetNextItem s data with
    | none => none
    | some (list_continues, data1, s1) =>
      match printLoop remaining list_continues data1 s1 with
      | none => none
      | some (printed, s2) => some (data1 :: printed, s2)

/-- Function `PrintLinkedListData` of the demo application: the data values it prints, in
order, and the list afterwards. `data` is the initial content of its local variable. -/
def PrintLinkedListData {T : Type} (s : LinkedList T) (max_printed_data_num : Nat) (data : T) :
    Option (List T × LinkedList T) :=
  let s1 := ResetReading s
  if GetItemsNum s1 > 0 then printLoop max_printed_data_num true data s1
  else some ([], s1)

/-- A call of one of the two modifying methods of the public interface. -/
inductive Op (T : Type) where
  | add (v : T)
  | del (v : T)
deriving DecidableEq, Repr

/-- Execution of one call. -/
def applyOp {T : Type} [DecidableEq T] : Op T → LinkedList T → Option (LinkedList T)
  | Op.add v, s => AddItemAtEnd v s
  | Op.del v, s => DeleteItem v s

/-- Execution of a sequence of calls, first call first. -/
def runOps {T : Type} [DecidableEq T] : List (Op T) → LinkedList T → Option (LinkedList T)
  | [], s => some s
  | op :: ops, s =>
    match applyOp op s with
    | none => none
    | some s1 => runOps ops s1

/-- The calls of `DemonstrateLinkedList_int` up to the removal of 0, 3, 7, 9. -/
def demoOps : List (Op Int) :=
  (List.range 10).map (fun i => Op.add (i : Int)) ++ [Op.del 0, Op.del 3, Op.del 7, Op.del 9]

/-- The values returned by the reading interface: `ResetReading` followed by `GetNextItem`
calls, as `PrintLinkedListData` performs them, with the number of items as the bound. -/
def readValues {T : Type} (s : LinkedList T) (data : T) : Option (List T) :=
  (PrintLinkedListData s (GetItemsNum s) data).map Prod.fst

/-- Successive `GetNextItem` calls, `n` of them: the returned flags and values, in order. -/
def readNextN {T : Type} : Nat → LinkedList T → T → Option (List (Bool × T) × LinkedList T)
  | 0, s, _ => some ([], s)
  | n + 1, s, data =>
    match GetNextItem s data with
    | none => none
    | some (list_continues, data1, s1) =>
      match readNextN n s1 data1 with
      | none => none
      | some (rest, s2) => some ((list_continues, data1) :: rest, s2)

/-- The pointer reached from `p` by one transition (`p->p_next`), `none` from `nullptr`. -/
def nextPtr {T : Type} (heap : List (Option (LinkedListItem T))) : Option Nat → Option Nat
  | none => none
  | some a =>
    match deref heap a with
    | none => none
    | some item => item.p_next

/-- The pointer reached from `p` by `k` transitions. -/
def walk {T : Type} (heap : List (Option (LinkedListItem T))) (p : Option Nat) : Nat → Option Nat
  | 0 => p
  | k + 1 => walk heap (nextPtr heap p) k

/-- The addresses of the nodes on the chain from `p` up to the absent link; `none` when the
fuel runs out before an absent link is met. -/
def chainNodes {T : Type} (heap : List (Option (LinkedListItem T))) :
    Nat → Option Nat → Option (List Nat)
  | _, none => some []
  | 0, some _ => none
  | fuel + 1, some a =>
    match deref heap a with
    | none => none
    | some item => (chainNodes heap fuel item.p_next).map (fun r => a :: r)

/-- A pointer is valid when it is `nullptr` or the address of a live item. -/
def validPtr {T : Type} (heap : List (Option (LinkedListItem T))) : Option Nat → Bool
  | none => true
  | some a => (deref heap a).isSome

/-- A node structure: the head pointer and the next pointer of every live item are valid. -/
def Closed {T : Type} (s : LinkedList T) : Prop :=
  (validPtr s.heap s.p_head &&
    s.heap.all (fun cell =>
      match cell with
      | none => true
      | some item => validPtr s.heap item.p_next)) = true

instance {T : Type} (s : LinkedList T) : Decidable (Closed s) := by
  unfold Closed; infer_instance

/-- The values given to `AddItemAtEnd` in a sequence of calls. -/
def addedValues {T : Type} : List (Op T) → List T
  | [] => []
  | Op.add v :: ops => v :: addedValues ops
  | Op.del _ :: ops => addedValues ops

/-- The values of the `DeleteItem` calls of a sequence that found a matching item, when the
sequence is executed from `s`. -/
def foundDeletes {T : Type} [DecidableEq T] : List (Op T) → LinkedList T → List T
  | [], _ => []
  | Op.add v :: ops, s =>
    match AddItemAtEnd v s with
    | none => []
    | some s1 => foundDeletes ops s1
  | Op.del v :: ops, s =>
    match GetCurrentPreviousItemPointer v s, DeleteItem v s with
    | some (some _, _), some s1 => v :: foundDeletes ops s1
    | _, some s1 => foundDeletes ops s1
    | _, none => []

/-! ## Definitions used by the statements and proofs -/

section ProofDefinitions

variable {T : Type}

/-- The items `c` (address and data of each) are linked one after the other in `heap`, the first
is the one `p` points to, and the next pointer of the last is `q`. -/
def Seg (heap : List (Option (LinkedListItem T))) :
    Option Nat → List (Nat × T) → Option Nat → Prop
  | p, [], q => p = q
  | p, (a, v) :: r, q => p = some a ∧ ∃ nxt, deref heap a = some ⟨v, nxt⟩ ∧ Seg heap nxt r q

/-- The pointer to the last item of `c`, or `prev` when `c` has no item. -/
def lastPtr (prev : Option Nat) (c : List (Nat × T)) : Option Nat :=
  match c.getLast? with
  | none => prev
  | some x => some x.1

/-- The list object `s` is the well-formed list of the items `c`: they form the chain from
`p_head` to an absent link, their addresses are pairwise different, `items_num` is their
number, `p_tail` points to the last of them, and no other cell is live. -/
structure Inv (s : LinkedList T) (c : List (Nat × T)) : Prop where
  chain : Seg s.heap s.p_head c none
  nodup : (c.map Prod.fst).Nodup
  count : s.items_num = c.length
  tail : c ≠ [] → s.p_tail = lastPtr none c
  live : ∀ a item, deref s.heap a = some item → a ∈ c.map Prod.fst

/-- The flags and values that successive `GetNextItem` calls return along a chain. -/
def expectedReads : List (Nat × T) → List (Bool × T)
  | [] => []
  | (_, v) :: r => (!r.isEmpty, v) :: expectedReads r

/-- A list object obtained from the empty list by `AddItemAtEnd` and `DeleteItem` calls. -/
def Built [DecidableEq T] (s : LinkedList T) : Prop :=
  ∃ ops : List (Op T), runOps ops mkEmpty = some s

/-- The addresses of the nodes on the chain from the head of `s`. -/
def nodesOnChain (s : LinkedList T) : Option (List Nat) :=
  chainNodes s.heap s.heap.length s.p_head

/-- The list of `DemonstrateLinkedList_int` after the removal of 0, 3, 7, 9. -/
def demoList : LinkedList Int :=
  (runOps demoOps mkEmpty).getD mkEmpty

/-- The calls of `DemonstrateLinkedList_int` up to the removal of 0, 3, 7. -/
def demoOpsBeforeLast : List (Op Int) :=
  (List.range 10).map (fun i => Op.add (i : Int)) ++ [Op.del 0, Op.del 3, Op.del 7]

/-- The list of `DemonstrateLinkedList_int` after the removal of 0, 3, 7. -/
def demoListBeforeLast : LinkedList Int :=
  (runOps demoOpsBeforeLast mkEmpty).getD mkEmpty

/-- A single node whose next pointer references the node itself. -/
def selfLoopList : LinkedList Int :=
  { heap := [some { data := 1, p_next := some 0 }], p_head := some 0, p_tail := some 0,
    p_listing := some 0, items_num := 1 }

/-- The hash table holds exactly the visited addresses `visited`: bucket `i` is a well-formed
list whose values are the visited addresses with remainder `i`. -/
def TableInv (size : Nat) (table : List (LinkedList Nat)) (visited : List Nat) : Prop :=
  ∀ i, i < size → ∃ b c, table[i]? = some b ∧ Inv b c ∧
    ∀ a, a ∈ c.map Prod.snd ↔ (a ∈ visited ∧ a % size = i)

/-- A node structure whose live items are at most `items_num` many: the state of a list built
through the public interface, also after `SetNextReference`. -/
def Tracked (s : LinkedList T) : Prop :=
  Closed s ∧ ∃ nodes : List Nat, nodes.length ≤ s.items_num ∧
    ∀ a item, deref s.heap a = some item → a ∈ nodes

/-- The calls of `DemonstrateLinkedList_int` up to the insertion of 11, 12, 13. -/
def demoOpsFull : List (Op Int) :=
  demoOps ++ [Op.add 11, Op.add 12, Op.add 13]

/-- The list [1,2,4,5,6,8,11,12,13] of `DemonstrateLinkedList_int`. -/
def demoListFull : LinkedList Int :=
  (runOps demoOpsFull mkEmpty).getD mkEmpty

/-- The list of `DemonstrateLinkedList_int` after the link from 12 to 4 was forced. -/
def demoListLooped : LinkedList Int :=
  (SetNextReference 12 4 demoListFull).getD mkEmpty

/-- The calls of `DemonstrateLinkedList_str` up to the removal of green. -/
def colorOps : List (Op String) :=
  ["red", "green", "blue", "white", "black"].map Op.add ++ [Op.del "green"]

/-- The list [red, blue, white, black] of `DemonstrateLinkedList_str`. -/
def colorList : LinkedList String :=
  (runOps colorOps mkEmpty).getD mkEmpty

/-- The item at address `a` is live, does not hold `v`, and its next pointer is absent or
references an address of `region`. -/
def unheldAt [DecidableEq T] (heap : List (Option (LinkedListItem T))) (region : List Nat)
    (v : T) (a : Nat) : Bool :=
  match deref heap a with
  | none => false
  | some item =>
    decide (item.data ≠ v) &&
      (match item.p_next with
       | none => true
       | some b => decide (b ∈ region))

/-- The list [1,2,4,5,6,8] of `DemonstrateLinkedList_int` after `ResetReading` and six
`GetNextItem` calls. -/
def demoListRead : LinkedList Int :=
  ((readNextN 6 (ResetReading demoList) 0).map Prod.snd).getD mkEmpty

/-- The item at address `a` is live and its next pointer is absent or references an address
of `region`. -/
def linksInto (heap : List (Option (LinkedListItem T))) (region : List Nat) (a : Nat) : Bool :=
  match deref heap a with
  | none => false
  | some item =>
    match item.p_next with
    | none => true
    | some b => decide (b ∈ region)

/-- The list that is left when 1 and 2 were added and deleted again. -/
def emptiedList : LinkedList Int :=
  (runOps [Op.add 1, Op.add 2, Op.del 1, Op.del 2] mkEmpty).getD mkEmpty

/-- The list of `DemonstrateLinkedList_int` right after the insertion of 0..9. -/
def filledList : LinkedList Int :=
  (runOps ((List.range 10).map (fun i => Op.add (i : Int))) mkEmpty).getD mkEmpty

/-- A call of one of the methods of the public interface that change the list object; `next`
carries the content of the caller's variable. -/
inductive Call (T : Type) where
  | add (v : T)
  | del (v : T)
  | reset
  | next (data : T)
deriving DecidableEq, Repr

/-- Execution of one call; of `GetNextItem` only the list afterwards is kept. -/
def applyCall [DecidableEq T] : Call T → LinkedList T → Option (LinkedList T)
  | Call.add v, s => AddItemAtEnd v s
  | Call.del v, s => DeleteItem v s
  | Call.reset, s => some (ResetReading s)
  | Call.next data, s => (GetNextItem s data).map (fun r => r.2.2)

/-- Execution of a sequence of calls, first call first. -/
def runCalls [DecidableEq T] : List (Call T) → LinkedList T → Option (LinkedList T)
  | [], s => some s
  | call :: calls, s =>
    match applyCall call s with
    | none => none
    | some s1 => runCalls calls s1

/-- A list object obtained from the empty list by `AddItemAtEnd`, `DeleteItem`, `ResetReading`
and `GetNextItem` calls. -/
def Reached [DecidableEq T] (s : LinkedList T) : Prop :=
  ∃ calls : List (Call T), runCalls calls mkEmpty = some s

/-- The calls of `DemonstrateLinkedList_int` up to the removal of 0, 3, 7, 9, followed by
`ResetReading` and six `GetNextItem` calls. -/
def demoCallsRead : List (Call Int) :=
  (List.range 10).map (fun i => Call.add (i : Int)) ++
    [Call.del 0, Call.del 3, Call.del 7, Call.del 9, Call.reset] ++
    List.replicate 6 (Call.next 0)

end ProofDefinitions

/-! ## Memory lemmas -/

section Memory

variable {T : Type}

theorem deref_lt {heap : List (Option (LinkedListItem T))} {a : Nat} {item : LinkedListItem T}
    (h : deref heap a = some item) : a < heap.length := by
  by_contra hlt
  have : heap[a]? = none := List.getElem?_eq_none (by omega)
  simp [deref, List.getD_eq_getElem?_getD, this] at h

theorem deref_append_left {heap : List (Option (LinkedListItem T))} {a : Nat}
    (x : Option (LinkedListItem T)) (h : a < heap.length) :
    deref (heap ++ [x]) a = deref heap a := by
  simp [deref, List.getD_eq_getElem?_getD, List.getElem?_append_left h]

theorem deref_append_length (heap : List (Option (LinkedListItem T)))
    (x : Option (LinkedListItem T)) : deref (heap ++ [x]) heap.length = x := by
  simp [deref, List.getD_eq_getElem?_getD]

theorem deref_set_ne {heap : List (Option (LinkedListItem T))} {a b : Nat}
    (x : Option (LinkedListItem T)) (h : a ≠ b) : deref (heap.set a x) b = deref heap b := by
  simp [deref, List.getD_eq_getElem?_getD, List.getElem?_set_ne h]

theorem deref_set_self {heap : List (Option (LinkedListItem T))} {a : Nat}
    (x : Option (LinkedListItem T)) (h : a < heap.length) : deref (heap.set a x) a = x := by
  simp [deref, List.getD_eq_getElem?_getD, List.getElem?_set, h]

theorem deref_mem {heap : List (Option (LinkedListItem T))} {a : Nat} {item : LinkedListItem T}
    (h : deref heap a = some item) : some item ∈ heap := by
  have hlt := deref_lt h
  have : heap[a]? = some heap[a] := List.getElem?_eq_getElem hlt
  simp [deref, List.getD_eq_getElem?_getD, this] at h
  rw [← h]; exact List.getElem_mem hlt

end Memory

/-! ## Chains of items -/

section Chains

variable {T : Type}

@[simp] theorem Seg_nil (heap : List (Option (LinkedListItem T))) (p q : Option Nat) :
    Seg heap p [] q ↔ p = q := Iff.rfl

@[simp] theorem Seg_cons (heap : List (Option (LinkedListItem T))) (p q : Option Nat)
    (a : Nat) (v : T) (r : List (Nat × T)) :
    Seg heap p ((a, v) :: r) q ↔
      p = some a ∧ ∃ nxt, deref heap a = some ⟨v, nxt⟩ ∧ Seg heap nxt r q := Iff.rfl

theorem Seg_append {heap : List (Option (LinkedListItem T))} (c1 c2 : List (Nat × T)) :
    ∀ (p q : Option Nat), Seg heap p (c1 ++ c2) q ↔ ∃ m, Seg heap p c1 m ∧ Seg heap m c2 q := by
  induction c1 with
  | nil => intro p q; simp
  | cons x r ih =>
    obtain ⟨a, v⟩ := x
    intro p q
    simp only [List.cons_append, Seg_cons, ih]
    constructor
    · rintro ⟨hp, nxt, hd, m, h1, h2⟩
      exact ⟨m, ⟨hp, nxt, hd, h1⟩, h2⟩
    · rintro ⟨m, ⟨hp, nxt, hd, h1⟩, h2⟩
      exact ⟨hp, nxt, hd, m, h1, h2⟩

theorem Seg_lt {heap : List (Option (LinkedListItem T))} (c : List (Nat × T)) :
    ∀ (p q : Option Nat), Seg heap p c q → ∀ a ∈ c.map Prod.fst, a < heap.length := by
  induction c with
  | nil => intro p q _ a ha; simp at ha
  | cons x r ih =>
    obtain ⟨a, v⟩ := x
    rintro p q ⟨_, nxt, hd, hr⟩ b hb
    simp only [List.map_cons, List.mem_cons] at hb
    rcases hb with rfl | hb
    · exact deref_lt hd
    · exact ih nxt q hr b hb

theorem Seg_set {heap : List (Option (LinkedListItem T))} (b : Nat)
    (x : Option (LinkedListItem T)) (c : List (Nat × T)) :
    ∀ (p q : Option Nat), b ∉ c.map Prod.fst → Seg heap p c q → Seg (heap.set b x) p c q := by
  induction c with
  | nil => intro p q _ h; exact h
  | cons y r ih =>
    obtain ⟨a, v⟩ := y
    intro p q hb
    simp only [List.map_cons, List.mem_cons, not_or] at hb
    rintro ⟨hp, nxt, hd, hr⟩
    refine ⟨hp, nxt, ?_, ih nxt q hb.2 hr⟩
    rw [deref_set_ne x hb.1]; exact hd

theorem Seg_push {heap : List (Option (LinkedListItem T))} (x : Option (LinkedListItem T))
    (c : List (Nat × T)) :
    ∀ (p q : Option Nat), Seg heap p c q → Seg (heap ++ [x]) p c q := by
  induction c with
  | nil => intro p q h; exact h
  | cons y r ih =>
    obtain ⟨a, v⟩ := y
    rintro p q ⟨hp, nxt, hd, hr⟩
    refine ⟨hp, nxt, ?_, ih nxt q hr⟩
    rw [deref_append_left x (deref_lt hd)]; exact hd

theorem lastPtr_nil (prev : Option Nat) : lastPtr prev ([] : List (Nat × T)) = prev := rfl

theorem lastPtr_cons (prev : Option Nat) (x : Nat × T) (c : List (Nat × T)) :
    lastPtr prev (x :: c) = lastPtr (some x.1) c := by
  cases c with
  | nil => simp [lastPtr]
  | cons y r =>
    have h : ((y :: r).getLast?) = some ((y :: r).getLast (by simp)) :=
      List.getLast?_eq_getLast _ _
    simp only [lastPtr, List.getLast?_cons_cons, h]

theorem lastPtr_append_singleton (prev : Option Nat) (c : List (Nat × T)) (x : Nat × T) :
    lastPtr prev (c ++ [x]) = some x.1 := by
  simp [lastPtr]

/-- The search loop on a chain that holds `d` in the item after the items `pre`, none of which
holds `d`: the loop stops at that item. -/
theorem searchLoop_found [DecidableEq T] {heap : List (Option (LinkedListItem T))}
    (n : Nat) (d : T) (a : Nat) (post : List (Nat × T)) (q : Option Nat)
    (pre : List (Nat × T)) :
    ∀ (fuel : Nat) (p prev : Option Nat) (tn : Nat),
      Seg heap p (pre ++ (a, d) :: post) q → (∀ x ∈ pre, x.2 ≠ d) →
      tn + pre.length ≤ n + 1 → pre.length ≤ fuel →
      searchLoop heap n d fuel p prev tn = some (some a, lastPtr prev pre, tn + pre.length) := by
  induction pre with
  | nil =>
    rintro fuel p prev tn ⟨hp, nxt, hd, _⟩ _ _ _
    subst hp
    cases fuel <;> simp [searchLoop, hd, lastPtr]
  | cons x pre ih =>
    obtain ⟨b, w⟩ := x
    rintro fuel p prev tn ⟨hp, nxt, hd, hr⟩ hne hn hf
    subst hp
    simp only [List.length_cons] at hn hf
    obtain ⟨fuel, rfl⟩ : ∃ f, fuel = f + 1 := ⟨fuel - 1, by omega⟩
    have hw : w ≠ d := hne (b, w) (List.mem_cons_self _ _)
    have htn : tn ≤ n := by omega
    have ih1 := ih fuel nxt (some b) (tn + 1) hr
      (fun x hx => hne x (List.mem_cons_of_mem _ hx)) (by omega) (by omega)
    simp only [searchLoop, hd, ne_eq, hw, not_false_eq_true, htn, and_self, if_true, ih1,
      lastPtr_cons, List.length_cons]
    congr 3; omega

/-- The search loop on a chain that ends in an absent link and does not hold `d`: the loop
runs to the end of the chain. -/
theorem searchLoop_absent [DecidableEq T] {heap : List (Option (LinkedListItem T))}
    (n : Nat) (d : T) (c : List (Nat × T)) :
    ∀ (fuel : Nat) (p prev : Option Nat) (tn : Nat),
      Seg heap p c none → (∀ x ∈ c, x.2 ≠ d) → tn + c.length ≤ n + 1 → c.length ≤ fuel →
      searchLoop heap n d fuel p prev tn = some (none, lastPtr prev c, tn + c.length) := by
  induction c with
  | nil =>
    intro fuel p prev tn hp _ _ _
    simp only [Seg_nil] at hp
    subst hp
    cases fuel <;> simp [searchLoop, lastPtr]
  | cons x c ih =>
    obtain ⟨b, w⟩ := x
    rintro fuel p prev tn ⟨hp, nxt, hd, hr⟩ hne hn hf
    subst hp
    simp only [List.length_cons] at hn hf
    obtain ⟨fuel, rfl⟩ : ∃ f, fuel = f + 1 := ⟨fuel - 1, by omega⟩
    have hw : w ≠ d := hne (b, w) (List.mem_cons_self _ _)
    have htn : tn ≤ n := by omega
    have ih1 := ih fuel nxt (some b) (tn + 1) hr
      (fun x hx => hne x (List.mem_cons_of_mem _ hx)) (by omega) (by omega)
    simp only [searchLoop, hd, ne_eq, hw, not_false_eq_true, htn, and_self, if_true, ih1,
      lastPtr_cons, List.length_cons]
    congr 3; omega

end Chains

/-! ## The representation invariant of lists built through the public interface -/

section Invariant

variable {T : Type}

theorem Inv_mkEmpty : Inv (mkEmpty : LinkedList T) [] where
  chain := rfl
  nodup := by simp
  count := rfl
  tail := by simp
  live := by intro a item h; simp [mkEmpty, deref] at h

theorem lastPtr_of_ne_nil (p q : Option Nat) {c : List (Nat × T)} (h : c ≠ []) :
    lastPtr p c = lastPtr q c := by
  cases c with
  | nil => exact absurd rfl h
  | cons x r => rw [lastPtr_cons, lastPtr_cons]

theorem Seg_head_of_ne_nil {heap : List (Option (LinkedListItem T))} {p q : Option Nat}
    {c : List (Nat × T)} (h : Seg heap p c q) (hc : c ≠ []) : ∃ a, p = some a := by
  cases c with
  | nil => exact absurd rfl hc
  | cons x r => obtain ⟨a, v⟩ := x; exact ⟨a, h.1⟩

/-- `AddItemAtEnd` on a well-formed list appends the new item to the chain; the reading
pointer is set only when the list was empty. -/
theorem Inv_add {s : LinkedList T} {c : List (Nat × T)} (h : Inv s c) (v : T) :
    ∃ s1, AddItemAtEnd v s = some s1 ∧ Inv s1 (c ++ [(s.heap.length, v)]) ∧
      (c = [] → s1.p_listing = some s.heap.length) ∧ (c ≠ [] → s1.p_listing = s.p_listing) := by
  rcases List.eq_nil_or_concat c with rfl | ⟨c0, x, rfl⟩
  · have hh : s.p_head = none := h.chain
    have hadd : AddItemAtEnd v s = some
        { heap := s.heap ++ [some { data := v, p_next := none }],
          p_head := some s.heap.length, p_tail := some s.heap.length,
          p_listing := some s.heap.length, items_num := s.items_num + 1 } := by
      simp only [AddItemAtEnd, hh]
    refine ⟨_, hadd, ?_, fun _ => rfl, fun hc => absurd rfl hc⟩
    refine ⟨?_, by simp, by simp [h.count], by intro _; simp [lastPtr], ?_⟩
    · exact ⟨rfl, none, deref_append_length _ _, rfl⟩
    · intro a item ha
      have hlt := deref_lt ha
      simp only [List.length_append, List.length_singleton] at hlt
      rcases Nat.lt_succ_iff_lt_or_eq.mp hlt with hlt | rfl
      · rw [deref_append_left _ hlt] at ha
        exact absurd (h.live a item ha) (by simp)
      · simp
  · obtain ⟨t, w⟩ := x
    rw [List.concat_eq_append] at h ⊢
    have hne : c0 ++ [(t, w)] ≠ [] := by simp
    obtain ⟨hd0, hhead⟩ := Seg_head_of_ne_nil h.chain hne
    have htail : s.p_tail = some t := by rw [h.tail hne, lastPtr_append_singleton]
    obtain ⟨m, hseg0, hm, nxt, hdt, hnxt⟩ := (Seg_append c0 [(t, w)] _ _).mp h.chain
    simp only [Seg_nil] at hnxt
    subst hnxt
    have htlt : t < s.heap.length := deref_lt hdt
    have hnd := h.nodup
    simp only [List.map_append, List.map_cons, List.map_nil] at hnd
    have htc0 : t ∉ c0.map Prod.fst := by
      intro hmem
      exact (List.nodup_append.mp hnd).2.2 hmem (by simp)
    have hadd : AddItemAtEnd v s = some
        { heap := (s.heap ++ [some ({ data := v, p_next := none } : LinkedListItem T)]).set t
            (some { data := w, p_next := some s.heap.length }),
          p_head := s.p_head, p_tail := some s.heap.length,
          p_listing := s.p_listing, items_num := s.items_num + 1 } := by
      simp only [AddItemAtEnd, hhead, htail, hdt]
    refine ⟨_, hadd, ?_, ?_, ?_⟩
    · refine ⟨?_, ?_, ?_, ?_, ?_⟩
      · rw [List.append_assoc]
        refine (Seg_append c0 _ _ _).mpr ⟨m, ?_, ?_⟩
        · exact Seg_set _ _ _ _ _ htc0 (Seg_push _ _ _ _ hseg0)
        · simp only [List.singleton_append, Seg_cons, Seg_nil]
          refine ⟨hm, some s.heap.length, ?_, rfl, none, ?_, rfl⟩
          · rw [deref_set_self]
            simp only [List.length_append, List.length_singleton]; omega
          · rw [deref_set_ne _ (by omega), deref_append_length]
      · simp only [List.map_append, List.map_cons, List.map_nil]
        refine List.Nodup.append hnd (by simp) ?_
        intro a ha1 ha2
        simp only [List.mem_singleton] at ha2
        subst ha2
        have := Seg_lt _ _ _ h.chain s.heap.length (by simpa using ha1)
        omega
      · simp [h.count]
      · intro _; simp [lastPtr]
      · intro a item ha
        have hlt := deref_lt ha
        simp only [List.length_set, List.length_append, List.length_singleton] at hlt
        rcases Nat.lt_succ_iff_lt_or_eq.mp hlt with hlt | rfl
        · by_cases hat : a = t
          · subst hat; simp
          · rw [deref_set_ne _ (Ne.symm hat), deref_append_left _ hlt] at ha
            have := h.live a item ha
            simp only [List.map_append, List.mem_append] at this ⊢
            exact Or.inl this
        · simp
    · intro hc; exact absurd hc hne
    · intro _; rfl

end Invariant

section Deletion

variable {T : Type} [DecidableEq T]

theorem split_first (d : T) (c : List (Nat × T)) (h : d ∈ c.map Prod.snd) :
    ∃ pre a post, c = pre ++ (a, d) :: post ∧ ∀ x ∈ pre, x.2 ≠ d := by
  induction c with
  | nil => simp at h
  | cons x r ih =>
    obtain ⟨b, w⟩ := x
    by_cases hw : w = d
    · subst hw; exact ⟨[], b, r, rfl, by simp⟩
    · have hr : d ∈ r.map Prod.snd := by
        simp only [List.map_cons, List.mem_cons] at h
        rcases h with h | h
        · exact absurd h.symm hw
        · exact h
      obtain ⟨pre, a, post, rfl, hpre⟩ := ih hr
      refine ⟨(b, w) :: pre, a, post, rfl, ?_⟩
      intro x hx
      simp only [List.mem_cons] at hx
      rcases hx with rfl | hx
      · exact hw
      · exact hpre x hx

theorem erase_split (d : T) (pre post : List (Nat × T)) (a : Nat)
    (hpre : ∀ x ∈ pre, x.2 ≠ d) :
    ((pre ++ (a, d) :: post).map Prod.snd).erase d = (pre ++ post).map Prod.snd := by
  have hn : d ∉ pre.map Prod.snd := by
    intro hm
    obtain ⟨x, hx, hxd⟩ := List.mem_map.mp hm
    exact hpre x hx hxd
  simp only [List.map_append, List.map_cons]
  rw [List.erase_append_right _ hn, List.erase_cons_head]

theorem search_found {s : LinkedList T} {pre post : List (Nat × T)} {a : Nat} {d : T}
    (h : Inv s (pre ++ (a, d) :: post)) (hpre : ∀ x ∈ pre, x.2 ≠ d) :
    GetCurrentPreviousItemPointer d s = some (some a, lastPtr none pre) := by
  have hc := h.count
  simp only [List.length_append, List.length_cons] at hc
  have := searchLoop_found s.items_num d a post none pre s.items_num s.p_head none 1 h.chain
    hpre (by omega) (by omega)
  simp only [GetCurrentPreviousItemPointer, this]
  rw [if_neg (by omega)]

theorem search_absent {s : LinkedList T} {c : List (Nat × T)} {d : T}
    (h : Inv s c) (hne : ∀ x ∈ c, x.2 ≠ d) :
    GetCurrentPreviousItemPointer d s = some (none, none) := by
  have hc := h.count
  have := searchLoop_absent s.items_num d c s.items_num s.p_head none 1 h.chain
    hne (by omega) (by omega)
  simp only [GetCurrentPreviousItemPointer, this]
  rw [if_pos (by omega)]

/-- `DeleteItem` of a value that no item holds leaves the list object as it is. -/
theorem Inv_delete_absent {s : LinkedList T} {c : List (Nat × T)} {d : T}
    (h : Inv s c) (hne : ∀ x ∈ c, x.2 ≠ d) : DeleteItem d s = some s := by
  simp only [DeleteItem, search_absent h hne]

/-- `DeleteItem` of a value held by some item unlinks and releases the first such item. -/
theorem Inv_delete_found {s : LinkedList T} {pre post : List (Nat × T)} {a : Nat} {d : T}
    (h : Inv s (pre ++ (a, d) :: post)) (hpre : ∀ x ∈ pre, x.2 ≠ d) :
    ∃ s1, DeleteItem d s = some s1 ∧ Inv s1 (pre ++ post) ∧ s1.p_listing = s.p_listing := by
  have hsearch := search_found h hpre
  obtain ⟨m, hseg0, hm, nxt, hda, hpost⟩ := (Seg_append pre _ _ _).mp h.chain
  have hnd := h.nodup
  simp only [List.map_append, List.map_cons] at hnd
  have halt : a < s.heap.length := deref_lt hda
  have ha_pre : a ∉ pre.map Prod.fst := by
    intro hmem
    exact (List.nodup_append.mp hnd).2.2 hmem (by simp)
  have ha_post : a ∉ post.map Prod.fst :=
    (List.nodup_cons.mp (List.nodup_append.mp hnd).2.1).1
  have hnd_post : (post.map Prod.fst).Nodup :=
    (List.nodup_cons.mp (List.nodup_append.mp hnd).2.1).2
  have hcount := h.count
  simp only [List.length_append, List.length_cons] at hcount
  rcases List.eq_nil_or_concat pre with rfl | ⟨pre0, x, rfl⟩
  · -- the head item is deleted
    simp only [Seg_nil] at hseg0
    simp only [lastPtr_nil] at hsearch
    have hdel : DeleteItem d s = some
        { heap := s.heap.set a none, p_head := nxt, p_tail := s.p_tail,
          p_listing := s.p_listing, items_num := s.items_num - 1 } := by
      have hpos : s.items_num > 0 := by omega
      simp only [DeleteItem, hsearch, hda]
      rw [if_pos hpos]
    refine ⟨_, hdel, ⟨?_, ?_, ?_, ?_, ?_⟩, rfl⟩
    · exact Seg_set _ _ _ _ _ ha_post hpost
    · simpa using hnd_post
    · simp only [List.nil_append, List.length_nil] at hcount ⊢; omega
    · intro hne
      have := h.tail (by simp)
      simp only [List.nil_append] at this ⊢
      rw [this, lastPtr_cons]
      exact lastPtr_of_ne_nil _ _ hne
    · intro b item hb
      have hba : b ≠ a := by
        rintro rfl
        rw [deref_set_self _ halt] at hb
        exact absurd hb (by simp)
      rw [deref_set_ne _ (Ne.symm hba)] at hb
      have := h.live b item hb
      simp only [List.nil_append, List.map_cons, List.mem_cons] at this ⊢
      rcases this with h1 | h1
      · exact absurd h1 hba
      · exact h1
  · -- an item after the head is deleted
    obtain ⟨p, w⟩ := x
    rw [List.concat_eq_append] at h hsearch hseg0 ha_pre hpre ⊢
    simp only [List.concat_eq_append, List.length_append, List.length_singleton] at hcount
    rw [lastPtr_append_singleton] at hsearch
    obtain ⟨m0, hseg00, hm0, nxtp, hdp, hmp⟩ := (Seg_append pre0 [(p, w)] _ _).mp hseg0
    simp only [Seg_nil] at hmp
    subst hmp
    have hnxtp : nxtp = some a := hm
    subst hnxtp
    have hplt : p < s.heap.length := deref_lt hdp
    simp only [List.concat_eq_append, List.map_append, List.map_cons, List.map_nil,
      List.append_assoc, List.singleton_append] at hnd
    have hnd1 := List.nodup_append.mp hnd
    have hp_pre0 : p ∉ pre0.map Prod.fst := by
      intro hmem
      exact hnd1.2.2 hmem (by simp)
    have hpa : p ≠ a := by
      intro hpa
      have := (List.nodup_cons.mp hnd1.2.1).1
      exact this (by simp [hpa])
    have hp_post : p ∉ post.map Prod.fst := by
      intro hmem
      have := (List.nodup_cons.mp hnd1.2.1).1
      exact this (by simp [hmem])
    have ha_pre0 : a ∉ pre0.map Prod.fst := by
      intro hmem
      exact ha_pre (by simp [hmem])
    have hd1 : deref (s.heap.set p (some ({ data := w, p_next := nxt } : LinkedListItem T))) a
        = some ⟨d, nxt⟩ := by rw [deref_set_ne _ hpa]; exact hda
    have hdel : DeleteItem d s = some
        { heap := (s.heap.set p (some ({ data := w, p_next := nxt } : LinkedListItem T))).set a
            none,
          p_head := s.p_head,
          p_tail := if some a = s.p_tail then some p else s.p_tail,
          p_listing := s.p_listing, items_num := s.items_num - 1 } := by
      have hpos : s.items_num > 0 := by omega
      simp only [DeleteItem, hsearch, hda, hdp, hd1]
      rw [if_pos hpos]
    refine ⟨_, hdel, ⟨?_, ?_, ?_, ?_, ?_⟩, rfl⟩
    · refine (Seg_append (pre0 ++ [(p, w)]) _ _ _).mpr ⟨nxt, ?_, ?_⟩
      · refine (Seg_append pre0 _ _ _).mpr ⟨m0, ?_, ?_⟩
        · exact Seg_set _ _ _ _ _ ha_pre0 (Seg_set _ _ _ _ _ hp_pre0 hseg00)
        · refine ⟨hm0, nxt, ?_, rfl⟩
          rw [deref_set_ne _ (Ne.symm hpa), deref_set_self _ hplt]
      · exact Seg_set _ _ _ _ _ ha_post (Seg_set _ _ _ _ _ hp_post hpost)
    · simp only [List.map_append, List.map_cons, List.map_nil, List.append_assoc,
        List.singleton_append]
      refine List.Nodup.append hnd1.1 ?_ ?_
      · exact List.nodup_cons.mpr ⟨hp_post, hnd_post⟩
      · intro b hb1 hb2
        refine hnd1.2.2 hb1 ?_
        simp only [List.mem_cons] at hb2 ⊢
        rcases hb2 with h1 | h1
        · exact Or.inl h1
        · exact Or.inr (Or.inr h1)
    · simp only [List.length_append, List.length_singleton] at hcount ⊢; omega
    · intro _
      have ht := h.tail (by simp)
      rcases List.eq_nil_or_concat post with rfl | ⟨post0, y, rfl⟩
      · have hta : s.p_tail = some a := by
          rw [ht, show pre0 ++ [(p, w)] ++ [(a, d)] = (pre0 ++ [(p, w)]) ++ [(a, d)] from rfl,
            lastPtr_append_singleton]
        simp only [hta, if_true, List.append_nil, lastPtr_append_singleton]
      · rw [List.concat_eq_append] at ht ha_post ⊢
        have hty : s.p_tail = some y.1 := by
          rw [ht, show pre0 ++ [(p, w)] ++ (a, d) :: (post0 ++ [y])
            = (pre0 ++ [(p, w)] ++ (a, d) :: post0) ++ [y] by simp, lastPtr_append_singleton]
        have hay : a ≠ y.1 := by
          intro hay
          exact ha_post (by simp [hay])
        rw [hty, if_neg (by simpa using hay),
          show pre0 ++ [(p, w)] ++ (post0 ++ [y]) = (pre0 ++ [(p, w)] ++ post0) ++ [y] by simp,
          lastPtr_append_singleton]
    · intro b item hb
      have hba : b ≠ a := by
        rintro rfl
        rw [deref_set_self _ (by simpa using halt)] at hb
        exact absurd hb (by simp)
      rw [deref_set_ne _ (Ne.symm hba)] at hb
      by_cases hbp : b = p
      · subst hbp; simp
      · rw [deref_set_ne _ (Ne.symm hbp)] at hb
        have := h.live b item hb
        simp only [List.map_append, List.map_cons, List.mem_append, List.mem_cons] at this ⊢
        rcases this with h1 | h1 | h1
        · exact Or.inl h1
        · exact absurd h1 hba
        · exact Or.inr h1

end Deletion

section Reading

variable {T : Type}

theorem printLoop_chain (r : List (Nat × T)) :
    ∀ (a : Nat) (v : T) (s : LinkedList T) (remaining : Nat) (d : T),
      Seg s.heap (some a) ((a, v) :: r) none → s.p_listing = some a → r.length + 1 ≤ remaining →
      printLoop remaining true d s
        = some (v :: r.map Prod.snd, { s with p_listing := lastPtr (some a) r }) := by
  induction r with
  | nil =>
    rintro a v s remaining d ⟨_, nxt, hd, hn⟩ hl hr
    simp only [Seg_nil] at hn
    subst hn
    obtain ⟨rem, rfl⟩ : ∃ k, remaining = k + 1 := ⟨remaining - 1, by simp at hr; omega⟩
    have hs : ({ s with p_listing := some a } : LinkedList T) = s := by
      cases s; simp_all
    cases rem <;> simp [printLoop, GetNextItem, hl, hd, lastPtr_nil, hs]
  | cons x r ih =>
    obtain ⟨b, w⟩ := x
    rintro a v s remaining d ⟨_, nxt, hd, hseg⟩ hl hr
    have hnb : nxt = some b := hseg.1
    subst hnb
    simp only [List.length_cons] at hr
    obtain ⟨rem, rfl⟩ : ∃ k, remaining = k + 1 := ⟨remaining - 1, by omega⟩
    have ih1 := ih b w { s with p_listing := some b } rem v hseg rfl (by omega)
    simp only [printLoop, GetNextItem, hl, hd, ih1, lastPtr_cons, List.map_cons]

theorem expectedReads_snd (c : List (Nat × T)) :
    (expectedReads c).map Prod.snd = c.map Prod.snd := by
  induction c with
  | nil => rfl
  | cons x r ih => obtain ⟨a, v⟩ := x; simp [expectedReads, ih]

theorem readNextN_succ (n : Nat) (s : LinkedList T) (d : T) :
    readNextN (n + 1) s d =
      match GetNextItem s d with
      | none => none
      | some (list_continues, data1, s1) =>
        match readNextN n s1 data1 with
        | none => none
        | some (rest, s2) => some ((list_continues, data1) :: rest, s2) := rfl

theorem readNextN_chain (r : List (Nat × T)) :
    ∀ (a : Nat) (v : T) (s : LinkedList T) (d : T),
      Seg s.heap (some a) ((a, v) :: r) none → s.p_listing = some a →
      readNextN (r.length + 1) s d
        = some (expectedReads ((a, v) :: r), { s with p_listing := lastPtr (some a) r }) := by
  induction r with
  | nil =>
    rintro a v s d ⟨_, nxt, hd, hn⟩ hl
    simp only [Seg_nil] at hn
    subst hn
    have hs : ({ s with p_listing := some a } : LinkedList T) = s := by
      cases s; simp_all
    simp [readNextN, GetNextItem, hl, hd, lastPtr_nil, hs, expectedReads]
  | cons x r ih =>
    obtain ⟨b, w⟩ := x
    rintro a v s d ⟨_, nxt, hd, hseg⟩ hl
    have hnb : nxt = some b := hseg.1
    subst hnb
    have ih1 := ih b w { s with p_listing := some b } v hseg rfl
    have hget : GetNextItem s d = some (true, v, { s with p_listing := some b }) := by
      simp only [GetNextItem, hl, hd]
    rw [List.length_cons, readNextN_succ, hget]
    simp only [ih1, lastPtr_cons]
    simp [expectedReads]

/-- Reading a well-formed list from its head returns the data of its items in chain order. -/
theorem readValues_Inv {s : LinkedList T} {c : List (Nat × T)} (h : Inv s c) (d : T) :
    readValues s d = some (c.map Prod.snd) := by
  cases c with
  | nil =>
    have hc : s.items_num = 0 := h.count
    simp [readValues, PrintLinkedListData, GetItemsNum, ResetReading, hc]
  | cons x r =>
    obtain ⟨a, v⟩ := x
    have hc : s.items_num = r.length + 1 := h.count
    have hh : s.p_head = some a := h.chain.1
    have hseg : Seg (ResetReading s).heap (some a) ((a, v) :: r) none := by
      have := h.chain
      rw [hh] at this
      exact this
    have := printLoop_chain r a v (ResetReading s) s.items_num d hseg
      (by simp [ResetReading, hh]) (by omega)
    simp only [readValues, PrintLinkedListData, GetItemsNum]
    rw [if_pos (by simp [ResetReading, hc])]
    simp only [ResetReading] at this ⊢
    rw [this]
    rfl

end Reading

section Runs

variable {T : Type} [DecidableEq T]

/-- Every sequence of calls runs to completion on a well-formed list and leaves a well-formed
list, whose items are the previous ones and the added ones without the deleted ones. -/
theorem runOps_Inv (ops : List (Op T)) :
    ∀ (s0 : LinkedList T) (c0 : List (Nat × T)), Inv s0 c0 →
      ∃ s c, runOps ops s0 = some s ∧ Inv s c ∧
        (∀ v, (c.map Prod.snd).count v + (foundDeletes ops s0).count v
            = (c0.map Prod.snd).count v + (addedValues ops).count v) ∧
        c.length + (foundDeletes ops s0).length = c0.length + (addedValues ops).length := by
  induction ops with
  | nil =>
    intro s0 c0 h
    exact ⟨s0, c0, rfl, h, by simp [foundDeletes, addedValues], by simp [foundDeletes, addedValues]⟩
  | cons op ops ih =>
    intro s0 c0 h
    cases op with
    | add v =>
      obtain ⟨s1, hadd, hinv1, _, _⟩ := Inv_add h v
      obtain ⟨s, c, hrun, hinv, hcnt, hlen⟩ := ih s1 _ hinv1
      refine ⟨s, c, by simp only [runOps, applyOp, hadd, hrun], hinv, ?_, ?_⟩
      · intro u
        have := hcnt u
        simp only [foundDeletes, hadd, addedValues, List.map_append, List.map_cons, List.map_nil,
          List.count_append, List.count_cons, List.count_nil] at this ⊢
        omega
      · simp only [foundDeletes, hadd, addedValues, List.length_append, List.length_cons,
          List.length_nil] at hlen ⊢
        omega
    | del v =>
      by_cases hv : v ∈ c0.map Prod.snd
      · obtain ⟨pre, a, post, rfl, hpre⟩ := split_first v c0 hv
        obtain ⟨s1, hdel, hinv1, _⟩ := Inv_delete_found h hpre
        obtain ⟨s, c, hrun, hinv, hcnt, hlen⟩ := ih s1 _ hinv1
        refine ⟨s, c, by simp only [runOps, applyOp, hdel, hrun], hinv, ?_, ?_⟩
        · intro u
          have := hcnt u
          simp only [foundDeletes, search_found h hpre, hdel, addedValues, List.map_append,
            List.map_cons, List.count_append, List.count_cons] at this ⊢
          omega
        · simp only [foundDeletes, search_found h hpre, hdel, addedValues, List.length_append,
            List.length_cons] at hlen ⊢
          omega
      · have hne : ∀ x ∈ c0, x.2 ≠ v := by
          intro x hx hxv
          exact hv (List.mem_map.mpr ⟨x, hx, hxv⟩)
        have hdel := Inv_delete_absent h hne
        obtain ⟨s, c, hrun, hinv, hcnt, hlen⟩ := ih s0 _ h
        refine ⟨s, c, by simp only [runOps, applyOp, hdel, hrun], hinv, ?_, ?_⟩
        · intro u
          have := hcnt u
          simp only [foundDeletes, search_absent h hne, hdel, addedValues] at this ⊢
          exact this
        · simp only [foundDeletes, search_absent h hne, hdel, addedValues] at hlen ⊢
          exact hlen

theorem Built_Inv {s : LinkedList T} (h : Built s) : ∃ c, Inv s c := by
  obtain ⟨ops, hops⟩ := h
  obtain ⟨s1, c, hrun, hinv, _, _⟩ := runOps_Inv ops mkEmpty [] Inv_mkEmpty
  rw [hops] at hrun
  cases hrun
  exact ⟨c, hinv⟩

end Runs

section ChainNodes

variable {T : Type}

theorem chainNodes_Seg {heap : List (Option (LinkedListItem T))} (c : List (Nat × T)) :
    ∀ (fuel : Nat) (p : Option Nat), Seg heap p c none → c.length ≤ fuel →
      chainNodes heap fuel p = some (c.map Prod.fst) := by
  induction c with
  | nil =>
    intro fuel p hp _
    simp only [Seg_nil] at hp
    subst hp
    cases fuel <;> rfl
  | cons x r ih =>
    obtain ⟨a, v⟩ := x
    rintro fuel p ⟨hp, nxt, hd, hr⟩ hf
    subst hp
    simp only [List.length_cons] at hf
    obtain ⟨fuel, rfl⟩ : ∃ f, fuel = f + 1 := ⟨fuel - 1, by omega⟩
    simp only [chainNodes, hd, ih fuel nxt hr (by omega), Option.map_some', List.map_cons]

theorem Inv_length_le {s : LinkedList T} {c : List (Nat × T)} (h : Inv s c) :
    c.length ≤ s.heap.length := by
  have hsub : c.map Prod.fst ⊆ List.range s.heap.length := by
    intro a ha
    exact List.mem_range.mpr (Seg_lt _ _ _ h.chain a ha)
  have := (List.subperm_of_subset h.nodup hsub).length_le
  simpa using this

theorem nodesOnChain_Inv {s : LinkedList T} {c : List (Nat × T)} (h : Inv s c) :
    nodesOnChain s = some (c.map Prod.fst) :=
  chainNodes_Seg c _ _ h.chain (Inv_length_le h)

end ChainNodes

section InterfaceProperties

variable {T : Type} [DecidableEq T]

theorem runOps_adds (vs : List T) :
    ∀ (s0 : LinkedList T) (c0 : List (Nat × T)), Inv s0 c0 →
      ∃ s c, runOps (vs.map Op.add) s0 = some s ∧ Inv s c ∧
        c.map Prod.snd = c0.map Prod.snd ++ vs := by
  induction vs with
  | nil => intro s0 c0 h; exact ⟨s0, c0, rfl, h, by simp⟩
  | cons v vs ih =>
    intro s0 c0 h
    obtain ⟨s1, hadd, hinv1, _, _⟩ := Inv_add h v
    obtain ⟨s, c, hrun, hinv, hc⟩ := ih s1 _ hinv1
    exact ⟨s, c, by simp only [List.map_cons, runOps, applyOp, hadd, hrun], hinv, by simp [hc]⟩

/-- C1: on a list built by `AddItemAtEnd` and `DeleteItem` calls, `DeleteItem v` for a value
`v` held by some item removes exactly the first node, in order from the head, that holds `v`:
the nodes on the chain are the previous ones without the node at the position of the first
occurrence of `v`, and the values read after `ResetReading` are the previous values with the
first occurrence of `v` erased, the others in their previous order. -/
theorem C1_delete_erases_first_occurrence (s : LinkedList T) (v d : T) (l : List T)
    (hs : Built s) (hl : readValues s d = some l) (hv : v ∈ l) :
    ∃ s1 nodes, DeleteItem v s = some s1 ∧ readValues s1 d = some (l.erase v) ∧
      nodesOnChain s = some nodes ∧
      nodesOnChain s1 = some (nodes.eraseIdx (l.indexOf v)) := by
  obtain ⟨c, hinv⟩ := Built_Inv hs
  rw [readValues_Inv hinv d] at hl
  cases hl
  obtain ⟨pre, a, post, rfl, hpre⟩ := split_first v c hv
  obtain ⟨s1, hdel, hinv1, _⟩ := Inv_delete_found hinv hpre
  have hn : v ∉ pre.map Prod.snd := by
    intro hm
    obtain ⟨x, hx, hxd⟩ := List.mem_map.mp hm
    exact hpre x hx hxd
  refine ⟨s1, _, hdel, ?_, nodesOnChain_Inv hinv, ?_⟩
  · rw [readValues_Inv hinv1 d, erase_split v pre post a hpre]
  · rw [nodesOnChain_Inv hinv1]
    simp only [List.map_append, List.map_cons]
    rw [List.indexOf_append_of_not_mem hn, List.indexOf_cons_self,
      List.eraseIdx_append_of_length_le (by simp)]
    simp

/-- C2: after the values `vs` were inserted by `AddItemAtEnd` into a new empty list,
`ResetReading` followed by as many `GetNextItem` calls as there are values returns the values
in the order of their insertion. -/
theorem C2_read_in_insertion_order (vs : List T) (d : T) :
    ∃ s reads s1, runOps (vs.map Op.add) mkEmpty = some s ∧
      readNextN vs.length (ResetReading s) d = some (reads, s1) ∧
      reads.map Prod.snd = vs := by
  obtain ⟨s, c, hrun, hinv, hc⟩ := runOps_adds vs (mkEmpty : LinkedList T) [] Inv_mkEmpty
  simp only [List.map_nil, List.nil_append] at hc
  have hlen : vs.length = c.length := by rw [← hc]; simp
  cases c with
  | nil =>
    refine ⟨s, [], ResetReading s, hrun, ?_, ?_⟩
    · rw [hlen]; rfl
    · rw [← hc]; rfl
  | cons x r =>
    obtain ⟨a, v⟩ := x
    have hh : s.p_head = some a := hinv.chain.1
    have hseg : Seg (ResetReading s).heap (some a) ((a, v) :: r) none := by
      have := hinv.chain
      rw [hh] at this
      exact this
    have := readNextN_chain r a v (ResetReading s) d hseg (by simp [ResetReading, hh])
    refine ⟨s, expectedReads ((a, v) :: r),
      { ResetReading s with p_listing := lastPtr (some a) r }, hrun, ?_, ?_⟩
    · rw [hlen]; exact this
    · rw [expectedReads_snd, hc]

/-- C3: after every sequence of `AddItemAtEnd` and `DeleteItem` calls on a new empty list,
`GetItemsNum` is the number of `AddItemAtEnd` calls minus the number of `DeleteItem` calls
that found a matching item, and it is the number of nodes on the chain from the head; after
inserting 0..9 and deleting 0, 3, 7, 9 it is 6. -/
theorem C3_count_is_adds_minus_found_deletes :
    (∀ ops : List (Op T), ∃ s nodes, runOps ops mkEmpty = some s ∧
      (foundDeletes ops mkEmpty).length ≤ (addedValues ops).length ∧
      GetItemsNum s = (addedValues ops).length - (foundDeletes ops mkEmpty).length ∧
      nodesOnChain s = some nodes ∧ GetItemsNum s = nodes.length) ∧
    (runOps demoOps mkEmpty).map GetItemsNum = some 6 := by
  refine ⟨?_, by decide⟩
  intro ops
  obtain ⟨s, c, hrun, hinv, _, hlen⟩ := runOps_Inv ops (mkEmpty : LinkedList T) [] Inv_mkEmpty
  have hc : s.items_num = c.length := hinv.count
  simp only [List.length_nil, Nat.zero_add] at hlen
  refine ⟨s, _, hrun, by omega, ?_, nodesOnChain_Inv hinv, ?_⟩
  · simp only [GetItemsNum]; omega
  · simp [GetItemsNum, hc]

/-- C4: on a list built by a sequence of `AddItemAtEnd` and `DeleteItem` calls, `IsItemPresent v`
returns true exactly when some item on the chain holds `v`, which is exactly when `v` was
added more often than it was deleted by a call that found it. -/
theorem C4_present_iff_on_chain (ops : List (Op T)) (s : LinkedList T) (v d : T)
    (hs : runOps ops mkEmpty = some s) :
    ∃ l, readValues s d = some l ∧ IsItemPresent v s = some (decide (v ∈ l)) ∧
      (v ∈ l ↔ (foundDeletes ops mkEmpty).count v < (addedValues ops).count v) := by
  obtain ⟨s1, c, hrun, hinv, hcnt, _⟩ := runOps_Inv ops (mkEmpty : LinkedList T) [] Inv_mkEmpty
  rw [hs] at hrun
  cases hrun
  refine ⟨_, readValues_Inv hinv d, ?_, ?_⟩
  · by_cases hv : v ∈ c.map Prod.snd
    · obtain ⟨pre, a, post, rfl, hpre⟩ := split_first v c hv
      simp only [IsItemPresent, search_found hinv hpre, Option.isSome_some, hv, decide_True]
    · have hne : ∀ x ∈ c, x.2 ≠ v := by
        intro x hx hxv
        exact hv (List.mem_map.mpr ⟨x, hx, hxv⟩)
      simp only [IsItemPresent, search_absent hinv hne, Option.isSome_none, hv, decide_False]
  · have := hcnt v
    simp only [List.map_nil, List.count_nil, Nat.zero_add] at this
    rw [← List.count_pos_iff]
    omega

/-- C9: on a list built by `AddItemAtEnd` and `DeleteItem` calls, `DeleteItem v` for a value
`v` held by no item leaves the whole list object unchanged: the memory cells (data and next
pointer of every item), head, tail, reading pointer and number of items. -/
theorem C9_delete_absent_changes_nothing (s : LinkedList T) (v d : T) (l : List T)
    (hs : Built s) (hl : readValues s d = some l) (hv : v ∉ l) :
    DeleteItem v s = some s := by
  obtain ⟨c, hinv⟩ := Built_Inv hs
  rw [readValues_Inv hinv d] at hl
  cases hl
  refine Inv_delete_absent hinv ?_
  intro x hx hxv
  exact hv (List.mem_map.mpr ⟨x, hx, hxv⟩)

end InterfaceProperties

section InterfaceWitnesses

/-- C1 at the last removal of `DemonstrateLinkedList_int`: deleting 9, the value of the tail
item, from [1,2,4,5,6,8,9] leaves the read order [1,2,4,5,6,8]. -/
theorem C1_delete_erases_first_occurrence_witness :
    Built demoListBeforeLast ∧
    readValues demoListBeforeLast 0 = some [1, 2, 4, 5, 6, 8, 9] ∧
    (9 : Int) ∈ [1, 2, 4, 5, 6, 8, (9 : Int)] ∧
    (∃ s1 nodes, DeleteItem 9 demoListBeforeLast = some s1 ∧
      readValues s1 0 = some [1, 2, 4, 5, 6, 8] ∧
      nodesOnChain demoListBeforeLast = some nodes ∧
      nodesOnChain s1 = some (nodes.eraseIdx 6)) ∧
    (runOps demoOps mkEmpty).bind (fun s => readValues s 0) = some [1, 2, 4, 5, 6, 8] :=
  ⟨⟨demoOpsBeforeLast, by decide⟩, by decide, by decide,
    C1_delete_erases_first_occurrence demoListBeforeLast 9 0 [1, 2, 4, 5, 6, 8, 9]
      ⟨demoOpsBeforeLast, by decide⟩ (by decide) (by decide),
    by decide⟩

/-- C4 on the list [1,2,4,5,6,8] of `DemonstrateLinkedList_int`: the value 8 of the last item
is found, the deleted value 3 is not. -/
theorem C4_present_iff_on_chain_witness :
    runOps demoOps mkEmpty = some demoList ∧
    (∃ l, readValues demoList 0 = some l ∧ IsItemPresent 8 demoList = some (decide (8 ∈ l)) ∧
      (8 ∈ l ↔ (foundDeletes demoOps mkEmpty).count 8 < (addedValues demoOps).count 8)) ∧
    IsItemPresent 8 demoList = some true ∧ IsItemPresent 3 demoList = some false :=
  ⟨by decide, C4_present_iff_on_chain demoOps demoList 8 0 (by decide), by decide, by decide⟩

/-- C9 on the list [1,2,4,5,6,8] of `DemonstrateLinkedList_int`: deleting the absent value 3
returns the same list object. -/
theorem C9_delete_absent_changes_nothing_witness :
    Built demoList ∧ readValues demoList 0 = some [1, 2, 4, 5, 6, 8] ∧
    (3 : Int) ∉ [1, 2, 4, 5, 6, (8 : Int)] ∧ DeleteItem 3 demoList = some demoList :=
  ⟨⟨demoOps, by decide⟩, by decide, by decide,
    C9_delete_absent_changes_nothing demoList 3 0 [1, 2, 4, 5, 6, 8]
      ⟨demoOps, by decide⟩ (by decide) (by decide)⟩

end InterfaceWitnesses

/-! ## Walks along the next pointers of a node structure -/

section Walks

variable {T : Type}

theorem walk_none (heap : List (Option (LinkedListItem T))) (k : Nat) :
    walk heap none k = none := by
  induction k with
  | zero => rfl
  | succ k ih => exact ih

theorem walk_add (heap : List (Option (LinkedListItem T))) (i : Nat) :
    ∀ (p : Option Nat) (k : Nat), walk heap p (i + k) = walk heap (walk heap p i) k := by
  induction i with
  | zero => intro p k; simp [walk]
  | succ i ih =>
    intro p k
    rw [show i + 1 + k = (i + k) + 1 by omega]
    exact ih (nextPtr heap p) k

theorem walk_succ (heap : List (Option (LinkedListItem T))) (p : Option Nat) (k : Nat) :
    walk heap p (k + 1) = nextPtr heap (walk heap p k) := by
  rw [walk_add heap k p 1]; rfl

theorem walk_none_of_le {heap : List (Option (LinkedListItem T))} {p : Option Nat} {m k : Nat}
    (h : walk heap p m = none) (hk : m ≤ k) : walk heap p k = none := by
  obtain ⟨e, rfl⟩ : ∃ e, k = m + e := ⟨k - m, by omega⟩
  rw [walk_add, h, walk_none]

/-- Every live item of the memory has a valid next pointer. -/
theorem Closed_next {s : LinkedList T} (h : Closed s) {a : Nat} {item : LinkedListItem T}
    (hd : deref s.heap a = some item) : validPtr s.heap item.p_next = true := by
  simp only [Closed, Bool.and_eq_true, List.all_eq_true] at h
  exact h.2 (some item) (deref_mem hd)

theorem Closed_head {s : LinkedList T} (h : Closed s) : validPtr s.heap s.p_head = true := by
  simp only [Closed, Bool.and_eq_true] at h
  exact h.1

theorem validPtr_some {heap : List (Option (LinkedListItem T))} {a : Nat}
    (h : validPtr heap (some a) = true) : ∃ item, deref heap a = some item := by
  simp only [validPtr, Option.isSome_iff_exists] at h
  exact h

theorem Closed_walk {s : LinkedList T} (h : Closed s) (k : Nat) :
    validPtr s.heap (walk s.heap s.p_head k) = true := by
  induction k with
  | zero => exact Closed_head h
  | succ k ih =>
    rw [walk_succ]
    cases hw : walk s.heap s.p_head k with
    | none => rfl
    | some a =>
      rw [hw] at ih
      obtain ⟨item, hd⟩ := validPtr_some ih
      simp only [nextPtr, hd]
      exact Closed_next h hd

/-- A repetition on the walk repeats with its period from there on. -/
theorem walk_periodic {heap : List (Option (LinkedListItem T))} {p : Option Nat} {i j : Nat}
    (hij : i ≤ j) (h : walk heap p i = walk heap p j) (t : Nat) :
    ∀ k, i ≤ k → walk heap p (k + t * (j - i)) = walk heap p k := by
  induction t with
  | zero => intro k _; simp
  | succ t ih =>
    intro k hk
    have h1 : k + (t + 1) * (j - i) = j + ((k - i) + t * (j - i)) := by
      rw [Nat.add_mul]; omega
    have h2 : k + t * (j - i) = i + ((k - i) + t * (j - i)) := by omega
    rw [h1, walk_add, ← h, ← walk_add, ← h2]
    exact ih k hk

/-- A walk that reaches an absent link does not visit a node twice. -/
theorem walk_no_repeat {heap : List (Option (LinkedListItem T))} {p : Option Nat} {m i j : Nat}
    (hm : walk heap p m = none) (hij : i < j) (h : walk heap p i = walk heap p j) :
    walk heap p i = none := by
  have hper := walk_periodic (Nat.le_of_lt hij) h m i (Nat.le_refl i)
  rw [← hper]
  refine walk_none_of_le hm ?_
  have : m ≤ m * (j - i) := Nat.le_mul_of_pos_right m (by omega)
  omega

/-- Among the first `nodes.length + 1` pointers of a walk without an absent link that stays
within `nodes`, two are equal. -/
theorem walk_repeat_in {heap : List (Option (LinkedListItem T))} {p : Option Nat}
    (nodes : List Nat) (hin : ∀ k a, walk heap p k = some a → a ∈ nodes)
    (h : ∀ k ≤ nodes.length, walk heap p k ≠ none) :
    ∃ i j, i < j ∧ j ≤ nodes.length ∧ walk heap p i = walk heap p j := by
  have hmaps : ∀ k ∈ Finset.range (nodes.length + 1),
      (walk heap p k).getD 0 ∈ nodes.toFinset := by
    intro k hk
    have hk1 : k ≤ nodes.length := by simpa [Nat.lt_succ_iff] using hk
    cases hw : walk heap p k with
    | none => exact absurd hw (h k hk1)
    | some a => simpa using hin k a hw
  have hcard : nodes.toFinset.card < (Finset.range (nodes.length + 1)).card := by
    have := List.toFinset_card_le nodes
    simp only [Finset.card_range]
    omega
  obtain ⟨x, hx, y, hy, hxy, hfxy⟩ :=
    Finset.exists_ne_map_eq_of_card_lt_of_maps_to hcard hmaps
  have hx1 : x ≤ nodes.length := by simpa [Nat.lt_succ_iff] using hx
  have hy1 : y ≤ nodes.length := by simpa [Nat.lt_succ_iff] using hy
  have heq : walk heap p x = walk heap p y := by
    cases hwx : walk heap p x with
    | none => exact absurd hwx (h x hx1)
    | some a =>
      cases hwy : walk heap p y with
      | none => exact absurd hwy (h y hy1)
      | some b =>
        rw [hwx, hwy] at hfxy
        simpa using hfxy
  rcases Nat.lt_or_gt_of_ne hxy with hlt | hgt
  · exact ⟨x, y, hlt, hy1, heq⟩
  · exact ⟨y, x, hgt, hx1, heq.symm⟩

/-- A walk that stays within `nodes` and reaches an absent link reaches it within
`nodes.length` transitions. -/
theorem walk_ends_in {heap : List (Option (LinkedListItem T))} {p : Option Nat}
    (nodes : List Nat) (hin : ∀ k a, walk heap p k = some a → a ∈ nodes) {m : Nat}
    (hm : walk heap p m = none) : ∃ k ≤ nodes.length, walk heap p k = none := by
  by_contra hcon
  have h : ∀ k ≤ nodes.length, walk heap p k ≠ none := by
    intro k hk hw
    exact hcon ⟨k, hk, hw⟩
  obtain ⟨i, j, hij, hj, heq⟩ := walk_repeat_in nodes hin h
  exact h i (by omega) (walk_no_repeat hm hij heq)

/-- On a walk without an absent link that stays within `nodes`, slow and fast pointer meet
after at least one and at most `nodes.length` iterations. -/
theorem walk_meet_in {heap : List (Option (LinkedListItem T))} {p : Option Nat}
    (nodes : List Nat) (hin : ∀ k a, walk heap p k = some a → a ∈ nodes)
    (h : ∀ k, walk heap p k ≠ none) :
    ∃ n, 1 ≤ n ∧ n ≤ nodes.length ∧ walk heap p n = walk heap p (2 * n) := by
  obtain ⟨i, j, hij, hj, heq⟩ := walk_repeat_in nodes hin (fun k _ => h k)
  have hpos : 0 < j - i := by omega
  have hdm := Nat.div_add_mod j (j - i)
  have hmod := Nat.mod_lt j hpos
  refine ⟨(j - i) * (j / (j - i)), by omega, by omega, ?_⟩
  have hper := walk_periodic (Nat.le_of_lt hij) heq (j / (j - i)) ((j - i) * (j / (j - i)))
    (by omega)
  rw [← hper, Nat.mul_comm (j / (j - i)) (j - i)]
  congr 1; omega

theorem Closed_walk_mem_range {s : LinkedList T} (hc : Closed s) :
    ∀ k a, walk s.heap s.p_head k = some a → a ∈ List.range s.heap.length := by
  intro k a hw
  have hv := Closed_walk hc k
  rw [hw] at hv
  obtain ⟨item, hd⟩ := validPtr_some hv
  exact List.mem_range.mpr (deref_lt hd)

/-- A walk in a node structure that reaches an absent link reaches it within `heap.length`
transitions. -/
theorem walk_ends_early {s : LinkedList T} (hc : Closed s) {m : Nat}
    (hm : walk s.heap s.p_head m = none) :
    ∃ k ≤ s.heap.length, walk s.heap s.p_head k = none := by
  have := walk_ends_in (List.range s.heap.length) (Closed_walk_mem_range hc) hm
  simpa using this

/-- On a walk without an absent link, slow and fast pointer meet after at least one and at most
`heap.length` iterations. -/
theorem walk_meet {s : LinkedList T} (hc : Closed s)
    (h : ∀ k, walk s.heap s.p_head k ≠ none) :
    ∃ n, 1 ≤ n ∧ n ≤ s.heap.length ∧ walk s.heap s.p_head n = walk s.heap s.p_head (2 * n) := by
  have := walk_meet_in (List.range s.heap.length) (Closed_walk_mem_range hc) h
  simpa using this

end Walks

/-! ## Floyd's cycle finding -/

section Floyd

variable {T : Type}

theorem floydLoop_found (heap : List (Option (LinkedListItem T))) (fuel : Nat)
    (p q : Option Nat) (n : Nat) : floydLoop heap fuel true p q n = some (true, n) := by
  cases fuel <;> simp [floydLoop]

/-- The loop is left with `false` when the slow pointer, the fast pointer or the next pointer
of the fast item is absent. -/
theorem floydLoop_exit {s : LinkedList T} (hc : Closed s) (fuel i n : Nat)
    (h : walk s.heap s.p_head (2 * i + 1) = none) :
    floydLoop s.heap fuel false (walk s.heap s.p_head i) (walk s.heap s.p_head (2 * i)) n
      = some (false, n) := by
  cases hsl : walk s.heap s.p_head i with
  | none => cases fuel <;> simp [floydLoop]
  | some sl =>
    cases hfa : walk s.heap s.p_head (2 * i) with
    | none => cases fuel <;> simp [floydLoop]
    | some fa =>
      have hv := Closed_walk hc (2 * i)
      rw [hfa] at hv
      obtain ⟨fi, hfi⟩ := validPtr_some hv
      have hn : fi.p_next = none := by
        rw [walk_succ, hfa] at h
        simpa [nextPtr, hfi] using h
      cases fuel <;> simp [floydLoop, hfi, hn]

/-- One iteration of the loop moves the slow pointer by one and the fast pointer by two
transitions. -/
theorem floydLoop_iter {s : LinkedList T} (hc : Closed s) (fuel i n : Nat)
    (h : walk s.heap s.p_head (2 * i + 1) ≠ none) :
    floydLoop s.heap (fuel + 1) false (walk s.heap s.p_head i) (walk s.heap s.p_head (2 * i)) n
      = floydLoop s.heap fuel
          (decide (walk s.heap s.p_head (i + 1) = walk s.heap s.p_head (2 * (i + 1))))
          (walk s.heap s.p_head (i + 1)) (walk s.heap s.p_head (2 * (i + 1))) (n + 1) := by
  have h2 : walk s.heap s.p_head (2 * i) ≠ none :=
    fun h0 => h (walk_none_of_le h0 (by omega))
  have h1 : walk s.heap s.p_head i ≠ none :=
    fun h0 => h (walk_none_of_le h0 (by omega))
  obtain ⟨sl, hsl⟩ := Option.ne_none_iff_exists'.mp h1
  obtain ⟨fa, hfa⟩ := Option.ne_none_iff_exists'.mp h2
  obtain ⟨fn, hfn⟩ := Option.ne_none_iff_exists'.mp h
  have hvs := Closed_walk hc i
  have hvf := Closed_walk hc (2 * i)
  have hvn := Closed_walk hc (2 * i + 1)
  rw [hsl] at hvs
  rw [hfa] at hvf
  rw [hfn] at hvn
  obtain ⟨si, hsi⟩ := validPtr_some hvs
  obtain ⟨fi, hfi⟩ := validPtr_some hvf
  obtain ⟨fni, hfni⟩ := validPtr_some hvn
  have e1 : fi.p_next = some fn := by
    rw [walk_succ, hfa] at hfn
    simpa [nextPtr, hfi] using hfn
  have e2 : walk s.heap s.p_head (i + 1) = si.p_next := by
    rw [walk_succ, hsl]; simp [nextPtr, hsi]
  have e3 : walk s.heap s.p_head (2 * (i + 1)) = fni.p_next := by
    rw [show 2 * (i + 1) = (2 * i + 1) + 1 by omega, walk_succ, hfn]; simp [nextPtr, hfni]
  rw [e2, e3, hsl, hfa]
  simp [floydLoop, hfi, e1, hsi, hfni]

theorem floydLoop_cyclic {s : LinkedList T} (hc : Closed s)
    (h : ∀ k, walk s.heap s.p_head k ≠ none) (m : Nat) :
    ∀ (i fuel : Nat),
      (∀ j, i < j → j < i + m + 1 → walk s.heap s.p_head j ≠ walk s.heap s.p_head (2 * j)) →
      walk s.heap s.p_head (i + m + 1) = walk s.heap s.p_head (2 * (i + m + 1)) →
      m + 1 ≤ fuel →
      floydLoop s.heap fuel false (walk s.heap s.p_head i) (walk s.heap s.p_head (2 * i)) i
        = some (true, i + m + 1) := by
  induction m with
  | zero =>
    intro i fuel _ hmeet hf
    obtain ⟨fuel, rfl⟩ : ∃ f, fuel = f + 1 := ⟨fuel - 1, by omega⟩
    rw [floydLoop_iter hc fuel i i (h _)]
    simp only [Nat.add_zero] at hmeet
    rw [decide_eq_true hmeet, floydLoop_found]
  | succ m ih =>
    intro i fuel hno hmeet hf
    obtain ⟨fuel, rfl⟩ : ∃ f, fuel = f + 1 := ⟨fuel - 1, by omega⟩
    rw [floydLoop_iter hc fuel i i (h _)]
    rw [decide_eq_false (hno (i + 1) (by omega) (by omega))]
    have := ih (i + 1) fuel (fun j h1 h2 => hno j (by omega) (by omega))
      (by rw [show i + 1 + m + 1 = i + (m + 1) + 1 by omega]; exact hmeet) (by omega)
    rw [this]
    congr 2; omega

theorem floydLoop_acyclic {s : LinkedList T} (hc : Closed s) {n : Nat}
    (hn : walk s.heap s.p_head (2 * n + 1) = none) (d : Nat) :
    ∀ (i fuel : Nat), i + d = n →
      (∀ j, i ≤ j → j < n → walk s.heap s.p_head (2 * j + 1) ≠ none) → d ≤ fuel →
      floydLoop s.heap fuel false (walk s.heap s.p_head i) (walk s.heap s.p_head (2 * i)) i
        = some (false, n) := by
  induction d with
  | zero =>
    intro i fuel hi _ _
    have : i = n := by omega
    subst this
    exact floydLoop_exit hc fuel i i hn
  | succ d ih =>
    intro i fuel hi hno hf
    obtain ⟨fuel, rfl⟩ : ∃ f, fuel = f + 1 := ⟨fuel - 1, by omega⟩
    have hw := hno i (Nat.le_refl i) (by omega)
    have hne : walk s.heap s.p_head (i + 1) ≠ walk s.heap s.p_head (2 * (i + 1)) := by
      intro heq
      have h0 := walk_no_repeat hn (by omega) heq
      exact hw (walk_none_of_le h0 (by omega))
    rw [floydLoop_iter hc fuel i i hw, decide_eq_false hne]
    exact ih (i + 1) fuel (by omega) (fun j h1 h2 => hno j (by omega) h2) (by omega)

/-- The verdict of Floyd's cycle finding on a node structure and the number of iterations of
its loop, for every fuel of at least `heap.length`. -/
theorem floyd_verdict {s : LinkedList T} (hc : Closed s) :
    ∃ b n, (∀ fuel, s.heap.length ≤ fuel → floydWithFuel fuel s = some (b, n)) ∧
      (b = true ↔ ∀ k, walk s.heap s.p_head k ≠ none) ∧ n ≤ s.heap.length := by
  by_cases h : ∀ k, walk s.heap s.p_head k ≠ none
  · have hex := walk_meet hc h
    have hex1 : ∃ n, 1 ≤ n ∧ walk s.heap s.p_head n = walk s.heap s.p_head (2 * n) := by
      obtain ⟨n, h1, _, h3⟩ := hex
      exact ⟨n, h1, h3⟩
    obtain ⟨n1, hn1, hle, hm1⟩ := hex
    have hspec := Nat.find_spec hex1
    have hmin : ∀ j, j < Nat.find hex1 →
        ¬ (1 ≤ j ∧ walk s.heap s.p_head j = walk s.heap s.p_head (2 * j)) :=
      fun j hj => Nat.find_min hex1 hj
    have hfle : Nat.find hex1 ≤ n1 := Nat.find_min' hex1 ⟨hn1, hm1⟩
    obtain ⟨m, hm⟩ : ∃ m, Nat.find hex1 = 0 + m + 1 := ⟨Nat.find hex1 - 1, by omega⟩
    refine ⟨true, Nat.find hex1, ?_, by simp [h], by omega⟩
    intro fuel hfuel
    have := floydLoop_cyclic hc h m 0 fuel
      (fun j h1 h2 hj => hmin j (by omega) ⟨by omega, hj⟩)
      (by rw [← hm]; exact hspec.2) (by omega)
    rw [← hm] at this
    exact this
  · have hex : ∃ k, walk s.heap s.p_head k = none := by
      by_contra hcon
      exact h (fun k hk => hcon ⟨k, hk⟩)
    obtain ⟨m, hm⟩ := hex
    obtain ⟨k0, hk0, hw0⟩ := walk_ends_early hc hm
    have hex1 : ∃ n, walk s.heap s.p_head (2 * n + 1) = none :=
      ⟨k0, walk_none_of_le hw0 (by omega)⟩
    have hfle : Nat.find hex1 ≤ k0 := Nat.find_min' hex1 (walk_none_of_le hw0 (by omega))
    refine ⟨false, Nat.find hex1, ?_, by simp [h], by omega⟩
    intro fuel hfuel
    exact floydLoop_acyclic hc (Nat.find_spec hex1) (Nat.find hex1) 0 fuel (by omega)
      (fun j _ hj => Nat.find_min hex1 hj) (by omega)

end Floyd

section FloydProperty

variable {T : Type}

/-- C5: on every node structure (a memory of items whose head pointer and next pointers are
absent or reference live items, with any head and any `items_num`), `IsLooping_FloydsCycleFind`
returns a verdict, the same for every sufficient fuel of its loop, and the verdict is true
exactly when following the next pointers from the head never reaches an absent link. -/
theorem C5_floyd_true_iff_cyclic (s : LinkedList T) (hc : Closed s) :
    ∃ b, IsLooping_FloydsCycleFind s = some b ∧
      (∀ fuel, s.heap.length ≤ fuel → (floydWithFuel fuel s).map Prod.fst = some b) ∧
      (b = true ↔ ∀ k, walk s.heap s.p_head k ≠ none) := by
  obtain ⟨b, n, hfuel, hiff, _⟩ := floyd_verdict hc
  refine ⟨b, ?_, ?_, hiff⟩
  · simp only [IsLooping_FloydsCycleFind, hfuel _ (Nat.le_refl _), Option.map_some']
  · intro fuel hf
    simp only [hfuel fuel hf, Option.map_some']

/-- C5 on a single node linked to itself, together with the verdicts on that node, on the
empty list and on the acyclic list [1,2,4,5,6,8]. -/
theorem C5_floyd_true_iff_cyclic_witness :
    Closed selfLoopList ∧
    (∃ b, IsLooping_FloydsCycleFind selfLoopList = some b ∧
      (∀ fuel, selfLoopList.heap.length ≤ fuel →
        (floydWithFuel fuel selfLoopList).map Prod.fst = some b) ∧
      (b = true ↔ ∀ k, walk selfLoopList.heap selfLoopList.p_head k ≠ none)) ∧
    IsLooping_FloydsCycleFind selfLoopList = some true ∧
    IsLooping_FloydsCycleFind (mkEmpty : LinkedList Int) = some false ∧
    IsLooping_FloydsCycleFind demoList = some false :=
  ⟨by decide, C5_floyd_true_iff_cyclic selfLoopList (by decide), by decide, by decide,
    by decide⟩

end FloydProperty

/-! ## Transition counting -/

section TransitionCount

variable {T : Type}

theorem transitionLoop_walk {s : LinkedList T} (hc : Closed s) (n : Nat) (fuel : Nat) :
    ∀ (p : Option Nat) (tn : Nat), validPtr s.heap p = true → n + 1 ≤ fuel + tn →
      ∃ r, transitionLoop s.heap n fuel p tn = some r ∧
        (r.isSome = (walk s.heap p (n + 1 - tn)).isSome) := by
  induction fuel with
  | zero =>
    intro p tn _ hf
    cases p with
    | none => exact ⟨none, rfl, by rw [walk_none]⟩
    | some a =>
      refine ⟨some a, by simp only [transitionLoop]; rw [if_neg (by omega)], ?_⟩
      rw [show n + 1 - tn = 0 by omega]; rfl
  | succ fuel ih =>
    intro p tn hv hf
    cases p with
    | none => exact ⟨none, rfl, by rw [walk_none]⟩
    | some a =>
      by_cases htn : tn ≤ n
      · obtain ⟨item, hd⟩ := validPtr_some hv
        obtain ⟨r, hr, hiso⟩ := ih item.p_next (tn + 1) (Closed_next hc hd) (by omega)
        refine ⟨r, by simp only [transitionLoop, htn, if_true, hd, hr], ?_⟩
        rw [hiso, show n + 1 - tn = (n + 1 - (tn + 1)) + 1 by omega]
        simp only [walk, nextPtr, hd]
      · refine ⟨some a, by simp only [transitionLoop]; rw [if_neg htn], ?_⟩
        rw [show n + 1 - tn = 0 by omega]; rfl

/-- The verdict of transition counting on a node structure: some node is reached after
`items_num + 1` transitions from the head. -/
theorem transitionCount_verdict {s : LinkedList T} (hc : Closed s) :
    IsLooping_TransitionCount s = some (walk s.heap s.p_head (s.items_num + 1)).isSome := by
  cases hh : s.p_head with
  | none => simp only [IsLooping_TransitionCount, hh, walk_none]; rfl
  | some h =>
    have hv := Closed_head hc
    rw [hh] at hv
    obtain ⟨item, hd⟩ := validPtr_some hv
    cases hn : item.p_next with
    | none =>
      have : walk s.heap (some h) (s.items_num + 1) = none := by
        simp only [walk, nextPtr, hd, hn, walk_none]
      simp only [IsLooping_TransitionCount, hh, hd, hn, this]; rfl
    | some nx =>
      have hvn : validPtr s.heap (some nx) = true := by
        rw [← hn]; exact Closed_next hc hd
      obtain ⟨r, hr, hiso⟩ := transitionLoop_walk hc s.items_num s.items_num (some nx) 1 hvn
        (by omega)
      have hw : walk s.heap (some h) (s.items_num + 1) = walk s.heap (some nx) s.items_num := by
        simp only [walk, nextPtr, hd, hn]
      simp only [IsLooping_TransitionCount, hh, hd, hn, hr, hiso, hw]
      rfl

end TransitionCount

/-! ## Open hashing -/

section OpenHash

variable {T : Type}

theorem IsItemPresent_Inv {U : Type} [DecidableEq U] {s : LinkedList U} {c : List (Nat × U)}
    (h : Inv s c) (v : U) : IsItemPresent v s = some (decide (v ∈ c.map Prod.snd)) := by
  by_cases hv : v ∈ c.map Prod.snd
  · obtain ⟨pre, a, post, rfl, hpre⟩ := split_first v c hv
    simp only [IsItemPresent, search_found h hpre, Option.isSome_some, hv, decide_True]
  · have hne : ∀ x ∈ c, x.2 ≠ v := by
      intro x hx hxv
      exact hv (List.mem_map.mpr ⟨x, hx, hxv⟩)
    simp only [IsItemPresent, search_absent h hne, Option.isSome_none, hv, decide_False]

theorem TableInv_replicate (size : Nat) :
    TableInv size (List.replicate size (mkEmpty : LinkedList Nat)) [] := by
  intro i hi
  refine ⟨mkEmpty, [], ?_, Inv_mkEmpty, by simp⟩
  simp [List.getElem?_replicate, hi]

theorem TableInv_set {size : Nat} {table : List (LinkedList Nat)} {visited : List Nat}
    (h : TableInv size table visited) {a : Nat} {b1 : LinkedList Nat}
    {c : List (Nat × Nat)} {x : Nat} (hb1 : Inv b1 (c ++ [(x, a)]))
    (hc : ∀ u, u ∈ c.map Prod.snd ↔ (u ∈ visited ∧ u % size = a % size))
    (hlen : a % size < table.length) :
    TableInv size (table.set (a % size) b1) (visited ++ [a]) := by
  intro i hi
  by_cases hia : a % size = i
  · subst hia
    refine ⟨b1, c ++ [(x, a)], ?_, hb1, ?_⟩
    · simp [List.getElem?_set, hlen]
    · intro u
      simp only [List.map_append, List.map_cons, List.map_nil, List.mem_append,
        List.mem_singleton, hc u]
      constructor
      · rintro (⟨h1, h2⟩ | rfl)
        · exact ⟨Or.inl h1, h2⟩
        · exact ⟨Or.inr rfl, rfl⟩
      · rintro ⟨h1 | rfl, h2⟩
        · exact Or.inl ⟨h1, h2⟩
        · exact Or.inr rfl
  · obtain ⟨b, c0, hb, hinv, hiff⟩ := h i hi
    refine ⟨b, c0, ?_, hinv, ?_⟩
    · rw [List.getElem?_set_ne hia]; exact hb
    · intro u
      rw [hiff u]
      simp only [List.mem_append, List.mem_singleton]
      constructor
      · rintro ⟨h1, h2⟩; exact ⟨Or.inl h1, h2⟩
      · rintro ⟨h1 | rfl, h2⟩
        · exact ⟨h1, h2⟩
        · exact absurd h2 hia

/-- The loop of the open hashing detector on a node structure: started at the node reached
after `1 + j` transitions with the `j` nodes before it in the table, it ends with a node
exactly when the walk from the head never reaches an absent link. -/
theorem openHashLoop_verdict {s : LinkedList T} (hc : Closed s) {size : Nat} (hsize : 0 < size)
    (fuel : Nat) :
    ∀ (j : Nat) (table : List (LinkedList Nat)) (visited : List Nat),
      TableInv size table visited → visited.Nodup → visited.length = j →
      (∀ a ∈ visited, a < s.heap.length ∧ ∃ i, i < j ∧ walk s.heap s.p_head (1 + i) = some a) →
      s.heap.length ≤ fuel + j →
      ∃ r, openHashLoop s.heap size fuel table (walk s.heap s.p_head (1 + j)) = some r ∧
        (r.isSome = true ↔ ∀ k, walk s.heap s.p_head k ≠ none) := by
  induction fuel with
  | zero =>
    intro j table visited htab hnd hlen hvis hfuel
    cases hw : walk s.heap s.p_head (1 + j) with
    | none =>
      refine ⟨none, rfl, ?_⟩
      simp only [Option.isSome_none, Bool.false_eq_true, false_iff, not_forall, not_not]
      exact ⟨_, hw⟩
    | some a =>
      obtain ⟨b, c, hb, hinv, hiff⟩ := htab (a % size) (Nat.mod_lt _ hsize)
      have hpres := IsItemPresent_Inv hinv a
      have hv := Closed_walk hc (1 + j)
      rw [hw] at hv
      obtain ⟨item, hd⟩ := validPtr_some hv
      by_cases hav : a ∈ visited
      · have hmem : a ∈ c.map Prod.snd := (hiff a).mpr ⟨hav, rfl⟩
        refine ⟨some a, ?_, ?_⟩
        · simp only [openHashLoop, List.get?_eq_getElem?, hb, hpres, hmem, decide_True]
        · simp only [Option.isSome_some, true_iff]
          intro k hk
          obtain ⟨_, i, hi, hwi⟩ := hvis a hav
          have := walk_no_repeat hk (show 1 + i < 1 + j by omega) (by rw [hwi, hw])
          rw [hwi] at this
          exact absurd this (by simp)
      · exfalso
        have hnd1 : (visited ++ [a]).Nodup :=
          List.Nodup.append hnd (by simp) (by
            intro u hu1 hu2
            simp only [List.mem_singleton] at hu2
            subst hu2
            exact hav hu1)
        have hsub : visited ++ [a] ⊆ List.range s.heap.length := by
          intro u hu
          simp only [List.mem_append, List.mem_singleton] at hu
          rcases hu with hu | rfl
          · exact List.mem_range.mpr (hvis u hu).1
          · exact List.mem_range.mpr (deref_lt hd)
        have := (List.subperm_of_subset hnd1 hsub).length_le
        simp only [List.length_append, List.length_singleton, List.length_range] at this
        omega
  | succ fuel ih =>
    intro j table visited htab hnd hlen hvis hfuel
    cases hw : walk s.heap s.p_head (1 + j) with
    | none =>
      refine ⟨none, rfl, ?_⟩
      simp only [Option.isSome_none, Bool.false_eq_true, false_iff, not_forall, not_not]
      exact ⟨_, hw⟩
    | some a =>
      obtain ⟨b, c, hb, hinv, hiff⟩ := htab (a % size) (Nat.mod_lt _ hsize)
      have hpres := IsItemPresent_Inv hinv a
      have hv := Closed_walk hc (1 + j)
      rw [hw] at hv
      obtain ⟨item, hd⟩ := validPtr_some hv
      by_cases hav : a ∈ visited
      · have hmem : a ∈ c.map Prod.snd := (hiff a).mpr ⟨hav, rfl⟩
        refine ⟨some a, ?_, ?_⟩
        · simp only [openHashLoop, List.get?_eq_getElem?, hb, hpres, hmem, decide_True]
        · simp only [Option.isSome_some, true_iff]
          intro k hk
          obtain ⟨_, i, hi, hwi⟩ := hvis a hav
          have := walk_no_repeat hk (show 1 + i < 1 + j by omega) (by rw [hwi, hw])
          rw [hwi] at this
          exact absurd this (by simp)
      · have hnmem : a ∉ c.map Prod.snd := fun hm => hav ((hiff a).mp hm).1
        obtain ⟨b1, hadd, hinv1, _, _⟩ := Inv_add hinv a
        have hlt : a % size < table.length := by
          by_contra hge
          rw [List.getElem?_eq_none (by omega)] at hb
          exact absurd hb (by simp)
        have htab1 := TableInv_set htab hinv1 hiff hlt
        have hnd1 : (visited ++ [a]).Nodup :=
          List.Nodup.append hnd (by simp) (by
            intro u hu1 hu2
            simp only [List.mem_singleton] at hu2
            subst hu2
            exact hav hu1)
        have hvis1 : ∀ u ∈ visited ++ [a],
            u < s.heap.length ∧ ∃ i, i < j + 1 ∧ walk s.heap s.p_head (1 + i) = some u := by
          intro u hu
          simp only [List.mem_append, List.mem_singleton] at hu
          rcases hu with hu | rfl
          · obtain ⟨h1, i, hi, hwi⟩ := hvis u hu
            exact ⟨h1, i, by omega, hwi⟩
          · exact ⟨deref_lt hd, j, by omega, hw⟩
        obtain ⟨r, hr, hiso⟩ := ih (j + 1) _ _ htab1 hnd1 (by simp [hlen]) hvis1 (by omega)
        have hnext : walk s.heap s.p_head (1 + (j + 1)) = item.p_next := by
          rw [show 1 + (j + 1) = (1 + j) + 1 by omega, walk_succ, hw]
          simp only [nextPtr, hd]
        rw [hnext] at hr
        refine ⟨r, ?_, hiso⟩
        simp only [openHashLoop, List.get?_eq_getElem?, hb, hpres, hnmem, decide_False, hadd,
          hd, hr]

/-- The verdict of the open hashing detector on a node structure, for every table size and
every fuel of at least `heap.length`. -/
theorem openHash_verdict {s : LinkedList T} (hc : Closed s) (hash_table_size : Nat) :
    ∃ b, (∀ fuel, s.heap.length ≤ fuel → openHashWithFuel fuel hash_table_size s = some b) ∧
      (b = true ↔ ∀ k, walk s.heap s.p_head k ≠ none) := by
  have hsize : 0 < (if hash_table_size < 1 then DEFAULT_HASH_TABLE_SIZE else hash_table_size) := by
    split
    · simp [DEFAULT_HASH_TABLE_SIZE]
    · omega
  cases hh : s.p_head with
  | none =>
    refine ⟨false, fun fuel _ => by simp only [openHashWithFuel, hh], ?_⟩
    simp only [Bool.false_eq_true, false_iff, not_forall, not_not]
    exact ⟨0, rfl⟩
  | some h =>
    have hv := Closed_head hc
    rw [hh] at hv
    obtain ⟨item, hd⟩ := validPtr_some hv
    have hw1 : walk s.heap s.p_head 1 = item.p_next := by
      rw [hh]; simp only [walk, nextPtr, hd]
    cases hn : item.p_next with
    | none =>
      refine ⟨false, fun fuel _ => by simp only [openHashWithFuel, hh, hd, hn], ?_⟩
      simp only [Bool.false_eq_true, false_iff, not_forall, not_not]
      exact ⟨1, by rw [← hh, hw1, hn]⟩
    | some nx =>
      have haux := fun fuel (hf : s.heap.length ≤ fuel) =>
        openHashLoop_verdict hc hsize fuel 0 _ [] (TableInv_replicate _) (by simp) rfl
          (by simp) (by omega)
      obtain ⟨r, _, hiso⟩ := haux s.heap.length (Nat.le_refl _)
      rw [hh] at hiso
      refine ⟨r.isSome, ?_, hiso⟩
      intro fuel hf
      obtain ⟨r', hr', hiso'⟩ := haux fuel hf
      rw [hh] at hiso'
      have hrr : r'.isSome = r.isSome := by
        rw [Bool.eq_iff_iff, hiso, hiso']
      have hr2 : openHashLoop s.heap
          (if hash_table_size < 1 then DEFAULT_HASH_TABLE_SIZE else hash_table_size) fuel
          (List.replicate
            (if hash_table_size < 1 then DEFAULT_HASH_TABLE_SIZE else hash_table_size) mkEmpty)
          (some nx) = some r' := by
        rw [← hn, ← hw1]; exact hr'
      simp only [openHashWithFuel, hh, hd, hn, hr2, hrr]

end OpenHash

/-! ## Node structures produced by the public interface -/

section Structures

variable {T : Type}

theorem Closed_iff (s : LinkedList T) :
    Closed s ↔ validPtr s.heap s.p_head = true ∧
      ∀ a item, deref s.heap a = some item → validPtr s.heap item.p_next = true := by
  constructor
  · intro h
    exact ⟨Closed_head h, fun a item hd => Closed_next h hd⟩
  · rintro ⟨h1, h2⟩
    simp only [Closed, Bool.and_eq_true, List.all_eq_true]
    refine ⟨h1, ?_⟩
    intro cell hcell
    cases cell with
    | none => rfl
    | some item =>
      obtain ⟨a, ha, hget⟩ := List.mem_iff_getElem.mp hcell
      have hd : deref s.heap a = some item := by
        simp [deref, List.getD_eq_getElem?_getD, List.getElem?_eq_getElem ha, hget]
      exact h2 a item hd

theorem Seg_walk {heap : List (Option (LinkedListItem T))} (c : List (Nat × T)) :
    ∀ (p q : Option Nat), Seg heap p c q → walk heap p c.length = q := by
  induction c with
  | nil => intro p q h; exact h
  | cons x r ih =>
    obtain ⟨a, v⟩ := x
    rintro p q ⟨hp, nxt, hd, hr⟩
    subst hp
    simp only [List.length_cons, walk, nextPtr, hd]
    exact ih nxt q hr

theorem Seg_mem_deref {heap : List (Option (LinkedListItem T))} (c : List (Nat × T)) :
    ∀ (p q : Option Nat), Seg heap p c q → ∀ x ∈ c, ∃ nxt, deref heap x.1 = some ⟨x.2, nxt⟩ ∧
      (nxt = q ∨ ∃ y ∈ c, nxt = some y.1) := by
  induction c with
  | nil => intro p q _ x hx; simp at hx
  | cons y r ih =>
    obtain ⟨a, v⟩ := y
    rintro p q ⟨hp, nxt, hd, hr⟩ x hx
    simp only [List.mem_cons] at hx
    rcases hx with rfl | hx
    · refine ⟨nxt, hd, ?_⟩
      cases r with
      | nil => exact Or.inl hr
      | cons z r' =>
        obtain ⟨b, w⟩ := z
        exact Or.inr ⟨(b, w), by simp, hr.1⟩
    · obtain ⟨n1, hd1, hor⟩ := ih nxt q hr x hx
      refine ⟨n1, hd1, ?_⟩
      rcases hor with h1 | ⟨z, hz, h1⟩
      · exact Or.inl h1
      · exact Or.inr ⟨z, List.mem_cons_of_mem _ hz, h1⟩

/-- A list built through `AddItemAtEnd` and `DeleteItem` is a node structure with exactly
`items_num` live items. -/
theorem Inv_Tracked {s : LinkedList T} {c : List (Nat × T)} (h : Inv s c) : Tracked s := by
  refine ⟨(Closed_iff s).mpr ⟨?_, ?_⟩, c.map Prod.fst, by simp [h.count], h.live⟩
  · cases c with
    | nil =>
      have : s.p_head = none := h.chain
      rw [this]; rfl
    | cons x r =>
      obtain ⟨a, v⟩ := x
      obtain ⟨hp, nxt, hd, _⟩ := h.chain
      rw [hp]; simp [validPtr, hd]
  · intro a item hd
    have ha := h.live a item hd
    obtain ⟨x, hx, hxa⟩ := List.mem_map.mp ha
    obtain ⟨nxt, hdx, hor⟩ := Seg_mem_deref c _ _ h.chain x hx
    rw [hxa, hd] at hdx
    cases hdx
    rcases hor with h1 | ⟨y, hy, h1⟩
    · rw [h1]; rfl
    · obtain ⟨n2, hdy, _⟩ := Seg_mem_deref c _ _ h.chain y hy
      rw [h1]; simp [validPtr, hdy]

theorem validPtr_set {heap : List (Option (LinkedListItem T))} {a : Nat}
    {cur new : LinkedListItem T} (hd : deref heap a = some cur) (p : Option Nat) :
    validPtr (heap.set a (some new)) p = validPtr heap p := by
  cases p with
  | none => rfl
  | some b =>
    by_cases hab : a = b
    · subst hab
      simp [validPtr, deref_set_self _ (deref_lt hd), hd]
    · simp [validPtr, deref_set_ne _ hab]

/-- Redirecting the next pointer of a live item to a live item keeps a tracked node
structure. -/
theorem Tracked_setNext {s : LinkedList T} (h : Tracked s) {a n : Nat} {cur : LinkedListItem T}
    (hd : deref s.heap a = some cur) (hn : validPtr s.heap (some n) = true) :
    Tracked { s with heap := s.heap.set a (some { cur with p_next := some n }) } := by
  obtain ⟨hc, nodes, hlen, hlive⟩ := h
  obtain ⟨h1, h2⟩ := (Closed_iff s).mp hc
  refine ⟨(Closed_iff _).mpr ⟨?_, ?_⟩, nodes, hlen, ?_⟩
  · simp only [validPtr_set hd]; exact h1
  · intro b item hb
    simp only [validPtr_set hd]
    by_cases hab : a = b
    · subst hab
      simp only [deref_set_self _ (deref_lt hd)] at hb
      cases hb
      exact hn
    · simp only [deref_set_ne _ hab] at hb
      exact h2 b item hb
  · intro b item hb
    by_cases hab : a = b
    · subst hab; exact hlive a cur hd
    · simp only [deref_set_ne _ hab] at hb
      exact hlive b item hb

/-- On a tracked node structure the three detectors return the same verdict, which is true
exactly when the walk from the head never reaches an absent link. -/
theorem Tracked_verdicts {s : LinkedList T} (h : Tracked s) :
    ∃ b, IsLooping_TransitionCount s = some b ∧ IsLooping_FloydsCycleFind s = some b ∧
      (∀ size, IsLooping_OpenHash size s = some b) ∧
      (b = true ↔ ∀ k, walk s.heap s.p_head k ≠ none) := by
  obtain ⟨hc, nodes, hlen, hlive⟩ := h
  obtain ⟨b, n, hfuel, hiff, _⟩ := floyd_verdict hc
  refine ⟨b, ?_, ?_, ?_, hiff⟩
  · rw [transitionCount_verdict hc]
    congr 1
    rw [Bool.eq_iff_iff, hiff]
    constructor
    · intro hsome k hk
      have hin : ∀ k a, walk s.heap s.p_head k = some a → a ∈ nodes := by
        intro k a hw
        have hv := Closed_walk hc k
        rw [hw] at hv
        obtain ⟨item, hd⟩ := validPtr_some hv
        exact hlive a item hd
      obtain ⟨k1, hk1, hw1⟩ := walk_ends_in nodes hin hk
      have := walk_none_of_le hw1 (show k1 ≤ s.items_num + 1 by omega)
      rw [this] at hsome
      exact absurd hsome (by simp)
    · intro hall
      exact Option.ne_none_iff_isSome.mp (hall _)
  · simp only [IsLooping_FloydsCycleFind, hfuel _ (Nat.le_refl _), Option.map_some']
  · intro size
    obtain ⟨b2, hfuel2, hiff2⟩ := openHash_verdict hc size
    have hb : b2 = b := by
      rw [Bool.eq_iff_iff, hiff, hiff2]
    rw [← hb]
    exact hfuel2 _ (Nat.le_refl _)

end Structures

section ForcedLinks

variable {T : Type} [DecidableEq T]

/-- `SetNextReference` on a well-formed list in which both values are held: the next pointer
of the first item holding `x` is redirected to the first item holding `y`. -/
theorem SetNextReference_found {s : LinkedList T} {pre post pre2 post2 : List (Nat × T)}
    {a n : Nat} {x y : T} (h : Inv s (pre ++ (a, x) :: post)) (hpre : ∀ u ∈ pre, u.2 ≠ x)
    (h2 : Inv s (pre2 ++ (n, y) :: post2)) (hpre2 : ∀ u ∈ pre2, u.2 ≠ y) :
    ∃ nxt, deref s.heap a = some ⟨x, nxt⟩ ∧ validPtr s.heap (some n) = true ∧
      SetNextReference x y s
        = some { s with heap := s.heap.set a (some { data := x, p_next := some n }) } := by
  obtain ⟨m, _, _, nxt, hda, _⟩ := (Seg_append pre _ _ _).mp h.chain
  obtain ⟨m2, _, _, nxt2, hdn, _⟩ := (Seg_append pre2 _ _ _).mp h2.chain
  refine ⟨nxt, hda, by simp [validPtr, hdn], ?_⟩
  simp only [SetNextReference, search_found h hpre, search_found h2 hpre2, hda]

/-- `SetNextReference` on a list built through the interface returns a tracked node
structure. -/
theorem SetNextReference_Tracked {s : LinkedList T} {c : List (Nat × T)} (h : Inv s c)
    (x y : T) : ∃ s1, SetNextReference x y s = some s1 ∧ Tracked s1 := by
  by_cases hx : x ∈ c.map Prod.snd
  · by_cases hy : y ∈ c.map Prod.snd
    · obtain ⟨pre, a, post, hc1, hpre⟩ := split_first x c hx
      obtain ⟨pre2, n, post2, hc2, hpre2⟩ := split_first y c hy
      obtain ⟨nxt, hda, hvn, hset⟩ :=
        SetNextReference_found (hc1 ▸ h) hpre (hc2 ▸ h) hpre2
      exact ⟨_, hset, Tracked_setNext (Inv_Tracked h) hda hvn⟩
    · have hne : ∀ u ∈ c, u.2 ≠ y := by
        intro u hu huy
        exact hy (List.mem_map.mpr ⟨u, hu, huy⟩)
      obtain ⟨pre, a, post, rfl, hpre⟩ := split_first x c hx
      refine ⟨s, ?_, Inv_Tracked h⟩
      simp only [SetNextReference, search_found h hpre, search_absent h hne]
  · have hne : ∀ u ∈ c, u.2 ≠ x := by
      intro u hu hux
      exact hx (List.mem_map.mpr ⟨u, hu, hux⟩)
    refine ⟨s, ?_, Inv_Tracked h⟩
    by_cases hy : y ∈ c.map Prod.snd
    · obtain ⟨pre2, n, post2, rfl, hpre2⟩ := split_first y c hy
      simp only [SetNextReference, search_absent h hne, search_found h hpre2]
    · have hne2 : ∀ u ∈ c, u.2 ≠ y := by
        intro u hu huy
        exact hy (List.mem_map.mpr ⟨u, hu, huy⟩)
      simp only [SetNextReference, search_absent h hne, search_absent h hne2]

theorem indexOf_le_split {x y : T} {l1 l2 : List T}
    (h : (l1 ++ x :: l2).indexOf y ≤ l1.length) : y ∈ l1 ∨ y = x := by
  by_cases hy : y ∈ l1
  · exact Or.inl hy
  · right
    rw [List.indexOf_append_of_not_mem hy] at h
    by_contra hne
    rw [List.indexOf_cons_ne _ (Ne.symm hne)] at h
    omega

/-- A link from the first item holding `x` back to the first item holding `y`, which is that
item itself or an item before it, makes the walk from the head endless. -/
theorem SetNextReference_cyclic {s : LinkedList T} {c : List (Nat × T)} (h : Inv s c)
    {x y : T} (hx : x ∈ c.map Prod.snd)
    (hle : (c.map Prod.snd).indexOf y ≤ (c.map Prod.snd).indexOf x) :
    ∃ s1, SetNextReference x y s = some s1 ∧ Tracked s1 ∧ s1.items_num = s.items_num ∧
      ∀ k, walk s1.heap s1.p_head k ≠ none := by
  obtain ⟨pre, a, post, rfl, hpre⟩ := split_first x c hx
  have hn : x ∉ pre.map Prod.snd := by
    intro hm
    obtain ⟨u, hu, hux⟩ := List.mem_map.mp hm
    exact hpre u hu hux
  have hidx : (List.map Prod.snd (pre ++ (a, x) :: post)).indexOf x = pre.length := by
    simp only [List.map_append, List.map_cons]
    rw [List.indexOf_append_of_not_mem hn, List.indexOf_cons_self]
    simp
  rw [hidx] at hle
  simp only [List.map_append, List.map_cons] at hle
  have hle1 : ((pre.map Prod.snd) ++ x :: post.map Prod.snd).indexOf y
      ≤ (pre.map Prod.snd).length := by simpa using hle
  obtain ⟨m, hseg0, hm, nxt0, hda0, hpost⟩ := (Seg_append pre _ _ _).mp h.chain
  have hnd := h.nodup
  simp only [List.map_append, List.map_cons] at hnd
  have ha_pre : a ∉ pre.map Prod.fst := by
    intro hmem
    exact (List.nodup_append.mp hnd).2.2 hmem (by simp)
  have halt : a < s.heap.length := deref_lt hda0
  rcases indexOf_le_split hle1 with hy | hy
  · -- the link goes back to an item before the one holding `x`
    obtain ⟨p1, n, p2, rfl, hp1⟩ := split_first y pre hy
    have h2 : Inv s (p1 ++ (n, y) :: (p2 ++ (a, x) :: post)) := by
      simpa using h
    obtain ⟨nxt, hda, hvn, hset⟩ := SetNextReference_found h hpre h2 hp1
    refine ⟨_, hset, Tracked_setNext (Inv_Tracked h) hda hvn, rfl, ?_⟩
    obtain ⟨m1, hseg1, hseg2⟩ := (Seg_append p1 _ _ _).mp (hm ▸ hseg0)
    have hm1 : m1 = some n := hseg2.1
    subst hm1
    have ha1 : a ∉ p1.map Prod.fst := fun hmem => ha_pre (by simp [hmem])
    have ha2 : a ∉ ((n, y) :: p2).map Prod.fst := fun hmem => ha_pre (by
      simp only [List.map_cons, List.mem_cons] at hmem
      simp only [List.map_append, List.map_cons, List.mem_append, List.mem_cons]
      exact Or.inr hmem)
    have hw1 := Seg_walk p1 _ _
      (Seg_set a (some ({ data := x, p_next := some n } : LinkedListItem T)) _ _ _ ha1 hseg1)
    have hw2 := Seg_walk ((n, y) :: p2) _ _
      (Seg_set a (some ({ data := x, p_next := some n } : LinkedListItem T)) _ _ _ ha2 hseg2)
    have hw3 : walk (s.heap.set a (some ({ data := x, p_next := some n } : LinkedListItem T)))
        (some a) 1 = some n := by
      simp only [walk, nextPtr, deref_set_self _ halt]
    intro k hk
    have hrep : walk (s.heap.set a (some ({ data := x, p_next := some n } : LinkedListItem T)))
        s.p_head p1.length
        = walk (s.heap.set a (some ({ data := x, p_next := some n } : LinkedListItem T)))
          s.p_head (p1.length + (((n, y) :: p2).length + 1)) := by
      rw [walk_add, hw1, walk_add, hw2, hw3]
    have := walk_no_repeat hk (by simp) hrep
    rw [hw1] at this
    exact absurd this (by simp)
  · -- the item holding `x` is linked to itself
    subst hy
    obtain ⟨nxt, hda, hvn, hset⟩ := SetNextReference_found h hpre h hpre
    refine ⟨_, hset, Tracked_setNext (Inv_Tracked h) hda hvn, rfl, ?_⟩
    have hw1 := Seg_walk pre _ _
      (Seg_set a (some ({ data := y, p_next := some a } : LinkedListItem T)) _ _ _ ha_pre
        (hm ▸ hseg0))
    have hw3 : walk (s.heap.set a (some ({ data := y, p_next := some a } : LinkedListItem T)))
        (some a) 1 = some a := by
      simp only [walk, nextPtr, deref_set_self _ halt]
    intro k hk
    have hrep : walk (s.heap.set a (some ({ data := y, p_next := some a } : LinkedListItem T)))
        s.p_head pre.length
        = walk (s.heap.set a (some ({ data := y, p_next := some a } : LinkedListItem T)))
          s.p_head (pre.length + 1) := by
      rw [walk_add, hw1, hw3]
    have := walk_no_repeat hk (by simp) hrep
    rw [hw1] at this
    exact absurd this (by simp)

end ForcedLinks

section BoundedSearch

variable {T : Type} [DecidableEq T]

/-- The search loop on a node structure none of whose nodes reachable from `p` holds `v`: it
ends with an absent current pointer or with the transition budget used up. -/
theorem searchLoop_unheld {s : LinkedList T} (hc : Closed s) (n : Nat) (v : T) (fuel : Nat) :
    ∀ (p prev : Option Nat) (tn : Nat), validPtr s.heap p = true →
      (∀ k a item, walk s.heap p k = some a → deref s.heap a = some item → item.data ≠ v) →
      n + 1 ≤ fuel + tn →
      ∃ cur prev1 tn1, searchLoop s.heap n v fuel p prev tn = some (cur, prev1, tn1) ∧
        (cur = none ∨ n < tn1) ∧ tn1 ≤ max tn (n + 1) := by
  induction fuel with
  | zero =>
    intro p prev tn hv hno hf
    cases p with
    | none => exact ⟨none, prev, tn, rfl, Or.inl rfl, by omega⟩
    | some a =>
      obtain ⟨item, hd⟩ := validPtr_some hv
      refine ⟨some a, prev, tn, ?_, Or.inr (by omega), by omega⟩
      simp only [searchLoop, hd]
      rw [if_neg (by omega)]
  | succ fuel ih =>
    intro p prev tn hv hno hf
    cases p with
    | none => exact ⟨none, prev, tn, rfl, Or.inl rfl, by omega⟩
    | some a =>
      obtain ⟨item, hd⟩ := validPtr_some hv
      have hdata : item.data ≠ v := hno 0 a item rfl hd
      by_cases htn : tn ≤ n
      · have hno1 : ∀ k b it, walk s.heap item.p_next k = some b → deref s.heap b = some it →
            it.data ≠ v := by
          intro k b it hw hb
          refine hno (k + 1) b it ?_ hb
          simp only [walk, nextPtr, hd]
          exact hw
        obtain ⟨cur, prev1, tn1, hr, hor, hle⟩ :=
          ih item.p_next (some a) (tn + 1) (Closed_next hc hd) hno1 (by omega)
        refine ⟨cur, prev1, tn1, ?_, hor, by omega⟩
        simp only [searchLoop, hd, ne_eq, hdata, not_false_eq_true, htn, and_self, if_true, hr]
      · refine ⟨some a, prev, tn, ?_, Or.inr (by omega), by omega⟩
        simp only [searchLoop, hd]
        rw [if_neg (by simp [htn])]

/-- On a node structure none of whose nodes reachable from the head holds `v`, the bounded
search makes at most `items_num` transitions and reports no item, and `DeleteItem v` changes
nothing. -/
theorem unheld_not_found {s : LinkedList T} (hc : Closed s) (v : T)
    (hno : ∀ k a item, walk s.heap s.p_head k = some a → deref s.heap a = some item →
      item.data ≠ v) :
    IsItemPresent v s = some false ∧ DeleteItem v s = some s ∧
      ∃ cur prev tn, searchLoop s.heap s.items_num v s.items_num s.p_head none 1
          = some (cur, prev, tn) ∧ tn - 1 ≤ s.items_num := by
  obtain ⟨cur, prev1, tn1, hr, hor, hle⟩ :=
    searchLoop_unheld hc s.items_num v s.items_num s.p_head none 1 (Closed_head hc) hno
      (by omega)
  have hg : ∃ q, GetCurrentPreviousItemPointer v s = some (none, q) := by
    simp only [GetCurrentPreviousItemPointer, hr]
    by_cases htn : tn1 > s.items_num
    · exact ⟨none, by rw [if_pos htn]⟩
    · rcases hor with rfl | h1
      · exact ⟨prev1, by rw [if_neg htn]⟩
      · exact absurd h1 htn
  obtain ⟨q, hq⟩ := hg
  refine ⟨by simp only [IsItemPresent, hq, Option.isSome_none],
    by simp only [DeleteItem, hq], cur, prev1, tn1, hr, by omega⟩

end BoundedSearch

section DetectorProperties

variable {T : Type} [DecidableEq T]

/-- C6: on every list built from the empty list by `AddItemAtEnd` and `DeleteItem` calls,
`IsLooping_TransitionCount`, `IsLooping_FloydsCycleFind` and `IsLooping_OpenHash`, for every
table size, return false. -/
theorem C6_detectors_false_on_built_lists (s : LinkedList T) (hs : Built s) :
    IsLooping_TransitionCount s = some false ∧ IsLooping_FloydsCycleFind s = some false ∧
      ∀ size, IsLooping_OpenHash size s = some false := by
  obtain ⟨c, hinv⟩ := Built_Inv hs
  obtain ⟨b, h1, h2, h3, hiff⟩ := Tracked_verdicts (Inv_Tracked hinv)
  have hb : b = false := by
    cases b with
    | false => rfl
    | true => exact absurd (Seg_walk c _ _ hinv.chain) (hiff.mp rfl c.length)
  subst hb
  exact ⟨h1, h2, h3⟩

/-- C7: on a list built by `AddItemAtEnd` and `DeleteItem` calls that holds `x` and `y`, the
first item holding `y` being the first item holding `x` or an item before it,
`SetNextReference x y` returns a list on which all three detectors, `IsLooping_OpenHash` for
every table size, return true. -/
theorem C7_detectors_true_after_back_link (s : LinkedList T) (x y d : T) (l : List T)
    (hs : Built s) (hl : readValues s d = some l) (hx : x ∈ l) (hy : y ∈ l)
    (hle : l.indexOf y ≤ l.indexOf x) :
    ∃ s1, SetNextReference x y s = some s1 ∧
      IsLooping_TransitionCount s1 = some true ∧ IsLooping_FloydsCycleFind s1 = some true ∧
      ∀ size, IsLooping_OpenHash size s1 = some true := by
  obtain ⟨c, hinv⟩ := Built_Inv hs
  rw [readValues_Inv hinv d] at hl
  cases hl
  obtain ⟨s1, hset, htr, _, hcyc⟩ := SetNextReference_cyclic hinv hx hle
  obtain ⟨b, h1, h2, h3, hiff⟩ := Tracked_verdicts htr
  have hb : b = true := hiff.mpr hcyc
  subst hb
  exact ⟨s1, hset, h1, h2, h3⟩

/-- C8: on every list built by `AddItemAtEnd` and `DeleteItem` calls, and on every list that
one `SetNextReference` call makes of it, `IsLooping_OpenHash` returns for every table size the
verdict of `IsLooping_FloydsCycleFind` and of `IsLooping_TransitionCount`. -/
theorem C8_detectors_agree (s : LinkedList T) (hs : Built s) :
    (∃ b, IsLooping_TransitionCount s = some b ∧ IsLooping_FloydsCycleFind s = some b ∧
      ∀ size, IsLooping_OpenHash size s = some b) ∧
    ∀ x y, ∃ s1 b, SetNextReference x y s = some s1 ∧
      IsLooping_TransitionCount s1 = some b ∧ IsLooping_FloydsCycleFind s1 = some b ∧
      ∀ size, IsLooping_OpenHash size s1 = some b := by
  obtain ⟨c, hinv⟩ := Built_Inv hs
  constructor
  · obtain ⟨b, h1, h2, h3, _⟩ := Tracked_verdicts (Inv_Tracked hinv)
    exact ⟨b, h1, h2, h3⟩
  · intro x y
    obtain ⟨s1, hset, htr⟩ := SetNextReference_Tracked hinv x y
    obtain ⟨b, h1, h2, h3, _⟩ := Tracked_verdicts htr
    exact ⟨s1, b, hset, h1, h2, h3⟩

/-- C10: on a list that `SetNextReference` made of a list built by `AddItemAtEnd` and
`DeleteItem` calls (in particular a cyclic one), for a value `v` held by no node reachable
from the head, the bounded search ends after at most `items_num` transitions, `IsItemPresent v`
returns false and `DeleteItem v` returns the unchanged list object. -/
theorem C10_unheld_value_on_linked_list (s s1 : LinkedList T) (x y v : T) (hs : Built s)
    (hlink : SetNextReference x y s = some s1)
    (hv : ∀ k a item, walk s1.heap s1.p_head k = some a → deref s1.heap a = some item →
      item.data ≠ v) :
    IsItemPresent v s1 = some false ∧ DeleteItem v s1 = some s1 ∧
      ∃ cur prev tn, searchLoop s1.heap s1.items_num v s1.items_num s1.p_head none 1
          = some (cur, prev, tn) ∧ tn - 1 ≤ s1.items_num := by
  obtain ⟨c, hinv⟩ := Built_Inv hs
  obtain ⟨s2, hset, htr⟩ := SetNextReference_Tracked hinv x y
  rw [hlink] at hset
  cases hset
  exact unheld_not_found htr.1 v hv

end DetectorProperties

section DetectorWitnesses

/-- A set of addresses that contains the head, is closed under the next pointers and has no
item holding `v` contains every node reachable from the head. -/
theorem unheld_of_region {T : Type} [DecidableEq T] (heap : List (Option (LinkedListItem T)))
    (region : List Nat) (v : T) (hR : ∀ a ∈ region, unheldAt heap region v a = true) :
    ∀ (k : Nat) (p : Option Nat), (∀ a, p = some a → a ∈ region) →
      ∀ a item, walk heap p k = some a → deref heap a = some item → item.data ≠ v := by
  intro k
  induction k with
  | zero =>
    intro p hp a item hw hd
    have ha := hR a (hp a hw)
    simp only [unheldAt, hd, Bool.and_eq_true, decide_eq_true_eq] at ha
    exact ha.1
  | succ k ih =>
    intro p hp a item hw hd
    cases p with
    | none => simp [walk, nextPtr, walk_none] at hw
    | some b =>
      have hb := hR b (hp b rfl)
      cases hdb : deref heap b with
      | none => simp [unheldAt, hdb] at hb
      | some bi =>
        simp only [unheldAt, hdb, Bool.and_eq_true, decide_eq_true_eq] at hb
        refine ih bi.p_next ?_ a item (by simpa [walk, nextPtr, hdb] using hw) hd
        intro c hc
        rw [hc] at hb
        simpa using hb.2

/-- C6 on the list [1,2,4,5,6,8] of `DemonstrateLinkedList_int`, together with the verdicts on
the empty list and on a list of a single item. -/
theorem C6_detectors_false_on_built_lists_witness :
    Built demoList ∧
    (IsLooping_TransitionCount demoList = some false ∧
      IsLooping_FloydsCycleFind demoList = some false ∧
      ∀ size, IsLooping_OpenHash size demoList = some false) ∧
    IsLooping_TransitionCount (mkEmpty : LinkedList Int) = some false ∧
    IsLooping_OpenHash 10 (mkEmpty : LinkedList Int) = some false ∧
    (AddItemAtEnd (5 : Int) mkEmpty).bind IsLooping_TransitionCount = some false ∧
    (AddItemAtEnd (5 : Int) mkEmpty).bind IsLooping_FloydsCycleFind = some false ∧
    (AddItemAtEnd (5 : Int) mkEmpty).bind (IsLooping_OpenHash 1) = some false :=
  ⟨⟨demoOps, by decide⟩, C6_detectors_false_on_built_lists demoList ⟨demoOps, by decide⟩,
    by decide, by decide, by decide, by decide, by decide⟩

/-- C7 on the list [1,2,4,5,6,8,11,12,13] of `DemonstrateLinkedList_int` with the link from 12
to 4, together with the verdicts on the list [red, blue, white, black] of
`DemonstrateLinkedList_str` after the link from white to red. -/
theorem C7_detectors_true_after_back_link_witness :
    Built demoListFull ∧
    readValues demoListFull 0 = some [1, 2, 4, 5, 6, 8, 11, 12, 13] ∧
    (12 : Int) ∈ [1, 2, 4, 5, 6, 8, 11, 12, (13 : Int)] ∧
    (4 : Int) ∈ [1, 2, 4, 5, 6, 8, 11, 12, (13 : Int)] ∧
    List.indexOf (4 : Int) [1, 2, 4, 5, 6, 8, 11, 12, 13]
      ≤ List.indexOf (12 : Int) [1, 2, 4, 5, 6, 8, 11, 12, 13] ∧
    (∃ s1, SetNextReference 12 4 demoListFull = some s1 ∧
      IsLooping_TransitionCount s1 = some true ∧ IsLooping_FloydsCycleFind s1 = some true ∧
      ∀ size, IsLooping_OpenHash size s1 = some true) ∧
    readValues colorList "" = some ["red", "blue", "white", "black"] ∧
    (SetNextReference "white" "red" colorList).bind IsLooping_TransitionCount = some true ∧
    (SetNextReference "white" "red" colorList).bind IsLooping_FloydsCycleFind = some true ∧
    (SetNextReference "white" "red" colorList).bind (IsLooping_OpenHash 10) = some true :=
  ⟨⟨demoOpsFull, by decide⟩, by decide, by decide, by decide, by decide,
    C7_detectors_true_after_back_link demoListFull 12 4 0 [1, 2, 4, 5, 6, 8, 11, 12, 13]
      ⟨demoOpsFull, by decide⟩ (by decide) (by decide) (by decide) (by decide),
    by decide, by decide, by decide, by decide⟩

/-- C8 on the list [1,2,4,5,6,8,11,12,13] of `DemonstrateLinkedList_int`, together with the
verdicts for the table sizes 1, 10 and 20 after the link from 12 to 4 and after the forward
link from 2 to 8. -/
theorem C8_detectors_agree_witness :
    Built demoListFull ∧
    ((∃ b, IsLooping_TransitionCount demoListFull = some b ∧
        IsLooping_FloydsCycleFind demoListFull = some b ∧
        ∀ size, IsLooping_OpenHash size demoListFull = some b) ∧
      ∀ x y, ∃ s1 b, SetNextReference x y demoListFull = some s1 ∧
        IsLooping_TransitionCount s1 = some b ∧ IsLooping_FloydsCycleFind s1 = some b ∧
        ∀ size, IsLooping_OpenHash size s1 = some b) ∧
    [1, 10, 20].map (fun size => IsLooping_OpenHash size demoListLooped)
      = [some true, some true, some true] ∧
    IsLooping_FloydsCycleFind demoListLooped = some true ∧
    IsLooping_TransitionCount demoListLooped = some true ∧
    [1, 10, 20].map (fun size =>
        (SetNextReference 2 8 demoListFull).bind (IsLooping_OpenHash size))
      = [some false, some false, some false] ∧
    (SetNextReference 2 8 demoListFull).bind IsLooping_FloydsCycleFind = some false ∧
    (SetNextReference 2 8 demoListFull).bind IsLooping_TransitionCount = some false :=
  ⟨⟨demoOpsFull, by decide⟩, C8_detectors_agree demoListFull ⟨demoOpsFull, by decide⟩,
    by decide, by decide, by decide, by decide, by decide, by decide⟩

/-- C10 on the list of `DemonstrateLinkedList_int` after the link from 12 to 4, for the value
13, whose item the link has cut off from the head. -/
theorem C10_unheld_value_on_linked_list_witness :
    Built demoListFull ∧ SetNextReference 12 4 demoListFull = some demoListLooped ∧
    (∀ k a item, walk demoListLooped.heap demoListLooped.p_head k = some a →
      deref demoListLooped.heap a = some item → item.data ≠ 13) ∧
    (IsItemPresent 13 demoListLooped = some false ∧
      DeleteItem 13 demoListLooped = some demoListLooped ∧
      ∃ cur prev tn, searchLoop demoListLooped.heap demoListLooped.items_num 13
          demoListLooped.items_num demoListLooped.p_head none 1 = some (cur, prev, tn) ∧
        tn - 1 ≤ demoListLooped.items_num) :=
  ⟨⟨demoOpsFull, by decide⟩, by decide,
    fun k => unheld_of_region demoListLooped.heap [1, 2, 4, 5, 6, 8, 10, 11] 13 (by decide) k
      demoListLooped.p_head (by decide),
    C10_unheld_value_on_linked_list demoListFull demoListLooped 12 4 13
      ⟨demoOpsFull, by decide⟩ (by decide)
      (fun k => unheld_of_region demoListLooped.heap [1, 2, 4, 5, 6, 8, 10, 11] 13 (by decide) k
        demoListLooped.p_head (by decide))⟩

end DetectorWitnesses

/-! ## The reading pointer -/

section ReadingPointer

variable {T : Type}

theorem chainNodes_some_Seg {heap : List (Option (LinkedListItem T))} (fuel : Nat) :
    ∀ (p : Option Nat) (nodes : List Nat), chainNodes heap fuel p = some nodes →
      ∃ c, Seg heap p c none ∧ c.map Prod.fst = nodes := by
  induction fuel with
  | zero =>
    intro p nodes h
    cases p with
    | none =>
      simp only [chainNodes, Option.some.injEq] at h
      exact ⟨[], rfl, by simpa using h⟩
    | some a => simp [chainNodes] at h
  | succ fuel ih =>
    intro p nodes h
    cases p with
    | none =>
      simp only [chainNodes, Option.some.injEq] at h
      exact ⟨[], rfl, by simpa using h⟩
    | some a =>
      cases hd : deref heap a with
      | none => simp [chainNodes, hd] at h
      | some item =>
        simp only [chainNodes, hd, Option.map_eq_some'] at h
        obtain ⟨r, hr, rfl⟩ := h
        obtain ⟨c, hc, hcr⟩ := ih item.p_next r hr
        exact ⟨(a, item.data) :: c, ⟨rfl, item.p_next, hd, hc⟩, by simp [hcr]⟩

theorem expectedReads_fst (c : List (Nat × T)) (hc : c ≠ []) :
    (expectedReads c).map Prod.fst = List.replicate (c.length - 1) true ++ [false] := by
  induction c with
  | nil => exact absurd rfl hc
  | cons x r ih =>
    obtain ⟨a, v⟩ := x
    cases r with
    | nil => simp [expectedReads]
    | cons y r' =>
      have := ih (by simp)
      simp only [expectedReads, List.map_cons, List.length_cons, Nat.add_sub_cancel] at this ⊢
      simp [this, List.replicate_succ]

/-- C11: when the reading pointer references an item, `GetNextItem` returns the data of that
item, returns true exactly when the item has a successor, and then moves the reading pointer
to the successor, leaving the list as it is otherwise; so on a chain of `n ≥ 1` nodes that ends
in an absent link, the first `n - 1` calls after `ResetReading` return true and the `n`-th
returns false. -/
theorem C11_next_item_value_and_flag :
    (∀ (s : LinkedList T) (a : Nat) (item : LinkedListItem T) (d : T),
      s.p_listing = some a → deref s.heap a = some item →
        (∀ n, item.p_next = some n →
          GetNextItem s d = some (true, item.data, { s with p_listing := some n })) ∧
        (item.p_next = none → GetNextItem s d = some (false, item.data, s))) ∧
    (∀ (s : LinkedList T) (d : T) (nodes : List Nat),
      nodesOnChain s = some nodes → nodes ≠ [] →
        ∃ reads s1, readNextN nodes.length (ResetReading s) d = some (reads, s1) ∧
          reads.map Prod.fst = List.replicate (nodes.length - 1) true ++ [false]) := by
  constructor
  · intro s a item d hl hd
    constructor
    · intro n hn
      simp only [GetNextItem, hl, hd, hn]
    · intro hn
      simp only [GetNextItem, hl, hd, hn]
  · intro s d nodes hn hne
    obtain ⟨c, hseg, hc⟩ := chainNodes_some_Seg _ _ _ hn
    cases c with
    | nil => exact absurd hc.symm hne
    | cons x r =>
      obtain ⟨a, v⟩ := x
      have hh : s.p_head = some a := hseg.1
      have hseg1 : Seg (ResetReading s).heap (some a) ((a, v) :: r) none := by
        rw [hh] at hseg
        exact hseg
      have := readNextN_chain r a v (ResetReading s) d hseg1 (by simp [ResetReading, hh])
      refine ⟨expectedReads ((a, v) :: r),
        { ResetReading s with p_listing := lastPtr (some a) r }, ?_, ?_⟩
      · rw [← hc]
        simpa using this
      · rw [expectedReads_fst _ (by simp), ← hc]
        simp

/-- C11 on the list [1,2,4,5,6,8] of `DemonstrateLinkedList_int`: the first read returns 1 and
true and moves the reading pointer from address 1 to address 2, and of six reads the first
five return true and the sixth returns false. -/
theorem C11_next_item_value_and_flag_witness :
    (ResetReading demoList).p_listing = some 1 ∧
    deref (ResetReading demoList).heap 1 = some { data := 1, p_next := some 2 } ∧
    GetNextItem (ResetReading demoList) 0
      = some (true, 1, { ResetReading demoList with p_listing := some 2 }) ∧
    nodesOnChain demoList = some [1, 2, 4, 5, 6, 8] ∧
    (∃ reads s1, readNextN 6 (ResetReading demoList) 0 = some (reads, s1) ∧
      reads.map Prod.fst = [true, true, true, true, true, false]) :=
  ⟨by decide, by decide,
    ((C11_next_item_value_and_flag.1 (ResetReading demoList) 1
      { data := 1, p_next := some 2 } 0 (by decide) (by decide)).1 2 rfl),
    by decide,
    C11_next_item_value_and_flag.2 demoList 0 [1, 2, 4, 5, 6, 8] (by decide) (by decide)⟩

end ReadingPointer

section ReadingAtTheEnd

variable {T : Type}

/-- C12: when the reading pointer references an item and `GetNextItem` returns false, the
list object is unchanged, every further `GetNextItem` call returns the same value with false
and leaves the list object unchanged, and after `ResetReading` the next `GetNextItem` returns
the data of the head item. -/
theorem C12_reading_stays_at_last_item (s s1 : LinkedList T) (d v : T) (a : Nat)
    (hcur : s.p_listing = some a) (h : GetNextItem s d = some (false, v, s1)) :
    s1 = s ∧ (∀ m d1, readNextN m s1 d1 = some (List.replicate m (false, v), s1)) ∧
      (∀ h0 item d1, s.p_head = some h0 → deref s.heap h0 = some item →
        ∃ b s2, GetNextItem (ResetReading s1) d1 = some (b, item.data, s2)) := by
  have hget : s1 = s ∧ ∀ d1, GetNextItem s d1 = some (false, v, s) := by
    cases hd : deref s.heap a with
    | none => simp [GetNextItem, hcur, hd] at h
    | some item =>
      cases hn : item.p_next with
      | some n => simp [GetNextItem, hcur, hd, hn] at h
      | none =>
        simp only [GetNextItem, hcur, hd, hn, Option.some.injEq, Prod.mk.injEq, true_and] at h
        refine ⟨h.2.symm, ?_⟩
        intro d1
        simp only [GetNextItem, hcur, hd, hn, h.1]
  obtain ⟨hs1, hagain⟩ := hget
  subst hs1
  refine ⟨rfl, ?_, ?_⟩
  · intro m
    induction m with
    | zero => intro d1; rfl
    | succ m ih =>
      intro d1
      rw [readNextN_succ, hagain d1]
      simp only [ih v, List.replicate_succ]
  · intro h0 item d1 hh hd
    cases hn : item.p_next with
    | none =>
      exact ⟨false, ResetReading s1, by simp only [GetNextItem, ResetReading, hh, hd, hn]⟩
    | some n =>
      exact ⟨true, { ResetReading s1 with p_listing := some n },
        by simp only [GetNextItem, ResetReading, hh, hd, hn]⟩

/-- C12 on the list [1,2,4,5,6,8] of `DemonstrateLinkedList_int` after six reads: the seventh
and all further reads return 8 and false, and after `ResetReading` the next read returns 1. -/
theorem C12_reading_stays_at_last_item_witness :
    demoListRead.p_listing = some 8 ∧
    GetNextItem demoListRead 0 = some (false, 8, demoListRead) ∧
    (demoListRead = demoListRead ∧
      (∀ m d1, readNextN m demoListRead d1 = some (List.replicate m (false, 8), demoListRead)) ∧
      (∀ h0 item d1, demoListRead.p_head = some h0 → deref demoListRead.heap h0 = some item →
        ∃ b s2, GetNextItem (ResetReading demoListRead) d1 = some (b, item.data, s2))) ∧
    (GetNextItem (ResetReading demoListRead) 0).map (fun r => (r.1, r.2.1)) = some (true, 1) :=
  ⟨by decide, by decide,
    C12_reading_stays_at_last_item demoListRead demoListRead 0 8 8 (by decide) (by decide),
    by decide⟩

end ReadingAtTheEnd

section LinkWithoutEffect

variable {T : Type} [DecidableEq T]

/-- C13: on a list built by `AddItemAtEnd` and `DeleteItem` calls, `SetNextReference x y` with
`x` or `y` held by no item returns the unchanged list object: memory cells, head, tail,
reading pointer and number of items. -/
theorem C13_link_of_absent_value_is_noop (s : LinkedList T) (x y d : T) (l : List T)
    (hs : Built s) (hl : readValues s d = some l) (h : x ∉ l ∨ y ∉ l) :
    SetNextReference x y s = some s := by
  obtain ⟨c, hinv⟩ := Built_Inv hs
  rw [readValues_Inv hinv d] at hl
  cases hl
  have habs : ∀ z, z ∉ c.map Prod.snd → GetCurrentPreviousItemPointer z s = some (none, none) := by
    intro z hz
    refine search_absent hinv ?_
    intro u hu huz
    exact hz (List.mem_map.mpr ⟨u, hu, huz⟩)
  have hfound : ∀ z, z ∈ c.map Prod.snd →
      ∃ a q, GetCurrentPreviousItemPointer z s = some (some a, q) := by
    intro z hz
    obtain ⟨pre, a, post, rfl, hpre⟩ := split_first z c hz
    exact ⟨a, _, search_found hinv hpre⟩
  by_cases hx : x ∈ c.map Prod.snd
  · have hy : y ∉ c.map Prod.snd := by
      rcases h with h | h
      · exact absurd hx h
      · exact h
    obtain ⟨a, q, hxa⟩ := hfound x hx
    simp only [SetNextReference, hxa, habs y hy]
  · by_cases hy : y ∈ c.map Prod.snd
    · obtain ⟨a, q, hya⟩ := hfound y hy
      simp only [SetNextReference, habs x hx, hya]
    · simp only [SetNextReference, habs x hx, habs y hy]

/-- C13 on the list [1,2,4,5,6,8] of `DemonstrateLinkedList_int`: a link from the held value 4
to the deleted value 3 changes nothing, and neither does a link from 3 to 4. -/
theorem C13_link_of_absent_value_is_noop_witness :
    Built demoList ∧ readValues demoList 0 = some [1, 2, 4, 5, 6, 8] ∧
    ((4 : Int) ∉ [1, 2, 4, 5, 6, (8 : Int)] ∨ (3 : Int) ∉ [1, 2, 4, 5, 6, (8 : Int)]) ∧
    SetNextReference 4 3 demoList = some demoList ∧
    SetNextReference 3 4 demoList = some demoList :=
  ⟨⟨demoOps, by decide⟩, by decide, by decide,
    C13_link_of_absent_value_is_noop demoList 4 3 0 [1, 2, 4, 5, 6, 8] ⟨demoOps, by decide⟩
      (by decide) (by decide),
    by decide⟩

end LinkWithoutEffect

section ReadingTheLoopedList

/-- C14, as stated, fails: on the list [1,2,4,5,6,8,11,12,13] of `DemonstrateLinkedList_int`
with the link from 12 to 4, the first nine `GetNextItem` calls after `ResetReading` do not
return the values 1, 2, 4, 5, 6, 8, 11, 12, 13. -/
theorem C14_nine_reads_do_not_reach_13 :
    runOps demoOpsFull mkEmpty = some demoListFull ∧
    SetNextReference 12 4 demoListFull = some demoListLooped ∧
    ¬ ∃ reads s1, readNextN 9 (ResetReading demoListLooped) 0 = some (reads, s1) ∧
      reads.map Prod.snd = [1, 2, 4, 5, 6, 8, 11, 12, 13] := by
  refine ⟨by decide, by decide, ?_⟩
  rintro ⟨reads, s1, h1, h2⟩
  have h : (readNextN 9 (ResetReading demoListLooped) 0).map (fun r => r.1.map Prod.snd)
      = some [1, 2, 4, 5, 6, 8, 11, 12, 4] := by decide
  rw [h1] at h
  simp only [Option.map_some', Option.some.injEq] at h
  rw [h2] at h
  exact absurd h (by decide)

/-- C14, amended: on the list [1,2,4,5,6,8,11,12,13] of `DemonstrateLinkedList_int` with the
link from 12 to 4, the first nine `GetNextItem` calls after `ResetReading` return the values
1, 2, 4, 5, 6, 8, 11, 12, 4, each with the flag true: the item holding 13 is cut off, and the
ninth read is back at the item holding 4. -/
theorem C14_nine_reads_after_forced_link :
    runOps demoOpsFull mkEmpty = some demoListFull ∧
    readValues demoListFull 0 = some [1, 2, 4, 5, 6, 8, 11, 12, 13] ∧
    SetNextReference 12 4 demoListFull = some demoListLooped ∧
    (readNextN 9 (ResetReading demoListLooped) 0).map Prod.fst
      = some [(true, 1), (true, 2), (true, 4), (true, 5), (true, 6), (true, 8), (true, 11),
          (true, 12), (true, 4)] := by
  decide

end ReadingTheLoopedList

section InnerLinks

variable {T : Type}

theorem Seg_inner_next {heap : List (Option (LinkedListItem T))} (c0 : List (Nat × T)) :
    ∀ (p q : Option Nat) (y : Nat × T), Seg heap p (c0 ++ [y]) q →
      ∀ x ∈ c0, ∃ n, deref heap x.1 = some ⟨x.2, some n⟩ := by
  induction c0 with
  | nil => intro p q y _ x hx; simp at hx
  | cons z r ih =>
    obtain ⟨a, v⟩ := z
    rintro p q y ⟨_, nxt, hd, hr⟩ x hx
    simp only [List.mem_cons] at hx
    rcases hx with rfl | hx
    · cases r with
      | nil =>
        obtain ⟨b, w⟩ := y
        have : nxt = some b := hr.1
        exact ⟨b, by rw [← this]; exact hd⟩
      | cons z' r' =>
        obtain ⟨b, w⟩ := z'
        have : nxt = some b := hr.1
        exact ⟨b, by rw [← this]; exact hd⟩
    · exact ih nxt q y hr x hx

end InnerLinks

section TailAndLinks

variable {T : Type} [DecidableEq T]

theorem index_split {c pre post : List (Nat × T)} {a : Nat} {x : T}
    (hc : c = pre ++ (a, x) :: post) (hpre : ∀ u ∈ pre, u.2 ≠ x) :
    (c.map Prod.snd).indexOf x = pre.length ∧ (c.map Prod.fst)[pre.length]? = some a := by
  subst hc
  have hn : x ∉ pre.map Prod.snd := by
    intro hm
    obtain ⟨u, hu, hux⟩ := List.mem_map.mp hm
    exact hpre u hu hux
  constructor
  · simp only [List.map_append, List.map_cons]
    rw [List.indexOf_append_of_not_mem hn, List.indexOf_cons_self]
    simp
  · simp only [List.map_append, List.map_cons]
    rw [List.getElem?_append_right (by simp)]
    simp

/-- C17: on a non-empty list built by `AddItemAtEnd` and `DeleteItem` calls, `p_tail`
references the last node of the chain from the head, which is the only node of the chain whose
next pointer is absent, and `AddItemAtEnd v` makes `v` the last value in read order. -/
theorem C17_tail_is_last_node (s : LinkedList T) (d : T) (l : List T) (hs : Built s)
    (hl : readValues s d = some l) (hne : l ≠ []) :
    ∃ nodes t item, nodesOnChain s = some nodes ∧ nodes.getLast? = some t ∧
      s.p_tail = some t ∧ deref s.heap t = some item ∧ item.p_next = none ∧
      (∀ a ∈ nodes, ∀ it, deref s.heap a = some it → it.p_next = none → a = t) ∧
      ∀ v, ∃ s1, AddItemAtEnd v s = some s1 ∧ readValues s1 d = some (l ++ [v]) := by
  obtain ⟨c, hinv⟩ := Built_Inv hs
  rw [readValues_Inv hinv d] at hl
  cases hl
  rcases List.eq_nil_or_concat c with rfl | ⟨c0, y, rfl⟩
  · exact absurd rfl hne
  · obtain ⟨t, w⟩ := y
    rw [List.concat_eq_append] at hinv ⊢
    obtain ⟨m, _, hm, nxt, hdt, hnxt⟩ := (Seg_append c0 [(t, w)] _ _).mp hinv.chain
    simp only [Seg_nil] at hnxt
    subst hnxt
    refine ⟨_, t, ⟨w, none⟩, nodesOnChain_Inv hinv, by simp, ?_, hdt, rfl, ?_, ?_⟩
    · rw [hinv.tail (by simp), lastPtr_append_singleton]
    · intro a ha it hit hnone
      simp only [List.map_append, List.map_cons, List.map_nil, List.mem_append,
        List.mem_singleton] at ha
      rcases ha with ha | ha
      · obtain ⟨x, hx, hxa⟩ := List.mem_map.mp ha
        obtain ⟨n, hdx⟩ := Seg_inner_next c0 _ _ _ hinv.chain x hx
        rw [hxa, hit] at hdx
        cases hdx
        exact absurd hnone (by simp)
      · exact ha
    · intro v
      obtain ⟨s1, hadd, hinv1, _, _⟩ := Inv_add hinv v
      refine ⟨s1, hadd, ?_⟩
      rw [readValues_Inv hinv1 d]
      simp

/-- C17 on the list [1,2,4,5,6,8] of `DemonstrateLinkedList_int`, whose former tail 9 was
deleted last: the tail pointer references the item holding 8 and 11 is appended after it;
also right after the deletion of the head, 7 is appended to [1,2]. -/
theorem C17_tail_is_last_node_witness :
    Built demoList ∧ readValues demoList 0 = some [1, 2, 4, 5, 6, 8] ∧
    ([1, 2, 4, 5, 6, 8] : List Int) ≠ [] ∧
    (∃ nodes t item, nodesOnChain demoList = some nodes ∧ nodes.getLast? = some t ∧
      demoList.p_tail = some t ∧ deref demoList.heap t = some item ∧ item.p_next = none ∧
      (∀ a ∈ nodes, ∀ it, deref demoList.heap a = some it → it.p_next = none → a = t) ∧
      ∀ v, ∃ s1, AddItemAtEnd v demoList = some s1 ∧
        readValues s1 0 = some ([1, 2, 4, 5, 6, 8] ++ [v])) ∧
    demoList.p_tail = some 8 ∧
    (AddItemAtEnd 11 demoList).bind (fun s => readValues s 0) = some [1, 2, 4, 5, 6, 8, 11] ∧
    (runOps [Op.add 0, Op.add 1, Op.add 2, Op.del 0, Op.add 7] (mkEmpty : LinkedList Int)).bind
      (fun s => readValues s 0) = some [1, 2, 7] :=
  ⟨⟨demoOps, by decide⟩, by decide, by decide,
    C17_tail_is_last_node demoList 0 [1, 2, 4, 5, 6, 8] ⟨demoOps, by decide⟩ (by decide)
      (by decide),
    by decide, by decide, by decide⟩

/-- C18: on a list built by `AddItemAtEnd` and `DeleteItem` calls that holds `x` and `y`,
`SetNextReference x y` changes one pointer: the next pointer of the first node holding `x`
references the first node holding `y` afterwards; the data of that node, every other memory
cell, head, tail, reading pointer and number of items are as before. -/
theorem C18_link_changes_one_pointer (s : LinkedList T) (x y d : T) (l : List T)
    (hs : Built s) (hl : readValues s d = some l) (hx : x ∈ l) (hy : y ∈ l) :
    ∃ nodes a n item s1, nodesOnChain s = some nodes ∧
      nodes[l.indexOf x]? = some a ∧ nodes[l.indexOf y]? = some n ∧
      deref s.heap a = some item ∧ item.data = x ∧
      SetNextReference x y s = some s1 ∧
      s1 = { s with heap := s.heap.set a (some { item with p_next := some n }) } ∧
      deref s1.heap a = some { data := x, p_next := some n } ∧
      (∀ b, b ≠ a → deref s1.heap b = deref s.heap b) ∧
      s1.p_head = s.p_head ∧ s1.p_tail = s.p_tail ∧ s1.p_listing = s.p_listing ∧
      GetItemsNum s1 = GetItemsNum s := by
  obtain ⟨c, hinv⟩ := Built_Inv hs
  rw [readValues_Inv hinv d] at hl
  cases hl
  obtain ⟨pre, a, post, hc1, hpre⟩ := split_first x c hx
  obtain ⟨pre2, n, post2, hc2, hpre2⟩ := split_first y c hy
  obtain ⟨hi1, hg1⟩ := index_split hc1 hpre
  obtain ⟨hi2, hg2⟩ := index_split hc2 hpre2
  obtain ⟨nxt, hda, _, hset⟩ := SetNextReference_found (hc1 ▸ hinv) hpre (hc2 ▸ hinv) hpre2
  refine ⟨_, a, n, ⟨x, nxt⟩, _, nodesOnChain_Inv hinv, by rw [hi1]; exact hg1,
    by rw [hi2]; exact hg2, hda, rfl, hset, rfl, ?_, ?_, rfl, rfl, rfl, rfl⟩
  · exact deref_set_self _ (deref_lt hda)
  · intro b hb
    exact deref_set_ne _ (Ne.symm hb)

/-- C18 on the list [1,2,4,5,6,8,11,12,13] of `DemonstrateLinkedList_int` with the link from
12 to 4: the item at address 11 references address 4 afterwards, and tail and number of items
are still the address of the item holding 13 and 9. -/
theorem C18_link_changes_one_pointer_witness :
    Built demoListFull ∧ readValues demoListFull 0 = some [1, 2, 4, 5, 6, 8, 11, 12, 13] ∧
    (12 : Int) ∈ [1, 2, 4, 5, 6, 8, 11, 12, (13 : Int)] ∧
    (4 : Int) ∈ [1, 2, 4, 5, 6, 8, 11, 12, (13 : Int)] ∧
    (∃ nodes a n item s1, nodesOnChain demoListFull = some nodes ∧
      nodes[List.indexOf (12 : Int) [1, 2, 4, 5, 6, 8, 11, 12, 13]]? = some a ∧
      nodes[List.indexOf (4 : Int) [1, 2, 4, 5, 6, 8, 11, 12, 13]]? = some n ∧
      deref demoListFull.heap a = some item ∧ item.data = 12 ∧
      SetNextReference 12 4 demoListFull = some s1 ∧
      s1 = { demoListFull with
        heap := demoListFull.heap.set a (some { item with p_next := some n }) } ∧
      deref s1.heap a = some { data := 12, p_next := some n } ∧
      (∀ b, b ≠ a → deref s1.heap b = deref demoListFull.heap b) ∧
      s1.p_head = demoListFull.p_head ∧ s1.p_tail = demoListFull.p_tail ∧
      s1.p_listing = demoListFull.p_listing ∧ GetItemsNum s1 = GetItemsNum demoListFull) ∧
    deref demoListLooped.heap 11 = some { data := 12, p_next := some 4 } ∧
    demoListLooped.p_tail = some 12 ∧ GetItemsNum demoListLooped = 9 :=
  ⟨⟨demoOpsFull, by decide⟩, by decide, by decide, by decide,
    C18_link_changes_one_pointer demoListFull 12 4 0 [1, 2, 4, 5, 6, 8, 11, 12, 13]
      ⟨demoOpsFull, by decide⟩ (by decide) (by decide) (by decide),
    by decide, by decide, by decide⟩

end TailAndLinks

section CountingTransitions

variable {T : Type}

end CountingTransitions

section FloydIterations

variable {T : Type}

/-- The verdict of Floyd's cycle finding and the number of iterations of its loop, bounded by
the length of any list that holds every node reachable from the head. -/
theorem floyd_verdict_in {s : LinkedList T} (hc : Closed s) (nodes : List Nat)
    (hin : ∀ k a, walk s.heap s.p_head k = some a → a ∈ nodes) :
    ∃ b n, (∀ fuel, s.heap.length ≤ fuel → floydWithFuel fuel s = some (b, n)) ∧
      (b = true ↔ ∀ k, walk s.heap s.p_head k ≠ none) ∧ n ≤ nodes.length := by
  by_cases h : ∀ k, walk s.heap s.p_head k ≠ none
  · have hex1 : ∃ n, 1 ≤ n ∧ walk s.heap s.p_head n = walk s.heap s.p_head (2 * n) := by
      obtain ⟨n, h1, _, h3⟩ := walk_meet hc h
      exact ⟨n, h1, h3⟩
    obtain ⟨n1, hn1, hle1, hm1⟩ := walk_meet hc h
    obtain ⟨n2, hn2, hle2, hm2⟩ := walk_meet_in nodes hin h
    have hspec := Nat.find_spec hex1
    have hmin : ∀ j, j < Nat.find hex1 →
        ¬ (1 ≤ j ∧ walk s.heap s.p_head j = walk s.heap s.p_head (2 * j)) :=
      fun j hj => Nat.find_min hex1 hj
    have hfle1 : Nat.find hex1 ≤ n1 := Nat.find_min' hex1 ⟨hn1, hm1⟩
    have hfle2 : Nat.find hex1 ≤ n2 := Nat.find_min' hex1 ⟨hn2, hm2⟩
    obtain ⟨m, hm⟩ : ∃ m, Nat.find hex1 = 0 + m + 1 := ⟨Nat.find hex1 - 1, by omega⟩
    refine ⟨true, Nat.find hex1, ?_, by simp [h], by omega⟩
    intro fuel hfuel
    have := floydLoop_cyclic hc h m 0 fuel
      (fun j h1 h2 hj => hmin j (by omega) ⟨by omega, hj⟩)
      (by rw [← hm]; exact hspec.2) (by omega)
    rw [← hm] at this
    exact this
  · have hex : ∃ k, walk s.heap s.p_head k = none := by
      by_contra hcon
      exact h (fun k hk => hcon ⟨k, hk⟩)
    obtain ⟨m, hm⟩ := hex
    obtain ⟨k1, hk1, hw1⟩ := walk_ends_early hc hm
    obtain ⟨k2, hk2, hw2⟩ := walk_ends_in nodes hin hm
    have hex1 : ∃ n, walk s.heap s.p_head (2 * n + 1) = none :=
      ⟨k1, walk_none_of_le hw1 (by omega)⟩
    have hfle1 : Nat.find hex1 ≤ k1 := Nat.find_min' hex1 (walk_none_of_le hw1 (by omega))
    have hfle2 : Nat.find hex1 ≤ k2 := Nat.find_min' hex1 (walk_none_of_le hw2 (by omega))
    refine ⟨false, Nat.find hex1, ?_, by simp [h], by omega⟩
    intro fuel hfuel
    exact floydLoop_acyclic hc (Nat.find_spec hex1) (Nat.find hex1) 0 fuel (by omega)
      (fun j _ hj => Nat.find_min hex1 hj) (by omega)

/-- A set of addresses that holds the head and is closed under the next pointers holds every
node reachable from the head. -/
theorem reach_of_region (heap : List (Option (LinkedListItem T))) (region : List Nat)
    (hR : ∀ a ∈ region, linksInto heap region a = true) :
    ∀ (k : Nat) (p : Option Nat), (∀ a, p = some a → a ∈ region) →
      ∀ a, walk heap p k = some a → a ∈ region := by
  intro k
  induction k with
  | zero => intro p hp a hw; exact hp a hw
  | succ k ih =>
    intro p hp a hw
    cases p with
    | none => simp [walk, nextPtr, walk_none] at hw
    | some b =>
      have hb := hR b (hp b rfl)
      cases hdb : deref heap b with
      | none => simp [linksInto, hdb] at hb
      | some bi =>
        refine ih bi.p_next ?_ a (by simpa [walk, nextPtr, hdb] using hw)
        intro c hc
        simp only [linksInto, hdb, hc, decide_eq_true_eq] at hb
        exact hb

/-- C20: on every node structure, for every list `nodes` that holds every node reachable from
the head (so for the list of the `N` distinct reachable nodes), the loop of
`IsLooping_FloydsCycleFind` stops after at most `nodes.length` iterations, with the same
verdict and number of iterations for every sufficient fuel, whether or not the chain is
cyclic. -/
theorem C20_floyd_iterations_bounded (s : LinkedList T) (hc : Closed s) (nodes : List Nat)
    (hin : ∀ k a, walk s.heap s.p_head k = some a → a ∈ nodes) :
    ∃ b n, floydWithFuel s.heap.length s = some (b, n) ∧
      (∀ fuel, s.heap.length ≤ fuel → floydWithFuel fuel s = some (b, n)) ∧
      IsLooping_FloydsCycleFind s = some b ∧ n ≤ nodes.length := by
  obtain ⟨b, n, hfuel, _, hle⟩ := floyd_verdict_in hc nodes hin
  refine ⟨b, n, hfuel _ (Nat.le_refl _), hfuel, ?_, hle⟩
  simp only [IsLooping_FloydsCycleFind, hfuel _ (Nat.le_refl _), Option.map_some']

/-- C20 on the list of `DemonstrateLinkedList_int` after the link from 12 to 4, where 8 nodes
are reachable and the loop makes 6 iterations, together with the iteration counts on a single
node linked to itself (1), on the list [1,2,4,5,6,8] (3) and on the empty list (0). -/
theorem C20_floyd_iterations_bounded_witness :
    Closed demoListLooped ∧
    (∀ k a, walk demoListLooped.heap demoListLooped.p_head k = some a →
      a ∈ [1, 2, 4, 5, 6, 8, 10, 11]) ∧
    (∃ b n, floydWithFuel demoListLooped.heap.length demoListLooped = some (b, n) ∧
      (∀ fuel, demoListLooped.heap.length ≤ fuel →
        floydWithFuel fuel demoListLooped = some (b, n)) ∧
      IsLooping_FloydsCycleFind demoListLooped = some b ∧
      n ≤ [1, 2, 4, 5, 6, 8, 10, 11].length) ∧
    floydWithFuel demoListLooped.heap.length demoListLooped = some (true, 6) ∧
    floydWithFuel selfLoopList.heap.length selfLoopList = some (true, 1) ∧
    floydWithFuel demoList.heap.length demoList = some (false, 3) ∧
    floydWithFuel 0 (mkEmpty : LinkedList Int) = some (false, 0) :=
  ⟨by decide,
    fun k a => reach_of_region demoListLooped.heap [1, 2, 4, 5, 6, 8, 10, 11] (by decide) k
      demoListLooped.p_head (by decide) a,
    C20_floyd_iterations_bounded demoListLooped (by decide) [1, 2, 4, 5, 6, 8, 10, 11]
      (fun k a => reach_of_region demoListLooped.heap [1, 2, 4, 5, 6, 8, 10, 11] (by decide) k
        demoListLooped.p_head (by decide) a),
    by decide, by decide, by decide, by decide⟩

end FloydIterations

/-! ## The destructor -/

section Destruction

variable {T : Type}

theorem deref_getElem {heap : List (Option (LinkedListItem T))} {a : Nat}
    {item : LinkedListItem T} (h : deref heap a = some item) (ha : a < heap.length) :
    heap[a] = some item := by
  simpa [deref, List.getD_eq_getElem?_getD, List.getElem?_eq_getElem ha] using h

theorem live_set_none {heap : List (Option (LinkedListItem T))} {a : Nat}
    {item : LinkedListItem T} (h : deref heap a = some item) :
    (heap.set a none).countP (fun c => c.isSome) + 1 = heap.countP (fun c => c.isSome) := by
  have ha := deref_lt h
  have hget := deref_getElem h ha
  have hpos : 0 < heap.countP (fun c => c.isSome) :=
    List.countP_pos_iff.mpr ⟨some item, deref_mem h, rfl⟩
  rw [List.countP_set _ _ _ _ ha, hget]
  simp only [Option.isSome_some, if_true, Option.isSome_none, Bool.false_eq_true, if_false]
  omega

theorem set_live_same {heap : List (Option (LinkedListItem T))} {a : Nat}
    {item : LinkedListItem T} (h : deref heap a = some item) :
    heap.set a (some item) = heap := by
  have ha := deref_lt h
  have hget := deref_getElem h ha
  apply List.ext_getElem?
  intro j
  rw [List.getElem?_set]
  by_cases haj : a = j
  · subst haj
    simp [ha, hget]
  · simp [haj]

/-- The loop of the destructor is left at once when `p_current` is `nullptr`. -/
theorem destructorLoop_nullptr (fuel : Nat) (heap : List (Option (LinkedListItem T))) :
    destructorLoop T fuel heap none = ([], some heap) := by
  cases fuel <;> rfl

/-- One turn of the loop of the destructor at a live item: the item is released and the loop
goes on with its next pointer. -/
theorem destructorLoop_live (fuel : Nat) {heap : List (Option (LinkedListItem T))} {a : Nat}
    {item : LinkedListItem T} (h : deref heap a = some item) :
    destructorLoop T (fuel + 1) heap (some a) =
      (a :: (destructorLoop T fuel (heap.set a none) item.p_next).1,
        (destructorLoop T fuel (heap.set a none) item.p_next).2) := by
  simp only [destructorLoop, h]

/-- The loop of the destructor entered with a pointer to a cell that is not a live item: the
read of its next pointer is a read through an invalid pointer. -/
theorem destructorLoop_invalid (fuel : Nat) {heap : List (Option (LinkedListItem T))} {a : Nat}
    (h : deref heap a = none) :
    destructorLoop T (fuel + 1) heap (some a) = ([a], none) := by
  simp only [destructorLoop, h]

/-- Once the fuel exceeds the number of live items, the result of the loop of the destructor
does not depend on the fuel: a result without memory is then not due to the fuel. -/
theorem destructorLoop_fuel (fuel : Nat) :
    ∀ (heap : List (Option (LinkedListItem T))) (p : Option Nat) (fuel1 : Nat),
      heap.countP (fun c => c.isSome) + 1 ≤ fuel →
      heap.countP (fun c => c.isSome) + 1 ≤ fuel1 →
      destructorLoop T fuel heap p = destructorLoop T fuel1 heap p := by
  induction fuel with
  | zero => intro heap p fuel1 hf _; omega
  | succ fuel ih =>
    intro heap p fuel1 hf hf1
    obtain ⟨fuel1, rfl⟩ : ∃ f, fuel1 = f + 1 := ⟨fuel1 - 1, by omega⟩
    cases p with
    | none => rw [destructorLoop_nullptr, destructorLoop_nullptr]
    | some a =>
      cases hd : deref heap a with
      | none => rw [destructorLoop_invalid _ hd, destructorLoop_invalid _ hd]
      | some item =>
        have hlive := live_set_none hd
        rw [destructorLoop_live _ hd, destructorLoop_live _ hd,
          ih (heap.set a none) item.p_next fuel1 (by omega) (by omega)]

/-- When the loop of the destructor is left with some fuel, it is left with the same result
with every larger fuel. -/
theorem destructorLoop_mono (fuel : Nat) :
    ∀ (heap : List (Option (LinkedListItem T))) (p : Option Nat)
      (heap1 : List (Option (LinkedListItem T))),
      (destructorLoop T fuel heap p).2 = some heap1 →
      ∀ fuel1, fuel ≤ fuel1 → destructorLoop T fuel1 heap p = destructorLoop T fuel heap p := by
  induction fuel with
  | zero =>
    intro heap p heap1 h fuel1 _
    cases p with
    | none => rw [destructorLoop_nullptr, destructorLoop_nullptr]
    | some a => simp [destructorLoop] at h
  | succ fuel ih =>
    intro heap p heap1 h fuel1 hf
    obtain ⟨fuel1, rfl⟩ : ∃ f, fuel1 = f + 1 := ⟨fuel1 - 1, by omega⟩
    cases p with
    | none => rw [destructorLoop_nullptr, destructorLoop_nullptr]
    | some a =>
      cases hd : deref heap a with
      | none => rw [destructorLoop_invalid _ hd, destructorLoop_invalid _ hd]
      | some item =>
        rw [destructorLoop_live _ hd] at h ⊢
        rw [destructorLoop_live _ hd, ih _ _ heap1 h fuel1 (by omega)]

/-- When the loop of the destructor is not left with a fuel that exceeds the number of live
items, it is not left with any fuel. -/
theorem destructorLoop_never_left {heap : List (Option (LinkedListItem T))} {p : Option Nat}
    {fuel : Nat} (hf : heap.countP (fun c => c.isSome) + 1 ≤ fuel)
    (h : (destructorLoop T fuel heap p).2 = none) (fuel1 : Nat) :
    (destructorLoop T fuel1 heap p).2 = none := by
  cases h1 : (destructorLoop T fuel1 heap p).2 with
  | none => rfl
  | some heap1 =>
    have hmono := destructorLoop_mono fuel1 heap p heap1 h1 (fuel1 + fuel) (by omega)
    rw [destructorLoop_fuel fuel heap p (fuel1 + fuel) hf (by omega), hmono, h1] at h
    exact absurd h (by simp)

end Destruction

section DestructionOfChains

variable {T : Type}

/-- On a chain that ends in an absent link, the loop of the destructor is entered with the
address of every node of the chain, in chain order, each once, and is left. -/
theorem destructorLoop_Seg (c : List (Nat × T)) :
    ∀ (fuel : Nat) (heap : List (Option (LinkedListItem T))) (p : Option Nat),
      Seg heap p c none → (c.map Prod.fst).Nodup → c.length ≤ fuel →
      ∃ heap1, destructorLoop T fuel heap p = (c.map Prod.fst, some heap1) := by
  induction c with
  | nil =>
    intro fuel heap p hp _ _
    simp only [Seg_nil] at hp
    subst hp
    exact ⟨heap, destructorLoop_nullptr fuel heap⟩
  | cons x r ih =>
    obtain ⟨a, v⟩ := x
    rintro fuel heap p ⟨hp, nxt, hd, hr⟩ hnd hf
    subst hp
    simp only [List.length_cons] at hf
    obtain ⟨fuel, rfl⟩ : ∃ f, fuel = f + 1 := ⟨fuel - 1, by omega⟩
    simp only [List.map_cons, List.nodup_cons] at hnd
    obtain ⟨heap1, hrun⟩ :=
      ih fuel (heap.set a none) nxt (Seg_set a none r _ _ hnd.1 hr) hnd.2 (by omega)
    exact ⟨heap1, by rw [destructorLoop_live _ hd]; simp only [hrun, List.map_cons]⟩

/-- The destructor of a list built through `AddItemAtEnd` and `DeleteItem` releases every
node of the chain once and ends. -/
theorem Destructor_Inv {s : LinkedList T} {c : List (Nat × T)} (h : Inv s c) :
    ∃ heap1, Destructor s = (c.map Prod.fst, some heap1) ∧ (c.map Prod.fst).Nodup := by
  obtain ⟨heap1, hrun⟩ := destructorLoop_Seg c (s.heap.length + 1) s.heap s.p_head h.chain
    h.nodup (by have := Inv_length_le h; omega)
  exact ⟨heap1, hrun, h.nodup⟩

/-- Two chains from the same pointer to an absent link are the same. -/
theorem Seg_unique {heap : List (Option (LinkedListItem T))} (c : List (Nat × T)) :
    ∀ (c1 : List (Nat × T)) (p : Option Nat),
      Seg heap p c none → Seg heap p c1 none → c = c1 := by
  induction c with
  | nil =>
    intro c1 p h h1
    simp only [Seg_nil] at h
    subst h
    cases c1 with
    | nil => rfl
    | cons y r1 =>
      obtain ⟨b, w⟩ := y
      exact absurd h1.1 (by simp)
  | cons x r ih =>
    obtain ⟨a, v⟩ := x
    rintro c1 p ⟨hp, nxt, hd, hr⟩ h1
    subst hp
    cases c1 with
    | nil =>
      simp only [Seg_nil] at h1
      exact absurd h1 (by simp)
    | cons y r1 =>
      obtain ⟨b, w⟩ := y
      obtain ⟨hp1, nxt1, hd1, hr1⟩ := h1
      simp only [Option.some.injEq] at hp1
      subst hp1
      rw [hd] at hd1
      simp only [Option.some.injEq, LinkedListItem.mk.injEq] at hd1
      obtain ⟨hv, hn⟩ := hd1
      subst hv
      subst hn
      rw [ih r1 nxt hr hr1]

/-- The nodes of a chain that ends in an absent link have pairwise different addresses. -/
theorem Seg_none_nodup {heap : List (Option (LinkedListItem T))} (c : List (Nat × T)) :
    ∀ (p : Option Nat), Seg heap p c none → (c.map Prod.fst).Nodup := by
  induction c with
  | nil => intro p _; simp
  | cons x r ih =>
    obtain ⟨a, v⟩ := x
    rintro p ⟨hp, nxt, hd, hr⟩
    simp only [List.map_cons, List.nodup_cons]
    refine ⟨?_, ih nxt hr⟩
    intro hmem
    obtain ⟨y, hy, hya⟩ := List.mem_map.mp hmem
    obtain ⟨r1, r2, hsplit⟩ := List.append_of_mem hy
    obtain ⟨b, w⟩ := y
    simp only at hya
    subst hya
    have hr0 := hr
    rw [hsplit] at hr
    obtain ⟨m, _, hm⟩ := (Seg_append r1 ((b, w) :: r2) nxt none).mp hr
    obtain ⟨_, nxt1, hd1, hr2⟩ := hm
    rw [hd] at hd1
    simp only [Option.some.injEq, LinkedListItem.mk.injEq] at hd1
    rw [← hd1.2] at hr2
    have heq := Seg_unique r r2 nxt hr0 hr2
    have hlen : r.length = r2.length := by rw [heq]
    rw [hsplit] at hlen
    simp only [List.length_append, List.length_cons] at hlen
    omega

/-- On every list object whose chain from the head ends in an absent link, the destructor
releases every node of the chain once, in chain order, and ends. -/
theorem Destructor_chain {s : LinkedList T} {nodes : List Nat}
    (h : nodesOnChain s = some nodes) :
    ∃ heap1, Destructor s = (nodes, some heap1) ∧ nodes.Nodup := by
  obtain ⟨c, hseg, hc⟩ := chainNodes_some_Seg _ _ _ h
  have hnd := Seg_none_nodup c _ hseg
  obtain ⟨heap1, hrun⟩ := destructorLoop_Seg c (c.length + (s.heap.length + 1)) s.heap
    s.p_head hseg hnd (by omega)
  have hcount : s.heap.countP (fun c => c.isSome) ≤ s.heap.length := List.countP_le_length _
  refine ⟨heap1, ?_, by rw [← hc]; exact hnd⟩
  rw [← hc, ← hrun]
  exact destructorLoop_fuel _ _ _ _ (by omega) (by omega)

/-- The nodes of a chain are live items. -/
theorem Seg_live {heap : List (Option (LinkedListItem T))} (c : List (Nat × T)) :
    ∀ (p q : Option Nat), Seg heap p c q → ∀ a ∈ c.map Prod.fst, deref heap a ≠ none := by
  induction c with
  | nil => intro p q _ a ha; simp at ha
  | cons x r ih =>
    obtain ⟨a, v⟩ := x
    rintro p q ⟨_, nxt, hd, hr⟩ b hb
    simp only [List.map_cons, List.mem_cons] at hb
    rcases hb with rfl | hb
    · rw [hd]; simp
    · exact ih nxt q hr b hb

/-- When the loop of the destructor is left, the addresses with which its body was entered
are those of a chain from the first pointer to an absent link. -/
theorem destructorLoop_left_Seg (fuel : Nat) :
    ∀ (heap : List (Option (LinkedListItem T))) (p : Option Nat)
      (heap1 : List (Option (LinkedListItem T))),
      (destructorLoop T fuel heap p).2 = some heap1 →
      ∃ c : List (Nat × T), Seg heap p c none ∧
        c.map Prod.fst = (destructorLoop T fuel heap p).1 := by
  induction fuel with
  | zero =>
    intro heap p heap1 h
    cases p with
    | none => exact ⟨[], rfl, rfl⟩
    | some b => simp [destructorLoop] at h
  | succ fuel ih =>
    intro heap p heap1 h
    cases p with
    | none => exact ⟨[], rfl, rfl⟩
    | some b =>
      cases hd : deref heap b with
      | none =>
        rw [destructorLoop_invalid _ hd] at h
        exact absurd h (by simp)
      | some item =>
        rw [destructorLoop_live _ hd] at h ⊢
        obtain ⟨c, hseg, hc⟩ := ih _ _ heap1 h
        have hnot : b ∉ c.map Prod.fst := by
          intro hb
          exact Seg_live c _ _ hseg b hb (deref_set_self none (deref_lt hd))
        have hback : (heap.set b none).set b (some item) = heap := by
          rw [List.set_set]
          exact set_live_same hd
        have hseg1 : Seg heap item.p_next c none := by
          have := Seg_set b (some item) c _ _ hnot hseg
          rw [hback] at this
          exact this
        exact ⟨(b, item.data) :: c, ⟨rfl, item.p_next, hd, hseg1⟩, by simp [hc]⟩

/-- On a node structure whose walk from the first pointer never reaches an absent link, the
loop of the destructor is not left, whatever the fuel. -/
theorem destructorLoop_cyclic {heap : List (Option (LinkedListItem T))} {p : Option Nat}
    (hcyc : ∀ k, walk heap p k ≠ none) (fuel : Nat) :
    (destructorLoop T fuel heap p).2 = none := by
  cases h : (destructorLoop T fuel heap p).2 with
  | none => rfl
  | some heap1 =>
    obtain ⟨c, hseg, _⟩ := destructorLoop_left_Seg fuel heap p heap1 h
    exact absurd (Seg_walk c _ _ hseg) (hcyc c.length)

/-- When the loop of the destructor is not left although the fuel exceeds the number of live
items, the last address with which its body was entered is the first pointer or a next
pointer of an item, and it is the address of a cell that was released before the loop or one
with which the body was entered before. -/
theorem destructorLoop_fault (P : Nat → Prop) (fuel : Nat) :
    ∀ (heap : List (Option (LinkedListItem T))) (p : Option Nat),
      (∀ item, some item ∈ heap → ∀ b, item.p_next = some b → P b) →
      (∀ a, p = some a → P a) →
      heap.countP (fun c => c.isSome) + 1 ≤ fuel →
      (destructorLoop T fuel heap p).2 = none →
      ∃ pre a, (destructorLoop T fuel heap p).1 = pre ++ [a] ∧ P a ∧
        (a ∈ pre ∨ deref heap a = none) := by
  induction fuel with
  | zero => intro heap p _ _ hf _; omega
  | succ fuel ih =>
    intro heap p hH hp hf h
    cases p with
    | none =>
      rw [destructorLoop_nullptr] at h
      exact absurd h (by simp)
    | some b =>
      cases hd : deref heap b with
      | none =>
        rw [destructorLoop_invalid _ hd]
        exact ⟨[], b, rfl, hp b rfl, Or.inr hd⟩
      | some item =>
        have hlive := live_set_none hd
        rw [destructorLoop_live _ hd] at h ⊢
        have hH1 : ∀ it, some it ∈ heap.set b none → ∀ e, it.p_next = some e → P e := by
          intro it hmem e he
          rcases List.mem_or_eq_of_mem_set hmem with h1 | h1
          · exact hH it h1 e he
          · exact absurd h1 (by simp)
        obtain ⟨pre, a, hrun, hPa, ha⟩ := ih (heap.set b none) item.p_next hH1
          (fun e he => hH item (deref_mem hd) e he) (by omega) h
        refine ⟨b :: pre, a, by simp only [hrun, List.cons_append], hPa, ?_⟩
        rcases ha with ha | ha
        · exact Or.inl (List.mem_cons_of_mem _ ha)
        · by_cases hab : b = a
          · exact Or.inl (by rw [hab]; exact List.mem_cons_self _ _)
          · rw [deref_set_ne none hab] at ha
            exact Or.inr ha

/-- On a node structure whose walk from the head never reaches an absent link, the destructor
has no defined result, whatever the fuel: the body of its loop is entered a second time with an
address with which it was entered before, that of an item which the loop has released. -/
theorem Destructor_cyclic_repeats {s : LinkedList T} (hc : Closed s)
    (hcyc : ∀ k, walk s.heap s.p_head k ≠ none) :
    (∀ fuel, (destructorWithFuel fuel s).2 = none) ∧
      ∃ pre a, (Destructor s).1 = pre ++ [a] ∧ a ∈ pre ∧ ¬ (Destructor s).1.Nodup := by
  obtain ⟨h1, h2⟩ := (Closed_iff s).mp hc
  refine ⟨fun fuel => destructorLoop_cyclic hcyc fuel, ?_⟩
  have hcount : s.heap.countP (fun c => c.isSome) ≤ s.heap.length := List.countP_le_length _
  obtain ⟨pre, a, hrun, hPa, ha⟩ :=
    destructorLoop_fault (fun a => deref s.heap a ≠ none) (s.heap.length + 1) s.heap s.p_head
      (by
        intro item hmem b hb
        obtain ⟨a, ha, hget⟩ := List.mem_iff_getElem.mp hmem
        have hd : deref s.heap a = some item := by
          simp [deref, List.getD_eq_getElem?_getD, List.getElem?_eq_getElem ha, hget]
        have hv := h2 a item hd
        rw [hb] at hv
        obtain ⟨it, hit⟩ := validPtr_some hv
        rw [hit]; simp)
      (by
        intro a ha
        rw [ha] at h1
        obtain ⟨it, hit⟩ := validPtr_some h1
        rw [hit]; simp)
      (by omega) (destructorLoop_cyclic hcyc _)
  have hmem : a ∈ pre := by
    rcases ha with ha | ha
    · exact ha
    · exact absurd ha hPa
  refine ⟨pre, a, hrun, hmem, ?_⟩
  show ¬ (destructorLoop T (s.heap.length + 1) s.heap s.p_head).1.Nodup
  rw [hrun]
  intro hnd
  have := List.nodup_append.mp hnd
  exact this.2.2 hmem (List.mem_singleton_self a)

/-- C15, evaluated where it fails: on the list of `DemonstrateLinkedList_int` before the link
is forced, the destructor `~LinkedList` releases the nine nodes of the chain once each and
ends with an empty memory. After the link from 12 to 4, the body of its loop is entered with
the addresses 1, 2, 4, 5, 6, 8, 10, 11 and then 4 again: the item holding 4, where the loop
is entered, is released by then, is read through the dangling pointer and is passed to
`delete` a second time, and the run has no defined result. For a single node linked to itself
the addresses are 0 and 0. -/
theorem C15_destructor_releases_loop_entry_twice :
    runOps demoOpsFull mkEmpty = some demoListFull ∧
    SetNextReference 12 4 demoListFull = some demoListLooped ∧
    nodesOnChain demoListFull = some [1, 2, 4, 5, 6, 8, 10, 11, 12] ∧
    Destructor demoListFull = ([1, 2, 4, 5, 6, 8, 10, 11, 12], some (List.replicate 13 none)) ∧
    nodesOnChain demoListLooped = none ∧
    Destructor demoListLooped = ([1, 2, 4, 5, 6, 8, 10, 11, 4], none) ∧
    ¬ ([1, 2, 4, 5, 6, 8, 10, 11, 4] : List Nat).Nodup ∧
    Destructor selfLoopList = ([0, 0], none) := by
  decide

/-- C16, evaluated where it fails: on the list of `DemonstrateLinkedList_int` after the link
from 12 to 4, the loop of the destructor `~LinkedList` is not left with any fuel, and from
fuel 10 on its run is always the same: the body is entered with the addresses 1, 2, 4, 5, 6,
8, 10, 11 and then with 4 again, where it reads the next pointer of an item that the loop
has released. Whether the loop ends depends on that read through a dangling pointer. The
same holds for a single node linked to itself, from fuel 2 on. -/
theorem C16_destructor_walk_reenters_released_item :
    SetNextReference 12 4 demoListFull = some demoListLooped ∧
    (∀ fuel, (destructorWithFuel fuel demoListLooped).2 = none) ∧
    (∀ fuel, 10 ≤ fuel →
      destructorWithFuel fuel demoListLooped = ([1, 2, 4, 5, 6, 8, 10, 11, 4], none)) ∧
    (∀ fuel, (destructorWithFuel fuel selfLoopList).2 = none) ∧
    (∀ fuel, 2 ≤ fuel → destructorWithFuel fuel selfLoopList = ([0, 0], none)) := by
  have hlive : demoListLooped.heap.countP (fun c => c.isSome) + 1 ≤ 10 := by decide
  have hrun : destructorLoop Int 10 demoListLooped.heap demoListLooped.p_head
      = ([1, 2, 4, 5, 6, 8, 10, 11, 4], none) := by decide
  have hlive1 : selfLoopList.heap.countP (fun c => c.isSome) + 1 ≤ 2 := by decide
  have hrun1 : destructorLoop Int 2 selfLoopList.heap selfLoopList.p_head = ([0, 0], none) := by
    decide
  refine ⟨by decide, ?_, ?_, ?_, ?_⟩
  · intro fuel
    exact destructorLoop_never_left hlive (by rw [hrun]) fuel
  · intro fuel hf
    exact (destructorLoop_fuel fuel _ _ 10 (by omega) hlive).trans hrun
  · intro fuel
    exact destructorLoop_never_left hlive1 (by rw [hrun1]) fuel
  · intro fuel hf
    exact (destructorLoop_fuel fuel _ _ 2 (by omega) hlive1).trans hrun1

end DestructionOfChains

/-! ## The size of the hash table and the budget of the search -/

section TableSize

variable {T : Type}

/-- C22: `IsLooping_OpenHash` replaces a table size of 0 by the default 10, so that the size
it divides by is at least 1 and every bucket index is smaller than it; with size 0 it returns
what it returns with size 10, for every list object and every fuel; and on every node
structure it returns a verdict for every size, so no bucket outside the table is used. -/
theorem C22_table_size_at_least_one :
    (∀ (fuel : Nat) (s : LinkedList T),
      openHashWithFuel fuel 0 s = openHashWithFuel fuel DEFAULT_HASH_TABLE_SIZE s) ∧
    (∀ s : LinkedList T, IsLooping_OpenHash 0 s = IsLooping_OpenHash 10 s) ∧
    (∀ size a : Nat,
      1 ≤ (if size < 1 then DEFAULT_HASH_TABLE_SIZE else size) ∧
      a % (if size < 1 then DEFAULT_HASH_TABLE_SIZE else size)
        < (if size < 1 then DEFAULT_HASH_TABLE_SIZE else size)) ∧
    (∀ (s : LinkedList T) (size : Nat), Closed s → ∃ b, IsLooping_OpenHash size s = some b) := by
  refine ⟨fun fuel s => rfl, fun s => rfl, ?_, ?_⟩
  · intro size a
    have h1 : 1 ≤ (if size < 1 then DEFAULT_HASH_TABLE_SIZE else size) := by
      split
      · simp [DEFAULT_HASH_TABLE_SIZE]
      · omega
    exact ⟨h1, Nat.mod_lt _ (by omega)⟩
  · intro s size hc
    obtain ⟨b, hfuel, _⟩ := openHash_verdict hc size
    exact ⟨b, hfuel _ (Nat.le_refl _)⟩

/-- C22 on the list of `DemonstrateLinkedList_int` after the link from 12 to 4 and on the
list [1,2,4,5,6,8]: the verdicts for the sizes 0 and 10 are true and true, false and false. -/
theorem C22_table_size_at_least_one_witness :
    Closed demoListLooped ∧ (∃ b, IsLooping_OpenHash 0 demoListLooped = some b) ∧
    IsLooping_OpenHash 0 demoListLooped = some true ∧
    IsLooping_OpenHash 10 demoListLooped = some true ∧
    IsLooping_OpenHash 0 demoList = some false ∧ IsLooping_OpenHash 10 demoList = some false :=
  ⟨by decide, C22_table_size_at_least_one.2.2.2 demoListLooped 0 (by decide), by decide,
    by decide, by decide, by decide⟩

end TableSize

section SearchBudget

variable {T : Type} [DecidableEq T]

end SearchBudget

/-! ## The reading pointer under the calls of the public interface -/

section ReachedLists

variable {T : Type}

theorem Inv_listing {s : LinkedList T} {c : List (Nat × T)} (h : Inv s c) (p : Option Nat) :
    Inv { s with p_listing := p } c :=
  ⟨h.chain, h.nodup, h.count, h.tail, h.live⟩

theorem GetNextItem_Inv {s s1 : LinkedList T} {c : List (Nat × T)} (h : Inv s c) {d d1 : T}
    {b : Bool} (hg : GetNextItem s d = some (b, d1, s1)) : Inv s1 c := by
  cases hl : s.p_listing with
  | none =>
    simp only [GetNextItem, hl, Option.some.injEq, Prod.mk.injEq] at hg
    rw [← hg.2.2]; exact h
  | some a =>
    cases hd : deref s.heap a with
    | none => simp [GetNextItem, hl, hd] at hg
    | some item =>
      cases hn : item.p_next with
      | none =>
        simp only [GetNextItem, hl, hd, hn, Option.some.injEq, Prod.mk.injEq] at hg
        rw [← hg.2.2]; exact h
      | some n =>
        simp only [GetNextItem, hl, hd, hn, Option.some.injEq, Prod.mk.injEq] at hg
        rw [← hg.2.2]; exact Inv_listing h _

end ReachedLists

section ReachedListsInv

variable {T : Type} [DecidableEq T]

theorem runCalls_Inv (calls : List (Call T)) :
    ∀ (s0 s : LinkedList T) (c0 : List (Nat × T)), Inv s0 c0 → runCalls calls s0 = some s →
      ∃ c, Inv s c := by
  induction calls with
  | nil =>
    intro s0 s c0 h hrun
    simp only [runCalls, Option.some.injEq] at hrun
    exact ⟨c0, hrun ▸ h⟩
  | cons call calls ih =>
    intro s0 s c0 h hrun
    cases hcall : applyCall call s0 with
    | none => simp [runCalls, hcall] at hrun
    | some s1 =>
      simp only [runCalls, hcall] at hrun
      have hinv1 : ∃ c1, Inv s1 c1 := by
        cases call with
        | add v =>
          obtain ⟨s2, hadd, hinv2, _, _⟩ := Inv_add h v
          simp only [applyCall, hadd, Option.some.injEq] at hcall
          exact ⟨_, hcall ▸ hinv2⟩
        | del v =>
          by_cases hv : v ∈ c0.map Prod.snd
          · obtain ⟨pre, a, post, rfl, hpre⟩ := split_first v c0 hv
            obtain ⟨s2, hdel, hinv2, _⟩ := Inv_delete_found h hpre
            simp only [applyCall, hdel, Option.some.injEq] at hcall
            exact ⟨_, hcall ▸ hinv2⟩
          · have hne : ∀ x ∈ c0, x.2 ≠ v := by
              intro x hx hxv
              exact hv (List.mem_map.mpr ⟨x, hx, hxv⟩)
            have hdel := Inv_delete_absent h hne
            simp only [applyCall, hdel, Option.some.injEq] at hcall
            exact ⟨c0, hcall ▸ h⟩
        | reset =>
          simp only [applyCall, Option.some.injEq] at hcall
          exact ⟨c0, hcall ▸ Inv_listing h _⟩
        | next data =>
          simp only [applyCall, Option.map_eq_some'] at hcall
          obtain ⟨r, hr, hrs⟩ := hcall
          obtain ⟨b, d1, s2⟩ := r
          simp only at hrs
          subst hrs
          exact ⟨c0, GetNextItem_Inv h hr⟩
      obtain ⟨c1, hinv1⟩ := hinv1
      exact ih s1 s c1 hinv1 hrun

theorem Reached_Inv {s : LinkedList T} (h : Reached s) : ∃ c, Inv s c := by
  obtain ⟨calls, hrun⟩ := h
  exact runCalls_Inv calls mkEmpty s [] Inv_mkEmpty hrun

end ReachedListsInv

section EmptyReading

variable {T : Type} [DecidableEq T]

/-- C21: on a list without items, `GetNextItem` returns false, leaves the caller's variable
as it was and leaves the list object unchanged: so on the new list, on every list object whose
reading pointer is absent, and on every list obtained by calls of the public interface that
has no item left, after `ResetReading`. -/
theorem C21_next_item_on_empty_list :
    (∀ d : T, GetNextItem (mkEmpty : LinkedList T) d = some (false, d, mkEmpty)) ∧
    (∀ (s : LinkedList T) (d : T), s.p_listing = none → GetNextItem s d = some (false, d, s)) ∧
    (∀ (s : LinkedList T) (d : T), Reached s → nodesOnChain s = some [] →
      GetNextItem (ResetReading s) d = some (false, d, ResetReading s)) := by
  refine ⟨fun d => rfl, ?_, ?_⟩
  · intro s d h
    simp only [GetNextItem, h]
  · intro s d hs hn
    obtain ⟨c, hinv⟩ := Reached_Inv hs
    rw [nodesOnChain_Inv hinv] at hn
    have hc : c = [] := by simpa using hn
    subst hc
    have hh : s.p_head = none := hinv.chain
    simp only [GetNextItem, ResetReading, hh]

/-- C21 on the list that is left when 1 and 2 were added and deleted again: the read after
`ResetReading` returns false and the caller's 7; without `ResetReading` the reading pointer of
that list still holds the address of the released first item. -/
theorem C21_next_item_on_empty_list_witness :
    Reached emptiedList ∧ nodesOnChain emptiedList = some [] ∧
    GetNextItem (ResetReading emptiedList) 7 = some (false, 7, ResetReading emptiedList) ∧
    emptiedList.p_listing = some 0 ∧ deref emptiedList.heap 0 = none :=
  ⟨⟨[Call.add 1, Call.add 2, Call.del 1, Call.del 2], by decide⟩, by decide,
    C21_next_item_on_empty_list.2.2 emptiedList 7
      ⟨[Call.add 1, Call.add 2, Call.del 1, Call.del 2], by decide⟩ (by decide),
    by decide, by decide⟩

end EmptyReading

section ReadingPointerAndChanges

variable {T : Type} [DecidableEq T]

theorem DeleteItem_listing (s s1 : LinkedList T) (v : T) (h : DeleteItem v s = some s1) :
    s1.p_listing = s.p_listing := by
  cases hg : GetCurrentPreviousItemPointer v s with
  | none => simp [DeleteItem, hg] at h
  | some r =>
    obtain ⟨cur, prev⟩ := r
    cases cur with
    | none =>
      simp only [DeleteItem, hg, Option.some.injEq] at h
      rw [← h]
    | some c =>
      cases hd : deref s.heap c with
      | none => simp [DeleteItem, hg, hd] at h
      | some item =>
        cases prev with
        | none =>
          simp only [DeleteItem, hg, hd] at h
          rw [← Option.some_inj.mp h]
        | some p =>
          cases hp : deref s.heap p with
          | none => simp [DeleteItem, hg, hd, hp] at h
          | some prv =>
            simp only [DeleteItem, hg, hd, hp] at h
            split at h
            · exact absurd h (by simp)
            · rw [← Option.some_inj.mp h]

/-- C24: `DeleteItem` never changes the reading pointer; when the item it removes from a list
obtained by calls of the public interface is the one the reading pointer references, the
reading pointer still holds the address of that item afterwards, the item is released and
not on the chain from the head, and `ResetReading` moves the reading pointer to the head. -/
theorem C24_delete_keeps_reading_pointer :
    (∀ (s s1 : LinkedList T) (v : T), DeleteItem v s = some s1 → s1.p_listing = s.p_listing) ∧
    (∀ (s : LinkedList T) (v d : T) (l : List T) (nodes : List Nat) (a : Nat),
      Reached s → readValues s d = some l → v ∈ l → nodesOnChain s = some nodes →
      nodes[l.indexOf v]? = some a → s.p_listing = some a →
      ∃ s1 nodes1, DeleteItem v s = some s1 ∧ s1.p_listing = some a ∧
        nodesOnChain s1 = some nodes1 ∧ a ∉ nodes1 ∧ deref s1.heap a = none ∧
        (ResetReading s1).p_listing = s1.p_head) := by
  refine ⟨DeleteItem_listing, ?_⟩
  intro s v d l nodes a hs hl hv hn ha hcur
  obtain ⟨c, hinv⟩ := Reached_Inv hs
  rw [readValues_Inv hinv d] at hl
  cases hl
  rw [nodesOnChain_Inv hinv] at hn
  cases hn
  obtain ⟨pre, a1, post, hc, hpre⟩ := split_first v c hv
  obtain ⟨hi, hg⟩ := index_split hc hpre
  rw [hi, hg] at ha
  cases ha
  subst hc
  obtain ⟨s1, hdel, hinv1, hlist⟩ := Inv_delete_found hinv hpre
  have hnd := hinv.nodup
  simp only [List.map_append, List.map_cons] at hnd
  have hnot : a ∉ (pre ++ post).map Prod.fst := by
    simp only [List.map_append, List.mem_append, not_or]
    constructor
    · intro hmem
      exact (List.nodup_append.mp hnd).2.2 hmem (by simp)
    · exact (List.nodup_cons.mp (List.nodup_append.mp hnd).2.1).1
  refine ⟨s1, _, hdel, by rw [hlist, hcur], nodesOnChain_Inv hinv1, hnot, ?_, rfl⟩
  cases hd : deref s1.heap a with
  | none => rfl
  | some item => exact absurd (hinv1.live a item hd) hnot

/-- C24 on the list of `DemonstrateLinkedList_int` right after the insertion of 0..9, whose
reading pointer references the head item at address 0: after the deletion of 0 the reading
pointer is still address 0, the chain starts at address 1 and the cell at address 0 is
released. -/
theorem C24_delete_keeps_reading_pointer_witness :
    Reached filledList ∧ readValues filledList 0 = some [0, 1, 2, 3, 4, 5, 6, 7, 8, 9] ∧
    (0 : Int) ∈ [0, 1, 2, 3, 4, 5, 6, 7, 8, (9 : Int)] ∧
    nodesOnChain filledList = some [0, 1, 2, 3, 4, 5, 6, 7, 8, 9] ∧
    filledList.p_listing = some 0 ∧
    (∃ s1 nodes1, DeleteItem 0 filledList = some s1 ∧ s1.p_listing = some 0 ∧
      nodesOnChain s1 = some nodes1 ∧ 0 ∉ nodes1 ∧ deref s1.heap 0 = none ∧
      (ResetReading s1).p_listing = s1.p_head) ∧
    (DeleteItem 0 filledList).map (fun s => (s.p_listing, s.p_head)) = some (some 0, some 1) :=
  ⟨⟨(List.range 10).map (fun i => Call.add (i : Int)), by decide⟩, by decide, by decide,
    by decide, by decide,
    C24_delete_keeps_reading_pointer.2 filledList 0 0 [0, 1, 2, 3, 4, 5, 6, 7, 8, 9]
      [0, 1, 2, 3, 4, 5, 6, 7, 8, 9] 0
      ⟨(List.range 10).map (fun i => Call.add (i : Int)), by decide⟩ (by decide) (by decide)
      (by decide) (by decide) (by decide),
    by decide⟩

end ReadingPointerAndChanges

section InsertionAndReadingPointer

variable {T : Type}

theorem AddItemAtEnd_listing (s s1 : LinkedList T) (v : T) (h : AddItemAtEnd v s = some s1) :
    (s.p_head = none → s1.p_listing = some s.heap.length) ∧
      (s.p_head ≠ none → s1.p_listing = s.p_listing) := by
  cases hh : s.p_head with
  | none =>
    simp only [AddItemAtEnd, hh, Option.some.injEq] at h
    refine ⟨fun _ => ?_, fun hne => absurd rfl hne⟩
    rw [← h]
  | some a =>
    refine ⟨fun hnone => absurd hnone (by simp), fun _ => ?_⟩
    cases ht : s.p_tail with
    | none => simp [AddItemAtEnd, hh, ht] at h
    | some t =>
      cases hd : deref s.heap t with
      | none => simp [AddItemAtEnd, hh, ht, hd] at h
      | some item =>
        simp only [AddItemAtEnd, hh, ht, hd, Option.some.injEq] at h
        rw [← h]

end InsertionAndReadingPointer

section ReadingAfterInsertion

variable {T : Type} [DecidableEq T]

/-- C25: `AddItemAtEnd` sets the reading pointer to the new item when the list has no head and
leaves it unchanged otherwise; on a list obtained by calls of the public interface whose
reading pointer references an item and for which `GetNextItem` returns false with the value
`w`, after `AddItemAtEnd v` the next `GetNextItem` returns `w` with true and the one after
that returns `v` with false. -/
theorem C25_insert_keeps_reading_pointer :
    (∀ (s s1 : LinkedList T) (v : T), AddItemAtEnd v s = some s1 →
      (s.p_head = none → s1.p_listing = some s.heap.length) ∧
      (s.p_head ≠ none → s1.p_listing = s.p_listing)) ∧
    (∀ (s s0 : LinkedList T) (v d0 w : T) (a : Nat),
      Reached s → s.p_listing = some a → GetNextItem s d0 = some (false, w, s0) →
      ∃ s1, AddItemAtEnd v s = some s1 ∧ ∀ d1, ∃ s2,
        GetNextItem s1 d1 = some (true, w, s2) ∧
        ∀ d2, GetNextItem s2 d2 = some (false, v, s2)) := by
  refine ⟨AddItemAtEnd_listing, ?_⟩
  intro s s0 v d0 w a hs hcur hread
  obtain ⟨c, hinv⟩ := Reached_Inv hs
  have hda : deref s.heap a = some ⟨w, none⟩ := by
    cases hd : deref s.heap a with
    | none => simp [GetNextItem, hcur, hd] at hread
    | some item =>
      cases hn : item.p_next with
      | some n => simp [GetNextItem, hcur, hd, hn] at hread
      | none =>
        simp only [GetNextItem, hcur, hd, hn, Option.some.injEq, Prod.mk.injEq, true_and]
          at hread
        obtain ⟨data, nxt⟩ := item
        simp only at hn hread
        rw [hn, hread.1]
  have hmem := hinv.live a _ hda
  rcases List.eq_nil_or_concat c with rfl | ⟨c0, y, rfl⟩
  · simp at hmem
  · obtain ⟨t, w1⟩ := y
    rw [List.concat_eq_append] at hinv hmem
    have hat : a = t ∧ w = w1 := by
      obtain ⟨m, _, hm, nxt, hdt, _⟩ := (Seg_append c0 [(t, w1)] _ _).mp hinv.chain
      simp only [List.map_append, List.map_cons, List.map_nil, List.mem_append,
        List.mem_singleton] at hmem
      rcases hmem with hmem | hmem
      · obtain ⟨x, hx, hxa⟩ := List.mem_map.mp hmem
        obtain ⟨n, hdx⟩ := Seg_inner_next c0 _ _ _ hinv.chain x hx
        rw [hxa, hda] at hdx
        simp at hdx
      · subst hmem
        rw [hda] at hdt
        simp only [Option.some.injEq, LinkedListItem.mk.injEq] at hdt
        exact ⟨rfl, hdt.1⟩
    obtain ⟨rfl, rfl⟩ := hat
    obtain ⟨s1, hadd, hinv1, _, hkeep⟩ := Inv_add hinv v
    have hl1 : s1.p_listing = some a := by rw [hkeep (by simp), hcur]
    obtain ⟨m, _, hm, nxt, hdt1, hrest⟩ :=
      (Seg_append c0 ([(a, w)] ++ [(s.heap.length, v)]) _ _).mp
        (by simpa [List.append_assoc] using hinv1.chain)
    obtain ⟨hnx, nxt2, hdn, hend⟩ := hrest
    simp only [Seg_nil] at hend
    subst hend
    subst hnx
    refine ⟨s1, hadd, fun d1 => ⟨{ s1 with p_listing := some s.heap.length }, ?_, ?_⟩⟩
    · simp only [GetNextItem, hl1, hdt1]
    · intro d2
      simp only [GetNextItem, hdn]

/-- C25 on the list [1,2,4,5,6,8] of `DemonstrateLinkedList_int` after six reads, whose
reading pointer is at the item holding 8: after `AddItemAtEnd 11` the next read returns 8 with
true and the one after it 11 with false. -/
theorem C25_insert_keeps_reading_pointer_witness :
    Reached demoListRead ∧ demoListRead.p_listing = some 8 ∧
    GetNextItem demoListRead 0 = some (false, 8, demoListRead) ∧
    (∃ s1, AddItemAtEnd 11 demoListRead = some s1 ∧ ∀ d1, ∃ s2,
      GetNextItem s1 d1 = some (true, 8, s2) ∧
      ∀ d2, GetNextItem s2 d2 = some (false, 11, s2)) ∧
    ((AddItemAtEnd 11 demoListRead).bind (fun s => readNextN 3 s 0)).map
      (fun r => r.1) = some [(true, 8), (false, 11), (false, 11)] :=
  ⟨⟨demoCallsRead, by decide⟩, by decide, by decide,
    C25_insert_keeps_reading_pointer.2 demoListRead demoListRead 11 0 8 8
      ⟨demoCallsRead, by decide⟩ (by decide) (by decide),
    by decide⟩

end ReadingAfterInsertion

/-! ## Insertion after a forced loop -/

section UnchangedWalks

variable {T : Type}

/-- A walk is the same in two memories that agree on the cells of its nodes. -/
theorem walk_congr {heap heap1 : List (Option (LinkedListItem T))} {p : Option Nat}
    (h : ∀ k a, walk heap p k = some a → deref heap1 a = deref heap a) :
    ∀ k, walk heap1 p k = walk heap p k := by
  intro k
  induction k with
  | zero => rfl
  | succ k ih =>
    rw [walk_succ, walk_succ, ih]
    cases hw : walk heap p k with
    | none => rfl
    | some a => simp only [nextPtr, h k a hw]

/-- Successive `GetNextItem` calls return the same flags and values on two list objects that
have the same reading pointer and agree on the cells reachable from it. -/
theorem readNextN_congr (n : Nat) :
    ∀ (s s1 : LinkedList T) (d : T), s1.p_listing = s.p_listing →
      (∀ k a, walk s.heap s.p_listing k = some a → deref s1.heap a = deref s.heap a) →
      (readNextN n s1 d).map Prod.fst = (readNextN n s d).map Prod.fst := by
  induction n with
  | zero => intro s s1 d _ _; rfl
  | succ n ih =>
    intro s s1 d hl h
    rw [readNextN_succ, readNextN_succ]
    cases hp : s.p_listing with
    | none =>
      have hp1 : s1.p_listing = none := by rw [hl, hp]
      have := ih s s1 d hl h
      simp only [GetNextItem, hp, hp1]
      cases h1 : readNextN n s1 d <;> cases h2 : readNextN n s d <;>
        simp_all
    | some a =>
      have hp1 : s1.p_listing = some a := by rw [hl, hp]
      have hda : deref s1.heap a = deref s.heap a := h 0 a (by rw [hp]; rfl)
      cases hd : deref s.heap a with
      | none => simp only [GetNextItem, hp, hp1, hda, hd]
      | some item =>
        cases hn : item.p_next with
        | none =>
          have := ih s s1 item.data hl h
          simp only [GetNextItem, hp, hp1, hda, hd, hn]
          cases h1 : readNextN n s1 item.data <;> cases h2 : readNextN n s item.data <;>
            simp_all
        | some nx =>
          have hstep : ∀ k b, walk s.heap (some nx) k = some b →
              deref s1.heap b = deref s.heap b := by
            intro k b hw
            refine h (k + 1) b ?_
            rw [hp]
            simp only [walk, nextPtr, hd, hn]
            exact hw
          have := ih { s with p_listing := some nx } { s1 with p_listing := some nx } item.data
            rfl hstep
          simp only [GetNextItem, hp, hp1, hda, hd, hn]
          cases h1 : readNextN n { s1 with p_listing := some nx } item.data <;>
            cases h2 : readNextN n { s with p_listing := some nx } item.data <;>
            simp_all

theorem Seg_inner_next_mem {heap : List (Option (LinkedListItem T))} (c0 : List (Nat × T)) :
    ∀ (p q : Option Nat) (y : Nat × T), Seg heap p (c0 ++ [y]) q →
      ∀ x ∈ c0, ∃ n, deref heap x.1 = some ⟨x.2, some n⟩ ∧ n ∈ (c0 ++ [y]).map Prod.fst := by
  induction c0 with
  | nil => intro p q y _ x hx; simp at hx
  | cons z r ih =>
    obtain ⟨a, v⟩ := z
    rintro p q y ⟨_, nxt, hd, hr⟩ x hx
    simp only [List.mem_cons] at hx
    rcases hx with rfl | hx
    · cases r with
      | nil =>
        obtain ⟨b, w⟩ := y
        have : nxt = some b := hr.1
        exact ⟨b, by rw [← this]; exact hd, by simp⟩
      | cons z1 r1 =>
        obtain ⟨b, w⟩ := z1
        have : nxt = some b := hr.1
        exact ⟨b, by rw [← this]; exact hd, by simp⟩
    · obtain ⟨n, hdn, hmem⟩ := ih nxt q y hr x hx
      exact ⟨n, hdn, by simp only [List.cons_append, List.map_cons, List.mem_cons]; exact Or.inr hmem⟩

theorem Seg_head_mem {heap : List (Option (LinkedListItem T))} {p q : Option Nat}
    {c : List (Nat × T)} (h : Seg heap p c q) (hc : c ≠ []) :
    ∃ a, p = some a ∧ a ∈ c.map Prod.fst := by
  cases c with
  | nil => exact absurd rfl hc
  | cons z r => obtain ⟨a, v⟩ := z; exact ⟨a, h.1, by simp⟩

/-- `AddItemAtEnd` on a node structure with a head and a live tail item returns a node
structure: the new cell is appended to the memory and the tail item references it. -/
theorem AddItemAtEnd_Closed {s : LinkedList T} (hc : Closed s) (v : T) {h0 t : Nat}
    {ti : LinkedListItem T} (hh : s.p_head = some h0) (ht : s.p_tail = some t)
    (hd : deref s.heap t = some ti) :
    ∃ s2, AddItemAtEnd v s = some s2 ∧ Closed s2 ∧ s2.p_head = s.p_head ∧
      s2.p_listing = s.p_listing ∧ s2.items_num = s.items_num + 1 ∧
      s2.p_tail = some s.heap.length ∧
      deref s2.heap t = some { data := ti.data, p_next := some s.heap.length } ∧
      deref s2.heap s.heap.length = some { data := v, p_next := none } ∧
      ∀ b, b ≠ t → b < s.heap.length → deref s2.heap b = deref s.heap b := by
  have htlt := deref_lt hd
  have hadd : AddItemAtEnd v s = some
      { heap := (s.heap ++ [some ({ data := v, p_next := none } : LinkedListItem T)]).set t
          (some { data := ti.data, p_next := some s.heap.length }),
        p_head := s.p_head, p_tail := some s.heap.length,
        p_listing := s.p_listing, items_num := s.items_num + 1 } := by
    simp only [AddItemAtEnd, hh, ht, hd]
  have hdt : deref ((s.heap ++ [some ({ data := v, p_next := none } : LinkedListItem T)]).set t
      (some { data := ti.data, p_next := some s.heap.length })) t
      = some { data := ti.data, p_next := some s.heap.length } :=
    deref_set_self _ (by simp only [List.length_append, List.length_singleton]; omega)
  have hdl : deref ((s.heap ++ [some ({ data := v, p_next := none } : LinkedListItem T)]).set t
      (some { data := ti.data, p_next := some s.heap.length })) s.heap.length
      = some { data := v, p_next := none } := by
    rw [deref_set_ne _ (by omega), deref_append_length]
  have hother : ∀ b, b ≠ t → b < s.heap.length →
      deref ((s.heap ++ [some ({ data := v, p_next := none } : LinkedListItem T)]).set t
        (some { data := ti.data, p_next := some s.heap.length })) b = deref s.heap b := by
    intro b hbt hb
    rw [deref_set_ne _ (Ne.symm hbt), deref_append_left _ hb]
  obtain ⟨h1, h2⟩ := (Closed_iff s).mp hc
  have hvalid : ∀ p, validPtr s.heap p = true →
      validPtr ((s.heap ++ [some ({ data := v, p_next := none } : LinkedListItem T)]).set t
        (some { data := ti.data, p_next := some s.heap.length })) p = true := by
    intro p hp
    cases p with
    | none => rfl
    | some b =>
      obtain ⟨it, hit⟩ := validPtr_some hp
      by_cases hbt : b = t
      · subst hbt; simp [validPtr, hdt]
      · simp [validPtr, hother b hbt (deref_lt hit), hit]
  refine ⟨_, hadd, (Closed_iff _).mpr ⟨hvalid _ h1, ?_⟩, rfl, rfl, rfl, rfl, hdt, hdl, hother⟩
  intro b item hb
  by_cases hbt : b = t
  · subst hbt
    simp only [hdt, Option.some.injEq] at hb
    rw [← hb]
    simp [validPtr, hdl]
  · have hblt := deref_lt hb
    simp only [List.length_set, List.length_append, List.length_singleton] at hblt
    rcases Nat.lt_succ_iff_lt_or_eq.mp hblt with hlt | heq
    · simp only [hother b hbt hlt] at hb
      exact hvalid _ (h2 b item hb)
    · subst heq
      simp only [hdl, Option.some.injEq] at hb
      rw [← hb]
      rfl

end UnchangedWalks

section InsertionAfterLoop

variable {T : Type} [DecidableEq T]

/-- A link from the first item holding `x` back to the first item holding `y`: the item that
is linked to is the item holding `x` or one of the items before it. -/
theorem SetNextReference_back_link {s : LinkedList T} {pre post : List (Nat × T)} {a : Nat}
    {x y : T} (h : Inv s (pre ++ (a, x) :: post)) (hpre : ∀ u ∈ pre, u.2 ≠ x)
    (hle : ((pre ++ (a, x) :: post).map Prod.snd).indexOf y ≤ pre.length) :
    ∃ n nxt, n ∈ (pre ++ [(a, x)]).map Prod.fst ∧ deref s.heap a = some ⟨x, nxt⟩ ∧
      SetNextReference x y s
        = some { s with heap := s.heap.set a (some { data := x, p_next := some n }) } := by
  have hle1 : ((pre.map Prod.snd) ++ x :: post.map Prod.snd).indexOf y
      ≤ (pre.map Prod.snd).length := by simpa using hle
  rcases indexOf_le_split hle1 with hy | hy
  · obtain ⟨p1, n, p2, rfl, hp1⟩ := split_first y pre hy
    have h2 : Inv s (p1 ++ (n, y) :: (p2 ++ (a, x) :: post)) := by simpa using h
    obtain ⟨nxt, hda, _, hset⟩ := SetNextReference_found h hpre h2 hp1
    exact ⟨n, nxt, by simp, hda, hset⟩
  · subst hy
    obtain ⟨nxt, hda, _, hset⟩ := SetNextReference_found h hpre h hpre
    exact ⟨a, nxt, by simp, hda, hset⟩

/-- C26: on a list built by `AddItemAtEnd` and `DeleteItem` calls, after `SetNextReference x y`
has linked the first item holding `x`, which is not the tail, back to the first item holding
`y`, the tail is not reachable from the head, and `AddItemAtEnd v` for a value `v` held by no
reachable node increases the number of items by one and links the new item behind the tail:
the walk from the head is as before, `IsItemPresent v` returns false, reading after
`ResetReading` returns the same flags and values as before, and all three detectors return
true. -/
theorem C26_insert_behind_unreachable_tail (s s1 : LinkedList T) (x y v d : T) (l : List T)
    (hs : Built s) (hl : readValues s d = some l) (hx : x ∈ l)
    (hle : l.indexOf y ≤ l.indexOf x) (hnt : l.indexOf x + 1 < l.length)
    (hlink : SetNextReference x y s = some s1)
    (hv : ∀ k a item, walk s1.heap s1.p_head k = some a → deref s1.heap a = some item →
      item.data ≠ v) :
    ∃ s2 t w, AddItemAtEnd v s1 = some s2 ∧ GetItemsNum s2 = GetItemsNum s1 + 1 ∧
      s1.p_tail = some t ∧ (∀ k, walk s1.heap s1.p_head k ≠ some t) ∧
      deref s2.heap t = some { data := w, p_next := some s1.heap.length } ∧
      deref s2.heap s1.heap.length = some { data := v, p_next := none } ∧
      (∀ k, walk s2.heap s2.p_head k = walk s1.heap s1.p_head k) ∧
      IsItemPresent v s2 = some false ∧
      (∀ n d1, (readNextN n (ResetReading s2) d1).map Prod.fst
        = (readNextN n (ResetReading s1) d1).map Prod.fst) ∧
      IsLooping_TransitionCount s2 = some true ∧ IsLooping_FloydsCycleFind s2 = some true ∧
      ∀ size, IsLooping_OpenHash size s2 = some true := by
  obtain ⟨c, hinv⟩ := Built_Inv hs
  rw [readValues_Inv hinv d] at hl
  cases hl
  obtain ⟨s1c, hsetc, htr, _, hcyc⟩ := SetNextReference_cyclic hinv hx hle
  rw [hlink] at hsetc
  cases hsetc
  have hc1 : Closed s1 := htr.1
  obtain ⟨pre, a, post, hc, hpre⟩ := split_first x c hx
  obtain ⟨hi, _⟩ := index_split hc hpre
  subst hc
  rw [hi] at hle hnt
  obtain ⟨n, nxt, hnmem, hda, hset⟩ := SetNextReference_back_link hinv hpre hle
  rw [hlink] at hset
  cases hset
  simp only [List.length_map, List.length_append, List.length_cons] at hnt
  rcases List.eq_nil_or_concat post with rfl | ⟨post0, z, rfl⟩
  · simp at hnt
  · obtain ⟨t, w⟩ := z
    rw [List.concat_eq_append] at hinv
    -- the chain of `s`: the items up to the one holding `x`, the items after it, the tail
    have hchain : Seg s.heap s.p_head ((pre ++ [(a, x)]) ++ (post0 ++ [(t, w)])) none := by
      simpa [List.append_assoc] using hinv.chain
    obtain ⟨m, hseg1, hseg2⟩ := (Seg_append (pre ++ [(a, x)]) _ _ _).mp hchain
    obtain ⟨m2, _, hm2, nxt2, hdt, hend⟩ := (Seg_append post0 [(t, w)] _ _).mp hseg2
    simp only [Seg_nil] at hend
    subst hend
    have hnd := hinv.nodup
    have hnd1 : ((pre ++ [(a, x)]).map Prod.fst ++ (post0.map Prod.fst ++ [t])).Nodup := by
      simpa [List.append_assoc] using hnd
    have ht_reg : t ∉ (pre ++ [(a, x)]).map Prod.fst := by
      intro hmem
      exact (List.nodup_append.mp hnd1).2.2 hmem (by simp)
    have hat : a ≠ t := by
      rintro rfl
      exact ht_reg (by simp)
    have halt : a < s.heap.length := deref_lt hda
    -- the region of the items up to the one holding `x` is closed under the next pointers
    have hregion : ∀ b ∈ (pre ++ [(a, x)]).map Prod.fst,
        linksInto (s.heap.set a (some ({ data := x, p_next := some n } : LinkedListItem T)))
          ((pre ++ [(a, x)]).map Prod.fst) b = true := by
      intro b hb
      by_cases hba : b = a
      · subst hba
        simp only [linksInto, deref_set_self _ halt, decide_eq_true_eq]
        exact hnmem
      · have hbpre : b ∈ pre.map Prod.fst := by
          simp only [List.map_append, List.map_cons, List.map_nil, List.mem_append,
            List.mem_singleton] at hb
          rcases hb with hb | hb
          · exact hb
          · exact absurd hb hba
        obtain ⟨u, hu, hub⟩ := List.mem_map.mp hbpre
        obtain ⟨nb, hdb, hnb⟩ := Seg_inner_next_mem pre _ _ _ hseg1 u hu
        rw [hub] at hdb
        simp only [linksInto, deref_set_ne _ (Ne.symm hba), hdb, decide_eq_true_eq]
        exact hnb
    obtain ⟨h0, hh0, hh0mem⟩ := Seg_head_mem hseg1 (by simp)
    have hreach : ∀ k b,
        walk (s.heap.set a (some ({ data := x, p_next := some n } : LinkedListItem T)))
          s.p_head k = some b → b ∈ (pre ++ [(a, x)]).map Prod.fst := by
      intro k b hw
      refine reach_of_region _ _ hregion k s.p_head ?_ b hw
      intro e he
      rw [hh0] at he
      cases he
      exact hh0mem
    have hreg_lt : ∀ b ∈ (pre ++ [(a, x)]).map Prod.fst, b < s.heap.length :=
      Seg_lt _ _ _ hseg1
    -- the insertion
    have htail : s.p_tail = some t := by
      rw [hinv.tail (by simp), show pre ++ (a, x) :: (post0 ++ [(t, w)])
        = (pre ++ (a, x) :: post0) ++ [(t, w)] by simp, lastPtr_append_singleton]
    have hdt1 : deref (s.heap.set a (some ({ data := x, p_next := some n } : LinkedListItem T)))
        t = some ⟨w, none⟩ := by
      rw [deref_set_ne _ hat]; exact hdt
    obtain ⟨s2, hadd, hc2, hhead2, hlist2, hnum2, _, hd2t, hd2new, hother⟩ :=
      AddItemAtEnd_Closed hc1 v hh0 htail hdt1
    simp only [List.length_set] at hd2t hd2new hother
    have hsame : ∀ k b,
        walk (s.heap.set a (some ({ data := x, p_next := some n } : LinkedListItem T)))
          s.p_head k = some b →
        deref s2.heap b
          = deref (s.heap.set a (some ({ data := x, p_next := some n } : LinkedListItem T)))
              b := by
      intro k b hw
      have hb := hreach k b hw
      refine hother b ?_ (hreg_lt b hb)
      rintro rfl
      exact ht_reg hb
    have hwalk : ∀ k, walk s2.heap s2.p_head k
        = walk (s.heap.set a (some ({ data := x, p_next := some n } : LinkedListItem T)))
            s.p_head k := by
      intro k
      rw [hhead2]
      exact walk_congr hsame k
    have hcyc2 : ∀ k, walk s2.heap s2.p_head k ≠ none := by
      intro k
      rw [hwalk k]
      exact hcyc k
    have hno2 : ∀ k b item, walk s2.heap s2.p_head k = some b → deref s2.heap b = some item →
        item.data ≠ v := by
      intro k b item hw hb
      rw [hwalk k] at hw
      rw [hsame k b hw] at hb
      exact hv k b item hw hb
    obtain ⟨bf, nf, hfuel, hiff, _⟩ := floyd_verdict hc2
    obtain ⟨bo, _, _⟩ := openHash_verdict hc2 0
    have hbf : bf = true := hiff.mpr hcyc2
    subst hbf
    refine ⟨s2, t, w, hadd, hnum2, htail, ?_, ?_, ?_, hwalk, (unheld_not_found hc2 v hno2).1, ?_,
      ?_, ?_, ?_⟩
    · intro k hw
      exact ht_reg (hreach k t hw)
    · simpa [List.length_set] using hd2t
    · simpa [List.length_set] using hd2new
    · intro cnt d1
      refine readNextN_congr cnt _ _ d1 ?_ ?_
      · simp only [ResetReading, hhead2]
      · intro k b hw
        exact hsame k b hw
    · rw [transitionCount_verdict hc2]
      congr 1
      exact Option.ne_none_iff_isSome.mp (hcyc2 _)
    · simp only [IsLooping_FloydsCycleFind, hfuel _ (Nat.le_refl _), Option.map_some']
    · intro size
      obtain ⟨b2, hfuel2, hiff2⟩ := openHash_verdict hc2 size
      have hb2 : b2 = true := hiff2.mpr hcyc2
      subst hb2
      exact hfuel2 _ (Nat.le_refl _)

end InsertionAfterLoop

section InsertionAfterLoopWitness

/-- C26 on the list [1,2,4,5,6,8,11,12,13] of `DemonstrateLinkedList_int` after the link from
12 to 4: `AddItemAtEnd 14` gives 10 items, 14 is not found, and twelve reads return the same
values as before. -/
theorem C26_insert_behind_unreachable_tail_witness :
    Built demoListFull ∧ readValues demoListFull 0 = some [1, 2, 4, 5, 6, 8, 11, 12, 13] ∧
    (12 : Int) ∈ [1, 2, 4, 5, 6, 8, 11, 12, (13 : Int)] ∧
    List.indexOf (4 : Int) [1, 2, 4, 5, 6, 8, 11, 12, 13]
      ≤ List.indexOf (12 : Int) [1, 2, 4, 5, 6, 8, 11, 12, 13] ∧
    List.indexOf (12 : Int) [1, 2, 4, 5, 6, 8, 11, 12, 13] + 1
      < ([1, 2, 4, 5, 6, 8, 11, 12, 13] : List Int).length ∧
    SetNextReference 12 4 demoListFull = some demoListLooped ∧
    (∀ k a item, walk demoListLooped.heap demoListLooped.p_head k = some a →
      deref demoListLooped.heap a = some item → item.data ≠ 14) ∧
    (∃ s2 t w, AddItemAtEnd 14 demoListLooped = some s2 ∧
      GetItemsNum s2 = GetItemsNum demoListLooped + 1 ∧
      demoListLooped.p_tail = some t ∧
      (∀ k, walk demoListLooped.heap demoListLooped.p_head k ≠ some t) ∧
      deref s2.heap t = some { data := w, p_next := some demoListLooped.heap.length } ∧
      deref s2.heap demoListLooped.heap.length = some { data := 14, p_next := none } ∧
      (∀ k, walk s2.heap s2.p_head k = walk demoListLooped.heap demoListLooped.p_head k) ∧
      IsItemPresent 14 s2 = some false ∧
      (∀ n d1, (readNextN n (ResetReading s2) d1).map Prod.fst
        = (readNextN n (ResetReading demoListLooped) d1).map Prod.fst) ∧
      IsLooping_TransitionCount s2 = some true ∧ IsLooping_FloydsCycleFind s2 = some true ∧
      ∀ size, IsLooping_OpenHash size s2 = some true) ∧
    (AddItemAtEnd 14 demoListLooped).map GetItemsNum = some 10 ∧
    (AddItemAtEnd 14 demoListLooped).bind (IsItemPresent 14) = some false ∧
    ((AddItemAtEnd 14 demoListLooped).bind (fun s => readNextN 12 (ResetReading s) 0)).map
      (fun r => r.1.map Prod.snd) = some [1, 2, 4, 5, 6, 8, 11, 12, 4, 5, 6, 8] :=
  ⟨⟨demoOpsFull, by decide⟩, by decide, by decide, by decide, by decide, by decide,
    fun k => unheld_of_region demoListLooped.heap [1, 2, 4, 5, 6, 8, 10, 11] 14 (by decide) k
      demoListLooped.p_head (by decide),
    C26_insert_behind_unreachable_tail demoListFull demoListLooped 12 4 14 0
      [1, 2, 4, 5, 6, 8, 11, 12, 13] ⟨demoOpsFull, by decide⟩ (by decide) (by decide)
      (by decide) (by decide) (by decide)
      (fun k => unheld_of_region demoListLooped.heap [1, 2, 4, 5, 6, 8, 10, 11] 14 (by decide) k
        demoListLooped.p_head (by decide)),
    by decide, by decide, by decide⟩

end InsertionAfterLoopWitness

end LinkedListCpp
